import Mathlib

/-!
Verification of the cattysend core against its specification.

This file shallowly embeds the relevant parts of the Rust sources of the
cattysend repository (crates/cattysend-core) in Lean 4 and proves, or refutes,
the frozen specification claims about them.

Modelling conventions:
* Rust unsigned machine integers (u8, u16, u32, u64, usize) are modelled as
  Nat, with explicit truncation (mod 2 ^ w, or a bitwise and) exactly where the
  Rust code performs an integer cast. Signed integers (i16, i32) are Int.
* Rust byte buffers (Vec<u8>, &[u8]) are List Nat whose elements are < 256;
  validity bounds are carried as hypotheses where they matter.
* Rust String / &str values are modelled either as Lean String (where their
  contents are opaque to the code under study) or as their UTF-8 byte sequence
  (List Nat) where the code manipulates raw bytes.
* HashMap iteration is modelled as iteration over an association list; the
  list order stands for the (unspecified) iteration order of the map.
* serde_json values are modelled by an inductive JSON type whose numbers are
  arbitrary-precision integers; floating point JSON literals are outside the
  embedding.
-/

namespace Cattysend

/-! ## Brand taxonomy (src/crates/cattysend-core/src/ble/scanner.rs) -/

/-- Known brands found in the CatShare/MTA protocol, as the Rust enum
`Brand` in ble/scanner.rs. The `Unknown` constructor carries the i16 id. -/
inductive Brand where
  | Xiaomi
  | BlackShark
  | Oppo
  | Realme
  | OnePlus
  | Vivo
  | Meizu
  | Nubia
  | Samsung
  | Zte
  | Smartisan
  | Lenovo
  | Motorola
  | Nio
  | Honor
  | Hisense
  | Asus
  | Rog
  | Unknown (id : Int)
  deriving DecidableEq, Repr

/-- Embedding of `impl From<i16> for Brand` (ble/scanner.rs, lines 84-112).
The Rust `match` arms are tried in source order, so the earlier arms
(11, 32) override the ranges that follow them (10..=19, 30..=39). -/
def Brand.fromI16 (id : Int) : Brand :=
  if id = 11 then .Realme
  else if 10 ≤ id ∧ id ≤ 19 then .Oppo
  else if 20 ≤ id ∧ id ≤ 29 then .Vivo
  else if id = 32 then .BlackShark
  else if 30 ≤ id ∧ id ≤ 39 then .Xiaomi
  else if 41 ≤ id ∧ id ≤ 45 then .OnePlus
  else if 50 ≤ id ∧ id ≤ 59 then .Meizu
  else if 60 ≤ id ∧ id ≤ 69 then .Nubia
  else if 70 ≤ id ∧ id ≤ 75 then .Samsung
  else if 80 ≤ id ∧ id ≤ 89 then .Zte
  else if 90 ≤ id ∧ id ≤ 95 then .Smartisan
  else if 100 ≤ id ∧ id ≤ 109 then .Lenovo
  else if 110 ≤ id ∧ id ≤ 119 then .Motorola
  else if 120 ≤ id ∧ id ≤ 129 then .Nio
  else if 140 ≤ id ∧ id ≤ 149 then .Honor
  else if (-86 ≤ id ∧ id ≤ -77) ∨ (170 ≤ id ∧ id ≤ 179) then .Hisense
  else if id = -96 ∨ id = 160 then .Rog
  else if (-95 ≤ id ∧ id ≤ -87) ∨ (161 ≤ id ∧ id ≤ 169) then .Asus
  else .Unknown id

/-- Reference brand table written from the words of the specification
(spec section 4.2, brand taxonomy table, rows read top to bottom).
This is the refinement reference that `Brand.fromI16` is compared with. -/
def specBrandTable (id : Int) : Brand :=
  if id = 11 then .Realme
  else if 10 ≤ id ∧ id ≤ 19 then .Oppo
  else if 20 ≤ id ∧ id ≤ 29 then .Vivo
  else if id = 32 then .BlackShark
  else if 30 ≤ id ∧ id ≤ 39 then .Xiaomi
  else if 41 ≤ id ∧ id ≤ 45 then .OnePlus
  else if 50 ≤ id ∧ id ≤ 59 then .Meizu
  else if 60 ≤ id ∧ id ≤ 69 then .Nubia
  else if 70 ≤ id ∧ id ≤ 75 then .Samsung
  else if 80 ≤ id ∧ id ≤ 89 then .Zte
  else if 90 ≤ id ∧ id ≤ 95 then .Smartisan
  else if 100 ≤ id ∧ id ≤ 109 then .Lenovo
  else if 110 ≤ id ∧ id ≤ 119 then .Motorola
  else if 120 ≤ id ∧ id ≤ 129 then .Nio
  else if 140 ≤ id ∧ id ≤ 149 then .Honor
  else if (-86 ≤ id ∧ id ≤ -77) ∨ (170 ≤ id ∧ id ≤ 179) then .Hisense
  else if id = -96 ∨ id = 160 then .Rog
  else if (-95 ≤ id ∧ id ≤ -87) ∨ (161 ≤ id ∧ id ≤ 169) then .Asus
  else .Unknown id

/-! ## Service metadata decoding (ble/scanner.rs, parse_service_metadata) -/

/-- Lowercase hexadecimal digit, as used by the format specifier x. -/
def hexDigitChar (n : Nat) : Char :=
  if n < 10 then Char.ofNat (48 + n) else Char.ofNat (87 + n)

/-- Rust format string 04x applied to a u16 value: four lowercase hex
digits with leading zeros. -/
def hex4 (v : Nat) : String :=
  String.mk [hexDigitChar (v / 4096 % 16), hexDigitChar (v / 256 % 16),
             hexDigitChar (v / 16 % 16), hexDigitChar (v % 16)]

/-- Result triple of `BleScanner::parse_service_metadata`. -/
structure ServiceMeta where
  sender_id : String
  brand_id : Option Int
  supports_5ghz : Bool
  deriving DecidableEq, Repr

/-- One step of the service-data loop in `parse_service_metadata`
(ble/scanner.rs, lines 404-424): 27-byte entries update the sender id from
the big-endian u16 at offsets 8..10; 6-byte entries whose UUID starts with
two zero bytes set the 5 GHz flag from UUID byte 2 and the brand id from
UUID byte 3 (a u8 widened to i16, hence nonnegative). -/
def serviceMetaStep (acc : String × Option Int × Bool) (entry : List Nat × List Nat) :
    String × Option Int × Bool :=
  let uuid := entry.1
  let data := entry.2
  let sender_id := acc.1
  let brand_id := acc.2.1
  let supports := acc.2.2
  if data.length = 27 then
    (hex4 (data.getD 8 0 * 256 + data.getD 9 0), brand_id, supports)
  else if data.length = 6 then
    if uuid.getD 0 0 = 0 ∧ uuid.getD 1 0 = 0 then
      (sender_id, some ((uuid.getD 3 0 : Nat) : Int), uuid.getD 2 0 == 1)
    else acc
  else acc

/-- Embedding of `BleScanner::parse_service_metadata` (ble/scanner.rs,
lines 395-439). `service_data` maps 16-byte UUIDs to byte payloads;
`manuf_data` maps u16 manufacturer ids to payloads. If no brand id was
found in the service data, the first manufacturer-data key is cast
u16 -> i16 (wrapping) and used as the brand id. -/
def parseServiceMetadata (service_data : List (List Nat × List Nat))
    (manuf_data : List (Nat × List Nat)) : ServiceMeta :=
  let st := service_data.foldl serviceMetaStep ("0000", none, false)
  let brand_id :=
    match st.2.1 with
    | some b => some b
    | none =>
      match manuf_data with
      | [] => none
      | (k, _) :: _ => some (if k < 32768 then (k : Int) else (k : Int) - 65536)
  ⟨st.1, brand_id, st.2.2⟩

/-- The 16 bytes of the capability UUID 000001ff-0000-1000-8000-00805f9b34fb. -/
def capabilityUuidFF : List Nat :=
  [0x00, 0x00, 0x01, 0xFF, 0x00, 0x00, 0x10, 0x00,
   0x80, 0x00, 0x00, 0x80, 0x5f, 0x9b, 0x34, 0xfb]

/-! ## Legacy advertisement encoder (ble/mgmt_advertiser.rs) -/

/-- Embedding of the `LegacyAdvConfig` struct (mgmt_advertiser.rs). The
Rust field `instance` is named `adv_instance` here because `instance` is a
Lean keyword. -/
structure LegacyAdvConfig where
  controller_index : Nat := 0
  adv_instance : Nat := 1
  connectable : Bool := true
  discoverable : Bool := true
  adv_data : List Nat := []
  scan_rsp_data : List Nat := []
  duration : Nat := 0
  timeout : Nat := 0
  deriving DecidableEq, Repr

/-- Embedding of `LegacyAdvConfig::catshare_compatible`
(mgmt_advertiser.rs, lines 72-130). `device_name` is the UTF-8 byte
sequence of the Rust `&str` argument; `service_uuid` and `ident_uuid` are
u16 values. The casts `as u8` in the source become explicit truncations. -/
def LegacyAdvConfig.catshareCompatible (service_uuid : Nat) (ident_uuid : Nat)
    (ident_data : List Nat) (device_name : List Nat) (_sender_id : Nat × Nat) :
    LegacyAdvConfig :=
  let ident_data_len := min ident_data.length 6
  let adv_data : List Nat :=
    [2, 0x01, 0x06] ++
    [3, 0x03, service_uuid &&& 0xFF, (service_uuid >>> 8) % 256] ++
    ((3 + ident_data_len) % 256 :: 0x16 :: (ident_uuid &&& 0xFF) ::
      ((ident_uuid >>> 8) % 256) :: ident_data.take ident_data_len)
  let name_len := min device_name.length 29
  let scan_rsp : List Nat :=
    if name_len > 0 then
      (1 + name_len) % 256 :: 0x09 :: device_name.take name_len
    else []
  { adv_data := adv_data, scan_rsp_data := scan_rsp,
    connectable := true, discoverable := true }

/-! ## Bulk download endpoint (transfer/sender_server.rs) -/

/-- Compression method recorded for each ZIP entry; the sender server
always selects `stored` (no compression). -/
inductive CompressionMethod where
  | stored
  | deflated
  deriving DecidableEq, Repr

/-- A ZIP entry as produced by `create_zip_response`: its name inside the
archive, its compression method, and its contents. -/
structure ZipEntry where
  name : String
  method : CompressionMethod
  data : List Nat
  deriving DecidableEq, Repr

/-- Embedding of the `FileEntry` struct (transfer/sender_server.rs). -/
structure FileEntry where
  path : String
  name : String
  size : Nat
  mime_type : String
  deriving DecidableEq, Repr

/-- Embedding of the `TransferTask` struct (transfer/sender_server.rs). -/
structure TransferTask where
  task_id : String
  files : List FileEntry
  sender_id : String
  sender_name : String
  deriving DecidableEq, Repr

/-- The enumerate-and-pack loop of `create_zip_response`
(transfer/sender_server.rs, lines 318-340): entry `i` is named
`<i>/<file name>`, uses Stored compression, and contains the bytes read
from the file; a failing file read aborts the whole response. The
filesystem is the explicit map `fs` from paths to contents. -/
def zipEntriesFrom (fs : String → Option (List Nat)) :
    Nat → List FileEntry → Option (List ZipEntry)
  | _, [] => some []
  | i, f :: rest =>
    match fs f.path with
    | none => none
    | some contents =>
      match zipEntriesFrom fs (i + 1) rest with
      | none => none
      | some es => some (⟨toString i ++ "/" ++ f.name, .stored, contents⟩ :: es)

/-- Embedding of `create_zip_response` (transfer/sender_server.rs). -/
def createZipResponse (fs : String → Option (List Nat)) (files : List FileEntry) :
    Option (List ZipEntry) :=
  zipEntriesFrom fs 0 files

/-- The observable response of the download route: 404, 200 with a ZIP
body, or 500. -/
inductive DownloadResponse where
  | notFound
  | ok (entries : List ZipEntry)
  | internalError
  deriving DecidableEq, Repr

/-- Embedding of `download_handler` (transfer/sender_server.rs, lines
288-316): the query task id is compared with the active task id; on
mismatch the response is 404 with no file data, otherwise the ZIP is
built (500 if a file read fails). -/
def downloadHandler (fs : String → Option (List Nat)) (task : TransferTask)
    (query_task_id : String) : DownloadResponse :=
  if task.task_id ≠ query_task_id then .notFound
  else
    match createZipResponse fs task.files with
    | some entries => .ok entries
    | none => .internalError

/-! ## JSON values (model of serde_json::Value)

serde_json object maps are BTreeMaps ordered by the UTF-8 bytes of the key;
since UTF-8 byte order coincides with code-point order, keys are ordered
lexicographically by scalar value here. JSON numbers are modelled as
arbitrary-precision integers: floating-point literals (a fraction or an
exponent part) are outside the embedding and make the model parser fail. -/

/-- JSON value. Object entries are kept sorted by key (the BTreeMap order);
the parser below only ever produces sorted, duplicate-free entry lists. -/
inductive Json where
  | null
  | bool (b : Bool)
  | num (n : Int)
  | str (s : List Char)
  | arr (elems : List Json)
  | obj (entries : List (List Char × Json))

/-- Lexicographic strict order on keys by unicode scalar value, matching
the byte order of the UTF-8 encodings that BTreeMap of String uses. -/
def keyLt : List Char → List Char → Bool
  | [], [] => false
  | [], _ :: _ => true
  | _ :: _, [] => false
  | a :: as, b :: bs =>
    a.toNat < b.toNat || (a == b && keyLt as bs)

/-- BTreeMap insertion into a sorted entry list: replaces the value on an
equal key, otherwise keeps the list sorted. -/
def objInsert (k : List Char) (v : Json) :
    List (List Char × Json) → List (List Char × Json)
  | [] => [(k, v)]
  | (k2, v2) :: rest =>
    if keyLt k k2 then (k, v) :: (k2, v2) :: rest
    else if k = k2 then (k, v) :: rest
    else (k2, v2) :: objInsert k v rest

/-- Building a JSON object from entries in source order through BTreeMap
insertion; models the serde_json Map construction (and the json! macro). -/
def jsonObjOfList (entries : List (List Char × Json)) : Json :=
  .obj (entries.foldl (fun acc kv => objInsert kv.1 kv.2 acc) [])

/-- BTreeMap lookup in an entry list. -/
def objLookup (k : List Char) : List (List Char × Json) → Option Json
  | [] => none
  | (k2, v) :: rest => if k = k2 then some v else objLookup k rest

/-- Decimal digits of a natural number, most significant first, as written
by the Rust (and serde_json) integer formatter. -/
def natDigits (n : Nat) : List Char :=
  if h : n < 10 then [Char.ofNat (48 + n)]
  else natDigits (n / 10) ++ [Char.ofNat (48 + n % 10)]
  decreasing_by exact Nat.div_lt_self (by omega) (by omega)

/-- Decimal rendering of a JSON integer. -/
def intDigits (n : Int) : List Char :=
  if n < 0 then '-' :: natDigits (-n).toNat else natDigits n.toNat

/-- The serde_json escape of one string character: quote and backslash get
a two-character escape, the five named control characters get their short
escapes, the remaining control characters get a lowercase u00XX escape,
and every other character is written as itself. -/
def escapeChar (c : Char) : List Char :=
  if c = '"' then ['\\', '"']
  else if c = '\\' then ['\\', '\\']
  else if c = Char.ofNat 8 then ['\\', 'b']
  else if c = '\t' then ['\\', 't']
  else if c = '\n' then ['\\', 'n']
  else if c = Char.ofNat 12 then ['\\', 'f']
  else if c = '\r' then ['\\', 'r']
  else if c.toNat < 32 then
    ['\\', 'u', '0', '0', hexDigitChar (c.toNat / 16), hexDigitChar (c.toNat % 16)]
  else [c]

/-- The serde_json escape of a whole string body. -/
def escapeString (s : List Char) : List Char :=
  (s.map escapeChar).flatten

mutual

/-- Compact printing of a JSON value, as the Display implementation of
serde_json::Value (and its to_string) produces it. -/
def printJson : Json → List Char
  | .null => ('n' :: ['u', 'l', 'l'])
  | .bool true => ('t' :: ['r', 'u', 'e'])
  | .bool false => ('f' :: ['a', 'l', 's', 'e'])
  | .num n => intDigits n
  | .str s => '"' :: escapeString s ++ ['"']
  | .arr xs => '[' :: printJsonElems xs ++ [']']
  | .obj kvs => '{' :: printJsonEntries kvs ++ ['}']

/-- Comma-separated printing of array elements. -/
def printJsonElems : List Json → List Char
  | [] => []
  | [x] => printJson x
  | x :: y :: rest => printJson x ++ ',' :: printJsonElems (y :: rest)

/-- Comma-separated printing of object entries. -/
def printJsonEntries : List (List Char × Json) → List Char
  | [] => []
  | [(k, v)] => '"' :: escapeString k ++ '"' :: ':' :: printJson v
  | (k, v) :: e :: rest =>
    '"' :: escapeString k ++ '"' :: ':' :: printJson v ++ ',' :: printJsonEntries (e :: rest)

end

/-! ### JSON parser (model of serde_json::from_str) -/

/-- JSON insignificant whitespace. -/
def isJsonWs (c : Char) : Bool :=
  c = ' ' || c = '\t' || c = '\n' || c = '\r'

/-- Skip insignificant whitespace. -/
def skipWs : List Char → List Char
  | [] => []
  | c :: cs => if isJsonWs c then skipWs cs else c :: cs

/-- ASCII decimal digit test. -/
def isDigitChar (c : Char) : Bool :=
  48 ≤ c.toNat && c.toNat ≤ 57

/-- Maximal ASCII digit prefix and the remaining input. -/
def takeDigits : List Char → List Char × List Char
  | [] => ([], [])
  | c :: cs =>
    if isDigitChar c then
      let p := takeDigits cs
      (c :: p.1, p.2)
    else ([], c :: cs)

/-- Value of an ASCII digit string, most significant digit first. -/
def digitsVal (ds : List Char) : Nat :=
  ds.foldl (fun a c => a * 10 + (c.toNat - 48)) 0

/-- Parse the digit part of a JSON number. JSON forbids leading zeros; a
fraction or an exponent part makes this integer model fail (serde_json
would produce a floating-point number there, which is outside the
embedding). -/
def parseNumberCore (cs : List Char) : Option (Nat × List Char) :=
  match takeDigits cs with
  | ([], _) => none
  | (d :: ds, rest) =>
    if d = '0' && ds ≠ [] then none
    else
      match rest with
      | '.' :: _ => none
      | 'e' :: _ => none
      | 'E' :: _ => none
      | _ => some (digitsVal (d :: ds), rest)

/-- Parse a JSON number with its optional leading minus sign. -/
def parseNumber (cs : List Char) : Option (Int × List Char) :=
  match cs with
  | '-' :: rest =>
    (match parseNumberCore rest with
     | some p => some (-(p.1 : Int), p.2)
     | none => none)
  | _ =>
    (match parseNumberCore cs with
     | some p => some ((p.1 : Int), p.2)
     | none => none)

/-- Value of an ASCII hexadecimal digit. -/
def hexVal (c : Char) : Option Nat :=
  if 48 ≤ c.toNat && c.toNat ≤ 57 then some (c.toNat - 48)
  else if 97 ≤ c.toNat && c.toNat ≤ 102 then some (c.toNat - 87)
  else if 65 ≤ c.toNat && c.toNat ≤ 70 then some (c.toNat - 55)
  else none

/-- A unicode scalar value as a character; surrogate code points are
rejected, as serde_json rejects unpaired surrogate escapes. -/
def charFromCode (n : Nat) : Option Char :=
  if h : n < 0xd800 ∨ (0xdfff < n ∧ n < 0x110000) then
    some (Char.ofNatAux n h)
  else none

/-- Translation of a simple (single-character) escape; none for escapes
that are not simple. -/
def simpleEscape (e : Char) : Option Char :=
  if e = '"' || e = '\\' || e = '/' then some e
  else if e = 'b' then some (Char.ofNat 8)
  else if e = 'f' then some (Char.ofNat 12)
  else if e = 'n' then some '\n'
  else if e = 'r' then some '\r'
  else if e = 't' then some '\t'
  else none

mutual

/-- Parse a JSON string body after the opening quote, undoing the standard
escapes (including u escapes with surrogate pairs) up to the closing
quote; raw control characters are rejected. -/
def parseStringBody : List Char → Option (List Char × List Char)
  | [] => none
  | c :: rest =>
    if c = '"' then some ([], rest)
    else if c = '\\' then parseEscape rest
    else if c.toNat < 32 then none
    else
      match parseStringBody rest with
      | some p => some (c :: p.1, p.2)
      | none => none

/-- Parse one escape sequence after a backslash, then the rest of the
string body. -/
def parseEscape : List Char → Option (List Char × List Char)
  | [] => none
  | e :: rest =>
    match simpleEscape e with
    | some c =>
      (match parseStringBody rest with
       | some p => some (c :: p.1, p.2)
       | none => none)
    | none =>
      if e = 'u' then parseUEscape rest
      else none

/-- Parse the four hex digits of a u escape; a high surrogate must be
followed by a low surrogate escape, a lone low surrogate is rejected. -/
def parseUEscape : List Char → Option (List Char × List Char)
  | a :: b :: c :: d :: rest2 =>
    (match hexVal a, hexVal b, hexVal c, hexVal d with
     | some va, some vb, some vc, some vd =>
       let n := ((va * 16 + vb) * 16 + vc) * 16 + vd
       if 0xd800 ≤ n ∧ n ≤ 0xdbff then parseLowSurrogate n rest2
       else if 0xdc00 ≤ n ∧ n ≤ 0xdfff then none
       else
         match charFromCode n with
         | some ch =>
           (match parseStringBody rest2 with
            | some p => some (ch :: p.1, p.2)
            | none => none)
         | none => none
     | _, _, _, _ => none)
  | _ => none

/-- Parse the low-surrogate escape following a high surrogate `n` and
combine the pair into one scalar value. -/
def parseLowSurrogate (n : Nat) : List Char → Option (List Char × List Char)
  | b1 :: u1 :: a2 :: b2 :: c2 :: d2 :: rest3 =>
    if b1 = '\\' ∧ u1 = 'u' then
      match hexVal a2, hexVal b2, hexVal c2, hexVal d2 with
      | some wa, some wb, some wc, some wd =>
        let m := ((wa * 16 + wb) * 16 + wc) * 16 + wd
        if 0xdc00 ≤ m ∧ m ≤ 0xdfff then
          (match charFromCode (0x10000 + (n - 0xd800) * 0x400 + (m - 0xdc00)) with
           | some ch =>
             (match parseStringBody rest3 with
              | some p => some (ch :: p.1, p.2)
              | none => none)
           | none => none)
        else none
      | _, _, _, _ => none
    else none
  | _ => none

end

mutual

/-- Fueled recursive-descent JSON value parser; the fuel only bounds the
nesting recursion and is chosen larger than the input length at the top
level, so it never runs out on an input the grammar accepts. -/
def parseValue : Nat → List Char → Option (Json × List Char)
  | 0, _ => none
  | Nat.succ fuel, cs =>
    match skipWs cs with
    | 'n' :: 'u' :: 'l' :: 'l' :: rest => some (.null, rest)
    | 't' :: 'r' :: 'u' :: 'e' :: rest => some (.bool true, rest)
    | 'f' :: 'a' :: 'l' :: 's' :: 'e' :: rest => some (.bool false, rest)
    | '"' :: rest =>
      match parseStringBody rest with
      | some p => some (.str p.1, p.2)
      | none => none
    | '[' :: rest =>
      (match skipWs rest with
       | ']' :: rest2 => some (.arr [], rest2)
       | _ =>
         match parseElems fuel rest with
         | some p => some (.arr p.1, p.2)
         | none => none)
    | '{' :: rest =>
      (match skipWs rest with
       | '}' :: rest2 => some (.obj [], rest2)
       | _ =>
         match parseEntries fuel rest [] with
         | some p => some (.obj p.1, p.2)
         | none => none)
    | cs2 =>
      match parseNumber cs2 with
      | some p => some (.num p.1, p.2)
      | none => none

/-- Parse the comma-separated elements of a nonempty array, consuming the
closing bracket. -/
def parseElems : Nat → List Char → Option (List Json × List Char)
  | 0, _ => none
  | Nat.succ fuel, cs =>
    match parseValue fuel cs with
    | none => none
    | some (v, rest) =>
      match skipWs rest with
      | ',' :: rest2 =>
        (match parseElems fuel rest2 with
         | some p => some (v :: p.1, p.2)
         | none => none)
      | ']' :: rest2 => some ([v], rest2)
      | _ => none

/-- Parse the comma-separated entries of a nonempty object, consuming the
closing brace. Entries are accumulated by BTreeMap insertion, so later
duplicate keys overwrite earlier ones and the result is key-sorted. -/
def parseEntries : Nat → List Char → List (List Char × Json) →
    Option (List (List Char × Json) × List Char)
  | 0, _, _ => none
  | Nat.succ fuel, cs, acc =>
    match skipWs cs with
    | '"' :: rest =>
      (match parseStringBody rest with
       | none => none
       | some (k, rest2) =>
         match skipWs rest2 with
         | ':' :: rest3 =>
           (match parseValue fuel rest3 with
            | none => none
            | some (v, rest4) =>
              match skipWs rest4 with
              | ',' :: rest5 => parseEntries fuel rest5 (objInsert k v acc)
              | '}' :: rest5 => some (objInsert k v acc, rest5)
              | _ => none)
         | _ => none)
    | _ => none

end

/-- Model of serde_json::from_str: parse one value and require only
whitespace after it. The fuel bounds only nesting depth and exceeds the
input length. -/
def jsonParse (s : List Char) : Option Json :=
  match parseValue (s.length + 1) s with
  | some (v, rest) => if skipWs rest = [] then some v else none
  | none => none

mutual

/-- Fuel sufficient for `parseValue` to parse the printed form of a value:
one unit per recursion layer. -/
def jsonFuel : Json → Nat
  | .null => 1
  | .bool _ => 1
  | .num _ => 1
  | .str _ => 1
  | .arr xs => 1 + elemsFuel xs
  | .obj kvs => 1 + entriesFuel kvs

/-- Fuel sufficient for `parseElems` on a printed element list. -/
def elemsFuel : List Json → Nat
  | [] => 0
  | x :: rest => 1 + max (jsonFuel x) (elemsFuel rest)

/-- Fuel sufficient for `parseEntries` on a printed entry list. -/
def entriesFuel : List (List Char × Json) → Nat
  | [] => 0
  | kv :: rest => 1 + max (jsonFuel kv.2) (entriesFuel rest)

end

/-- Strict ascent of object keys, the invariant of BTreeMap entry lists. -/
def keysAscending : List (List Char × Json) → Bool
  | [] => true
  | [_] => true
  | a :: b :: rest => keyLt a.1 b.1 && keysAscending (b :: rest)

mutual

/-- A value is canonical when every object entry list in it is strictly
key-sorted; exactly the values the parser can produce. -/
def canonical : Json → Bool
  | .null => true
  | .bool _ => true
  | .num _ => true
  | .str _ => true
  | .arr xs => canonicalElems xs
  | .obj kvs => keysAscending kvs && canonicalEntries kvs

/-- All elements canonical. -/
def canonicalElems : List Json → Bool
  | [] => true
  | x :: rest => canonical x && canonicalElems rest

/-- All entry values canonical. -/
def canonicalEntries : List (List Char × Json) → Bool
  | [] => true
  | kv :: rest => canonical kv.2 && canonicalEntries rest

end

/-! ## WebSocket control messages (transfer/protocol.rs)

The Rust parser uses the anchored regex (backslash w+):(backslash d+):(backslash w+)((backslash ?)(.*))? with
the dot not matching a newline. The word class is modelled as the ASCII
word characters; the functional parser below takes maximal word and digit
runs, which coincides with the regex because a word run is always followed
by a non-word character here. -/

/-- ASCII word character (letter, digit or underscore). -/
def isWordChar (c : Char) : Bool :=
  (97 ≤ c.toNat && c.toNat ≤ 122) || (65 ≤ c.toNat && c.toNat ≤ 90) ||
    (48 ≤ c.toNat && c.toNat ≤ 57) || c = '_'

/-- Maximal word-character prefix and remaining input. -/
def takeWord : List Char → List Char × List Char
  | [] => ([], [])
  | c :: cs =>
    if isWordChar c then
      let p := takeWord cs
      (c :: p.1, p.2)
    else ([], c :: cs)

/-- Embedding of the `WsMessage` struct (transfer/protocol.rs): kind
(action or ack), u32 id, action name and optional JSON payload. -/
structure WsMessage where
  msg_type : List Char
  id : Nat
  name : List Char
  payload : Option Json

/-- Embedding of `WsMessage::parse` (transfer/protocol.rs, lines 38-55):
match the text against kind colon id colon name with an optional question
mark and payload, parse the id as u32 (failure rejects the message), and
parse the payload as JSON, silently dropping it when JSON parsing fails. -/
def wsParse (text : List Char) : Option WsMessage :=
  match takeWord text with
  | (ty, rest1) =>
    if ty = [] then none
    else
      match rest1 with
      | ':' :: rest2 =>
        (match takeDigits rest2 with
         | (ds, rest3) =>
           if ds = [] then none
           else
             match rest3 with
             | ':' :: rest4 =>
               (match takeWord rest4 with
                | (nm, rest5) =>
                  if nm = [] then none
                  else
                    match rest5 with
                    | [] =>
                      if digitsVal ds < 2 ^ 32 then
                        some ⟨ty, digitsVal ds, nm, none⟩
                      else none
                    | '?' :: payloadText =>
                      if payloadText.contains '\n' then none
                      else if digitsVal ds < 2 ^ 32 then
                        some ⟨ty, digitsVal ds, nm, jsonParse payloadText⟩
                      else none
                    | _ => none)
             | _ => none)
      | _ => none

/-- Embedding of the Display implementation for `WsMessage`
(transfer/protocol.rs, lines 26-34): kind colon id colon name, then a
question mark and the compact payload when a payload is present. -/
def wsToString (m : WsMessage) : List Char :=
  m.msg_type ++ ':' :: natDigits m.id ++ ':' :: m.name ++
    (match m.payload with
     | some p => '?' :: printJson p
     | none => [])

/-- Embedding of `WsMessage::action`. -/
def WsMessage.action (id : Nat) (name : List Char) (payload : Option Json) :
    WsMessage :=
  ⟨"action".data, id, name, payload⟩

/-- Embedding of `WsMessage::ack`. -/
def WsMessage.ack (id : Nat) (name : List Char) (payload : Option Json) :
    WsMessage :=
  ⟨"ack".data, id, name, payload⟩

/-- Embedding of `WsMessage::status` (transfer/protocol.rs, lines 90-101):
an action named status with the JSON object carrying taskId, id (both the
task id), type and reason; object entries are in BTreeMap key order. -/
def WsMessage.status (id : Nat) (task_id : List Char) (status_type : Int)
    (reason : List Char) : WsMessage :=
  .action id ("status".data) (some (jsonObjOfList
    [("taskId".data, .str task_id), ("id".data, .str task_id),
     ("type".data, .num status_type), ("reason".data, .str reason)]))

/-- Embedding of `WsMessage::version_negotiation`. -/
def WsMessage.versionNegotiation (id : Nat) : WsMessage :=
  .action id ("versionNegotiation".data) (some (jsonObjOfList
    [("version".data, .num 1), ("versions".data, .arr [.num 1])]))

/-! ## Receiver client handling of control messages
(transfer/receiver_client.rs, message loop of ReceiverClient::start) -/

/-- serde extraction of an `Option<String>` field with a default: a
missing key or JSON null gives none, a string gives some, anything else is
a deserialization error. -/
def asOptString (o : List (List Char × Json)) (k : List Char) :
    Option (Option (List Char)) :=
  match objLookup k o with
  | none => some none
  | some .null => some none
  | some (.str s) => some (some s)
  | some _ => none

/-- serde extraction of a required `String` field. -/
def asReqString (o : List (List Char × Json)) (k : List Char) :
    Option (List Char) :=
  match objLookup k o with
  | some (.str s) => some s
  | _ => none

/-- serde extraction of a required `u32` field: an integer in range. -/
def asU32 (o : List (List Char × Json)) (k : List Char) : Option Nat :=
  match objLookup k o with
  | some (.num n) => if 0 ≤ n ∧ n < 2 ^ 32 then some n.toNat else none
  | _ => none

/-- serde extraction of a required `u64` field: an integer in range. -/
def asU64 (o : List (List Char × Json)) (k : List Char) : Option Nat :=
  match objLookup k o with
  | some (.num n) => if 0 ≤ n ∧ n < 2 ^ 64 then some n.toNat else none
  | _ => none

/-- Embedding of the `SendRequest` payload struct
(transfer/protocol.rs, lines 104-126). -/
structure SendRequest where
  task_id : Option (List Char)
  id : Option (List Char)
  sender_id : Option (List Char)
  sender_name : List Char
  file_name : List Char
  mime_type : List Char
  file_count : Nat
  total_size : Nat
  cat_share_text : Option (List Char)
  thumbnail : Option (List Char)
  deriving DecidableEq

/-- serde_json deserialization of `SendRequest` from a Value: the struct
is camelCase renamed, the Option fields default to None when absent, the
remaining fields are required, and unknown fields are ignored. -/
def sendRequestFromJson : Json → Option SendRequest
  | .obj o => do
    let task_id ← asOptString o ("taskId".data)
    let id ← asOptString o ("id".data)
    let sender_id ← asOptString o ("senderId".data)
    let sender_name ← asReqString o ("senderName".data)
    let file_name ← asReqString o ("fileName".data)
    let mime_type ← asReqString o ("mimeType".data)
    let file_count ← asU32 o ("fileCount".data)
    let total_size ← asU64 o ("totalSize".data)
    let cat_share_text ← asOptString o ("catShareText".data)
    let thumbnail ← asOptString o ("thumbnail".data)
    some ⟨task_id, id, sender_id, sender_name, file_name, mime_type,
      file_count, total_size, cat_share_text, thumbnail⟩
  | _ => none

/-- Embedding of `SendRequest::get_task_id`: task_id, else id, else the
string unknown. -/
def SendRequest.getTaskId (r : SendRequest) : List Char :=
  match r.task_id with
  | some t => t
  | none =>
    match r.id with
    | some t => t
    | none => "unknown".data

/-- Outcome of one message-loop iteration of `ReceiverClient::start`:
keep looping (possibly after sending acks), fail with a protocol error,
terminate rejected after sending the refuse status (no download), or
break out of the loop to download the task with the recorded id. -/
inductive ReceiverStep where
  | continueLoop (sent : List (List Char))
  | protocolError
  | rejected (sent : List (List Char))
  | download (sent : List (List Char)) (taskId : List Char)
  deriving DecidableEq

/-- Embedding of the message dispatch of `ReceiverClient::start`
(transfer/receiver_client.rs, lines 113-167) on one parsed message:
versionNegotiation is acked with the version and threadLimit payload; a
sendRequest with a payload is deserialized (failure is a protocol error),
then the accept callback decides between acking the received id and
breaking to download, or incrementing msg_id and sending the user-refuse
status before terminating; a sendRequest without payload does nothing;
any other name is acked back. The returned Nat is the updated msg_id. -/
def receiverHandleMessage (msg_id : Nat) (ws : WsMessage)
    (accept : SendRequest → Bool) : ReceiverStep × Nat :=
  if ws.name = "versionNegotiation".data then
    (.continueLoop [wsToString (WsMessage.ack ws.id ("versionNegotiation".data)
      (some (jsonObjOfList [("version".data, .num 1),
        ("threadLimit".data, .num 5)])))], msg_id)
  else if ws.name = "sendRequest".data then
    match ws.payload with
    | none => (.continueLoop [], msg_id)
    | some payload =>
      match sendRequestFromJson payload with
      | none => (.protocolError, msg_id)
      | some request =>
        if accept request then
          (.download [wsToString (WsMessage.ack ws.id ("sendRequest".data)
            none)] request.getTaskId, msg_id)
        else
          (.rejected [wsToString (WsMessage.status (msg_id + 1)
            request.getTaskId 3 ("user refuse".data))], msg_id + 1)
  else
    (.continueLoop [wsToString (WsMessage.ack ws.id ws.name none)], msg_id)

/-! ## UTF-8 and the GATT server device-name payload (ble/server.rs)

Rust strings are modelled as lists of chars; `str::as_bytes` is the UTF-8
encoding below, written with division and remainder (n >>> 6 is n / 64,
n &&& 0x3F is n % 64, and 0x80 ||| x with x < 64 is 0x80 + x). -/

/-- UTF-8 encoding of one unicode scalar value. -/
def utf8EncodeChar (c : Char) : List Nat :=
  let n := c.toNat
  if n < 0x80 then [n]
  else if n < 0x800 then [0xC0 + n / 64, 0x80 + n % 64]
  else if n < 0x10000 then
    [0xE0 + n / 4096, 0x80 + n / 64 % 64, 0x80 + n % 64]
  else
    [0xF0 + n / 262144, 0x80 + n / 4096 % 64, 0x80 + n / 64 % 64,
     0x80 + n % 64]

/-- UTF-8 encoding of a string (`str::as_bytes`). -/
def utf8Encode (s : List Char) : List Nat :=
  (s.map utf8EncodeChar).flatten

/-- The unicode replacement character U+FFFD. -/
def replChar : Char := Char.ofNat 0xFFFD

/-- Embedding of `String::from_utf8_lossy`: WHATWG UTF-8 decoding where
every maximal subpart of an ill-formed sequence is replaced by one
U+FFFD, and decoding resumes at the byte that made the sequence
ill-formed; an incomplete sequence at the end of input gives one
U+FFFD. -/
def utf8DecodeLossy : List Nat → List Char
  | [] => []
  | b :: rest =>
    if b < 0x80 then Char.ofNat b :: utf8DecodeLossy rest
    else if b < 0xC2 then replChar :: utf8DecodeLossy rest
    else if b < 0xE0 then
      match rest with
      | [] => [replChar]
      | b1 :: rest1 =>
        if 0x80 ≤ b1 ∧ b1 < 0xC0 then
          Char.ofNat ((b - 0xC0) * 64 + (b1 - 0x80)) :: utf8DecodeLossy rest1
        else replChar :: utf8DecodeLossy (b1 :: rest1)
    else if b < 0xF0 then
      match rest with
      | [] => [replChar]
      | b1 :: rest1 =>
        if (if b = 0xE0 then 0xA0 else 0x80) ≤ b1 ∧
            b1 < (if b = 0xED then 0xA0 else 0xC0) then
          match rest1 with
          | [] => [replChar]
          | b2 :: rest2 =>
            if 0x80 ≤ b2 ∧ b2 < 0xC0 then
              Char.ofNat ((b - 0xE0) * 4096 + (b1 - 0x80) * 64 + (b2 - 0x80))
                :: utf8DecodeLossy rest2
            else replChar :: utf8DecodeLossy (b2 :: rest2)
        else replChar :: utf8DecodeLossy (b1 :: rest1)
    else if b < 0xF5 then
      match rest with
      | [] => [replChar]
      | b1 :: rest1 =>
        if (if b = 0xF0 then 0x90 else 0x80) ≤ b1 ∧
            b1 < (if b = 0xF4 then 0x90 else 0xC0) then
          match rest1 with
          | [] => [replChar]
          | b2 :: rest2 =>
            if 0x80 ≤ b2 ∧ b2 < 0xC0 then
              match rest2 with
              | [] => [replChar]
              | b3 :: rest3 =>
                if 0x80 ≤ b3 ∧ b3 < 0xC0 then
                  Char.ofNat ((b - 0xF0) * 262144 + (b1 - 0x80) * 4096 +
                    (b2 - 0x80) * 64 + (b3 - 0x80)) :: utf8DecodeLossy rest3
                else replChar :: utf8DecodeLossy (b3 :: rest3)
            else replChar :: utf8DecodeLossy (b2 :: rest2)
        else replChar :: utf8DecodeLossy (b1 :: rest1)
    else replChar :: utf8DecodeLossy rest

/-- The back-scan loop of the name_payload build (ble/server.rs, lines
306-309): while the candidate is nonempty and is not a prefix of the
device name, pop its last character. -/
def popUntilPrefix (name : List Char) (t : List Char) : List Char :=
  if t = [] then t
  else if t.isPrefixOf name then t
  else popUntilPrefix name t.dropLast
termination_by t.length
decreasing_by
  have h1 : t ≠ [] := by assumption
  have hpos : 0 < t.length := List.length_pos.mpr h1
  simp only [List.length_dropLast]
  omega

/-- Embedding of the device-name bytes written into name_payload[10..]
by `GattServer::start` (ble/server.rs, lines 301-319): a name of at most
15 UTF-8 bytes is copied unmodified; a longer name is cut at 15 bytes,
decoded lossily, popped back to a prefix of the name, marked with a
trailing tab, re-encoded, and at most 16 bytes of that are copied. -/
def namePayloadBytes (device_name : List Char) : List Nat :=
  let name_bytes := utf8Encode device_name
  if name_bytes.length ≤ 15 then
    name_bytes.take (min name_bytes.length 16)
  else
    let truncated := popUntilPrefix device_name
      (utf8DecodeLossy (name_bytes.take 15))
    let tb := utf8Encode (truncated ++ ['\t'])
    tb.take (min tb.length 16)

/-! ## Session encryption (crypto/ble_security.rs, SessionCipher)

`SessionCipher::encrypt` UTF-8 encodes the string, applies the
AES-256-CTR keystream (Ctr128BE of aes::Aes256) with the fixed ASCII IV,
and base64 encodes; `decrypt` is the reverse with a strict UTF-8 check.
The aes and ctr crates compute the FIPS-197 AES-256 cipher in CTR mode
with a big-endian 128-bit counter; they are embedded below as that
specification, on bytes as Nat (shifts and masks written with division
and remainder). The base64 crate's STANDARD engine is padded canonical
base64 that rejects invalid characters, non-canonical trailing bits and
misplaced padding. -/

/-- Strict UTF-8 decoding (`String::from_utf8`): None on any ill-formed
input, following the same WHATWG table as the lossy decoder. -/
def utf8DecodeStrict : List Nat → Option (List Char)
  | [] => some []
  | b :: rest =>
    if b < 0x80 then (utf8DecodeStrict rest).map (Char.ofNat b :: ·)
    else if b < 0xC2 then none
    else if b < 0xE0 then
      match rest with
      | [] => none
      | b1 :: rest1 =>
        if 0x80 ≤ b1 ∧ b1 < 0xC0 then
          (utf8DecodeStrict rest1).map
            (Char.ofNat ((b - 0xC0) * 64 + (b1 - 0x80)) :: ·)
        else none
    else if b < 0xF0 then
      match rest with
      | [] => none
      | b1 :: rest1 =>
        if (if b = 0xE0 then 0xA0 else 0x80) ≤ b1 ∧
            b1 < (if b = 0xED then 0xA0 else 0xC0) then
          match rest1 with
          | [] => none
          | b2 :: rest2 =>
            if 0x80 ≤ b2 ∧ b2 < 0xC0 then
              (utf8DecodeStrict rest2).map
                (Char.ofNat ((b - 0xE0) * 4096 + (b1 - 0x80) * 64 +
                  (b2 - 0x80)) :: ·)
            else none
        else none
    else if b < 0xF5 then
      match rest with
      | [] => none
      | b1 :: rest1 =>
        if (if b = 0xF0 then 0x90 else 0x80) ≤ b1 ∧
            b1 < (if b = 0xF4 then 0x90 else 0xC0) then
          match rest1 with
          | [] => none
          | b2 :: rest2 =>
            if 0x80 ≤ b2 ∧ b2 < 0xC0 then
              match rest2 with
              | [] => none
              | b3 :: rest3 =>
                if 0x80 ≤ b3 ∧ b3 < 0xC0 then
                  (utf8DecodeStrict rest3).map
                    (Char.ofNat ((b - 0xF0) * 262144 + (b1 - 0x80) * 4096 +
                      (b2 - 0x80) * 64 + (b3 - 0x80)) :: ·)
                else none
            else none
        else none
    else none

/-- Standard base64 alphabet character for a 6-bit value. -/
def b64Char (n : Nat) : Char :=
  if n < 26 then Char.ofNat (65 + n)
  else if n < 52 then Char.ofNat (97 + (n - 26))
  else if n < 62 then Char.ofNat (48 + (n - 52))
  else if n = 62 then '+'
  else '/'

/-- Standard base64 alphabet value of a character. -/
def b64Val (c : Char) : Option Nat :=
  if 65 ≤ c.toNat ∧ c.toNat ≤ 90 then some (c.toNat - 65)
  else if 97 ≤ c.toNat ∧ c.toNat ≤ 122 then some (c.toNat - 97 + 26)
  else if 48 ≤ c.toNat ∧ c.toNat ≤ 57 then some (c.toNat - 48 + 52)
  else if c = '+' then some 62
  else if c = '/' then some 63
  else none

/-- Padded standard base64 encoding of a byte sequence. -/
def base64Encode : List Nat → List Char
  | [] => []
  | [a] => [b64Char (a / 4), b64Char (a % 4 * 16), '=', '=']
  | [a, b] =>
    [b64Char (a / 4), b64Char (a % 4 * 16 + b / 16), b64Char (b % 16 * 4), '=']
  | a :: b :: c :: rest =>
    b64Char (a / 4) :: b64Char (a % 4 * 16 + b / 16) ::
      b64Char (b % 16 * 4 + c / 64) :: b64Char (c % 64) :: base64Encode rest

/-- Strict padded standard base64 decoding: the input must be whole
4-character groups, padding may only close the final group, and
non-canonical trailing bits are rejected. -/
def base64Decode : List Char → Option (List Nat)
  | [] => some []
  | c0 :: c1 :: c2 :: c3 :: rest =>
    match b64Val c0, b64Val c1 with
    | some v0, some v1 =>
      if c2 = '=' then
        if c3 = '=' ∧ rest = [] then
          if v1 % 16 = 0 then some [v0 * 4 + v1 / 16] else none
        else none
      else
        match b64Val c2 with
        | some v2 =>
          if c3 = '=' then
            if rest = [] then
              if v2 % 4 = 0 then
                some [v0 * 4 + v1 / 16, v1 % 16 * 16 + v2 / 4]
              else none
            else none
          else
            match b64Val c3 with
            | some v3 =>
              match base64Decode rest with
              | some tail =>
                some ((v0 * 4 + v1 / 16) :: (v1 % 16 * 16 + v2 / 4) ::
                  (v2 % 4 * 64 + v3) :: tail)
              | none => none
            | none => none
        | none => none
    | _, _ => none
  | _ => none

/-- GF(2^8) doubling (the AES xtime operation). -/
def xtime (b : Nat) : Nat :=
  (2 * b ^^^ (if 0x80 ≤ b then 0x1B else 0)) % 256

/-- GF(2^8) product accumulator: 8 rounds of shift-and-add. -/
def gfMulAux : Nat → Nat → Nat → Nat → Nat
  | 0, _, _, acc => acc
  | n + 1, a, b, acc =>
    gfMulAux n (xtime a) (b / 2) (if b % 2 = 1 then acc ^^^ a else acc)

/-- GF(2^8) multiplication. -/
def gfMul (a b : Nat) : Nat := gfMulAux 8 a b 0

/-- GF(2^8) power. -/
def gfPow (a : Nat) : Nat → Nat
  | 0 => 1
  | n + 1 => gfMul a (gfPow a n)

/-- GF(2^8) inverse as the 254th power (0 maps to 0). -/
def gfInv (b : Nat) : Nat := if b = 0 then 0 else gfPow b 254

/-- Rotate an 8-bit value left by n. -/
def rotl8 (x n : Nat) : Nat := (x * 2 ^ n + x / 2 ^ (8 - n)) % 256

/-- The AES S-box: GF(2^8) inversion followed by the affine map. -/
def sbox (b : Nat) : Nat :=
  let i := gfInv b
  i ^^^ rotl8 i 1 ^^^ rotl8 i 2 ^^^ rotl8 i 3 ^^^ rotl8 i 4 ^^^ 0x63

/-- Bytewise S-box of a four-byte word. -/
def subWord (w : List Nat) : List Nat := w.map sbox

/-- Rotate a four-byte word left by one byte. -/
def rotWord : List Nat → List Nat
  | [] => []
  | a :: rest => rest ++ [a]

/-- The round constant byte: xtime iterated from 1. -/
def rconPow : Nat → Nat
  | 0 => 1
  | n + 1 => xtime (rconPow n)

/-- Bytewise xor of two words. -/
def xorWord (a b : List Nat) : List Nat := List.zipWith (· ^^^ ·) a b

/-- Word i of the AES-256 key schedule given the previous words. -/
def nextWord (w : List (List Nat)) (i : Nat) : List Nat :=
  let prev := w.getD (i - 1) []
  let old := w.getD (i - 8) []
  let temp :=
    if i % 8 = 0 then
      xorWord (subWord (rotWord prev)) [rconPow (i / 8 - 1), 0, 0, 0]
    else if i % 8 = 4 then subWord prev
    else prev
  xorWord old temp

/-- AES-256 key expansion: 8 key words extended to 60 words. -/
def keyExpansion (key : List Nat) : List (List Nat) :=
  (List.range 52).foldl (fun w j => w ++ [nextWord w (8 + j)])
    ((List.range 8).map (fun i => (key.drop (4 * i)).take 4))

/-- Round key r: words 4r..4r+3 of the schedule, flattened. -/
def roundKey (w : List (List Nat)) (r : Nat) : List Nat :=
  ((w.drop (4 * r)).take 4).flatten

/-- SubBytes on the 16-byte state (index r + 4c, column major). -/
def subBytesL (s : List Nat) : List Nat := s.map sbox

/-- ShiftRows: row r rotates left by r. -/
def shiftRowsL (s : List Nat) : List Nat :=
  (List.range 16).map (fun i => s.getD (i % 4 + 4 * ((i / 4 + i % 4) % 4)) 0)

/-- MixColumns on one column. -/
def mixColumn (a0 a1 a2 a3 : Nat) : List Nat :=
  [gfMul 2 a0 ^^^ gfMul 3 a1 ^^^ a2 ^^^ a3,
   a0 ^^^ gfMul 2 a1 ^^^ gfMul 3 a2 ^^^ a3,
   a0 ^^^ a1 ^^^ gfMul 2 a2 ^^^ gfMul 3 a3,
   gfMul 3 a0 ^^^ a1 ^^^ a2 ^^^ gfMul 2 a3]

/-- MixColumns on the state. -/
def mixColumnsL (s : List Nat) : List Nat :=
  ((List.range 4).map (fun c =>
    mixColumn (s.getD (4 * c) 0) (s.getD (4 * c + 1) 0)
      (s.getD (4 * c + 2) 0) (s.getD (4 * c + 3) 0))).flatten

/-- AddRoundKey. -/
def addRoundKey (s k : List Nat) : List Nat := List.zipWith (· ^^^ ·) s k

/-- One full AES round. -/
def aesRound (rk s : List Nat) : List Nat :=
  addRoundKey (mixColumnsL (shiftRowsL (subBytesL s))) rk

/-- The final AES round (no MixColumns). -/
def aesFinalRound (rk s : List Nat) : List Nat :=
  addRoundKey (shiftRowsL (subBytesL s)) rk

/-- The AES-256 block cipher: 14 rounds over a 16-byte block. -/
def aes256EncryptBlock (key block : List Nat) : List Nat :=
  let w := keyExpansion key
  aesFinalRound (roundKey w 14)
    ((List.range 13).foldl (fun s r => aesRound (roundKey w (r + 1)) s)
      (addRoundKey block (roundKey w 0)))

/-- The fixed CatShare IV: the ASCII bytes of 0102030405060708. -/
def aesIv : List Nat :=
  [0x30, 0x31, 0x30, 0x32, 0x30, 0x33, 0x30, 0x34,
   0x30, 0x35, 0x30, 0x36, 0x30, 0x37, 0x30, 0x38]

/-- Counter block n of Ctr128BE: the IV read as a big-endian 128-bit
integer, plus n, written back big-endian. -/
def ctrBlock (iv : List Nat) (n : Nat) : List Nat :=
  (List.range 16).map (fun i =>
    (iv.foldl (fun a b => a * 256 + b) 0 + n) % 2 ^ 128 /
      2 ^ (8 * (15 - i)) % 256)

/-- The first n bytes of the AES-256-CTR keystream under the fixed IV. -/
def keystream (key : List Nat) (n : Nat) : List Nat :=
  (List.range n).map (fun i =>
    (aes256EncryptBlock key (ctrBlock aesIv (i / 16))).getD (i % 16) 0)

/-- `apply_keystream`: xor the buffer with the keystream. -/
def applyKeystream (key buf : List Nat) : List Nat :=
  List.zipWith (· ^^^ ·) buf (keystream key buf.length)

/-- Embedding of `SessionCipher::encrypt` (crypto/ble_security.rs, lines
199-212): UTF-8 bytes, AES-256-CTR keystream, base64. -/
def sessionEncrypt (key : List Nat) (data : List Char) : List Char :=
  base64Encode (applyKeystream key (utf8Encode data))

/-- Embedding of `SessionCipher::decrypt` (crypto/ble_security.rs, lines
228-241): base64 decode, AES-256-CTR keystream, strict UTF-8; the two
failure cases (bad base64, invalid UTF-8) are None. -/
def sessionDecrypt (key : List Nat) (encoded : List Char) :
    Option (List Char) :=
  match base64Decode encoded with
  | none => none
  | some buf => utf8DecodeStrict (applyKeystream key buf)

/-! ## P2P characteristic writes (ble/server.rs, process_p2p_write) -/

/-- Embedding of the `P2pInfo` struct (wifi/mod.rs, lines 45-58). -/
structure P2pInfo where
  id : Option (List Char)
  ssid : List Char
  psk : List Char
  mac : List Char
  port : Int
  key : Option (List Char)
  cat_share : Option Int
  deriving DecidableEq

/-- serde extraction of a required `i32` field. -/
def asI32 (o : List (List Char × Json)) (k : List Char) : Option Int :=
  match objLookup k o with
  | some (.num n) => if -(2 ^ 31) ≤ n ∧ n < 2 ^ 31 then some n else none
  | _ => none

/-- serde extraction of an `Option<i32>` field: missing or null gives
none, an in-range integer gives some. -/
def asOptI32 (o : List (List Char × Json)) (k : List Char) :
    Option (Option Int) :=
  match objLookup k o with
  | none => some none
  | some .null => some none
  | some (.num n) =>
    if -(2 ^ 31) ≤ n ∧ n < 2 ^ 31 then some (some n) else none
  | some _ => none

/-- serde_json deserialization of `P2pInfo`: camelCase keys, the Option
fields default to None when absent, ssid, psk, mac and port required. -/
def p2pInfoFromJson : Json → Option P2pInfo
  | .obj o => do
    let id ← asOptString o ("id".data)
    let ssid ← asReqString o ("ssid".data)
    let psk ← asReqString o ("psk".data)
    let mac ← asReqString o ("mac".data)
    let port ← asI32 o ("port".data)
    let key ← asOptString o ("key".data)
    let cat_share ← asOptI32 o ("catShare".data)
    some ⟨id, ssid, psk, mac, port, key, cat_share⟩
  | _ => none

/-- Modelled from the spec: `BleSecurityPersistent` (not present under
src/) is the reusable ECDH security context of the GATT server; all
process_p2p_write uses of it go through `derive_session_key`, so it is
represented by that derivation, peer public key (base64) to optional
32-byte session key, with None for a derivation failure. -/
structure BleSecurityPersistent where
  derive : List Char → Option (List Nat)

/-- The event emitted for a successful P2P write. -/
structure P2pReceiveEvent where
  p2p_info : P2pInfo
  sender_public_key : Option (List Char)
  deriving DecidableEq

/-- Embedding of `process_p2p_write` (ble/server.rs, lines 366-404):
UTF-8 then JSON decoding of the written bytes (failure fails the write);
when the info carries a sender key and a security context is available,
a successful key derivation decrypts ssid, psk and mac individually,
keeping each field's received value when its decryption fails
(`unwrap_or`), and clears the key field; a failed derivation is only
logged and changes nothing. -/
def process_p2p_write (data : List Nat)
    (security : Option BleSecurityPersistent) : Option P2pReceiveEvent :=
  match utf8DecodeStrict data with
  | none => none
  | some json_str =>
    match (jsonParse json_str).bind p2pInfoFromJson with
    | none => none
    | some info =>
      match info.key, security with
      | some sender_key, some sec =>
        match sec.derive sender_key with
        | some skey =>
          some ⟨{ info with
            ssid := (sessionDecrypt skey info.ssid).getD info.ssid,
            psk := (sessionDecrypt skey info.psk).getD info.psk,
            mac := (sessionDecrypt skey info.mac).getD info.mac,
            key := none }, info.key⟩
        | none => some ⟨info, info.key⟩
      | _, _ => some ⟨info, info.key⟩

/-! ## Fast modular exponentiation (verification helper for the P-256
field prime) -/

/-- Binary modular exponentiation with explicit fuel, kernel-evaluable. -/
def powModAux : Nat → Nat → Nat → Nat → Nat
  | 0, _, _, n => 1 % n
  | f + 1, a, e, n =>
    if e = 0 then 1 % n
    else
      let r := powModAux f (a * a % n) (e / 2) n
      if e % 2 = 1 then r * a % n else r

/-- a ^ e mod n by binary exponentiation, for exponents below 2 ^ 300. -/
def natPowMod (a e n : Nat) : Nat := powModAux 300 a e n

/-! ## ECDH key agreement (crypto/ble_security.rs, BleSecurity)

The p256 crate implements NIST P-256: the short Weierstrass curve
y^2 = x^3 - 3x + b over the prime field of characteristic
2^256 - 2^224 + 2^192 + 2^96 - 1. An ephemeral secret is a nonzero
scalar; its public key is the scalar multiple of the generator;
diffie_hellman multiplies the peer point by the own scalar and the
shared secret is the 32-byte big-endian x-coordinate. Public keys
travel as base64 of the X.509 SubjectPublicKeyInfo DER, which for an
uncompressed P-256 key is a fixed 26-byte header followed by the
65-byte SEC1 encoding 04 then X then Y; only that shape (the one the
code itself emits) is modelled for the DER parser. -/

/-- The P-256 field characteristic. -/
def p256 : Nat := 2 ^ 256 - 2 ^ 224 + 2 ^ 192 + 2 ^ 96 - 1

/-- The P-256 curve coefficient b. -/
def p256b : ZMod p256 :=
  41058363725152142129326129780047268409114441015993725554835256314039467401291

/-- The x-coordinate of the P-256 generator. -/
def p256gx : Nat :=
  48439561293906451759052585252797914202762949526041747995844080717082404635286

/-- The y-coordinate of the P-256 generator. -/
def p256gy : Nat :=
  36134250956749795798585127919587881956611106672985015071877198253568414405109

/-- The P-256 curve as a Weierstrass curve over its field. -/
def P256 : WeierstrassCurve.Affine (ZMod p256) :=
  { a₁ := 0, a₂ := 0, a₃ := 0, a₄ := -3, a₆ := p256b }

/-- Untyped affine points: the point at infinity or a coordinate pair. -/
abbrev Pt : Type := Option (ZMod p256 × ZMod p256)

/-- The P-256 group law on untyped points, as the p256 crate computes it
(complete addition; written with explicit inverses in the field). -/
def pAdd (P Q : Pt) : Pt :=
  match P, Q with
  | none, Q => Q
  | P, none => P
  | some (x₁, y₁), some (x₂, y₂) =>
    if x₁ = x₂ then
      if y₁ = -y₂ then none
      else
        some ((((3 * x₁ ^ 2 - 3) * (2 * y₁)⁻¹) ^ 2 - x₁ - x₂ : ZMod p256),
          ((3 * x₁ ^ 2 - 3) * (2 * y₁)⁻¹) *
            (x₁ - (((3 * x₁ ^ 2 - 3) * (2 * y₁)⁻¹) ^ 2 - x₁ - x₂)) - y₁)
    else
      some ((((y₁ - y₂) * (x₁ - x₂)⁻¹) ^ 2 - x₁ - x₂ : ZMod p256),
        ((y₁ - y₂) * (x₁ - x₂)⁻¹) *
          (x₁ - (((y₁ - y₂) * (x₁ - x₂)⁻¹) ^ 2 - x₁ - x₂)) - y₁)

/-- Scalar multiplication by repeated addition. -/
def pSMul : Nat → Pt → Pt
  | 0, _ => none
  | n + 1, P => pAdd P (pSMul n P)

/-- The P-256 generator as an untyped point. -/
def gPt : Pt := some ((p256gx : ZMod p256), (p256gy : ZMod p256))

/-- Big-endian byte encoding: k bytes of n, most significant first. -/
def i2ospAux : Nat → Nat → List Nat
  | 0, _ => []
  | k + 1, n => (n / 2 ^ (8 * k) % 256) :: i2ospAux k n

/-- 32-byte big-endian encoding of a field element value. -/
def i2osp32 (n : Nat) : List Nat := i2ospAux 32 n

/-- Big-endian bytes to integer. -/
def os2ip (l : List Nat) : Nat := l.foldl (fun a b => a * 256 + b) 0

/-- The DER SubjectPublicKeyInfo header for an uncompressed P-256 key. -/
def spkiPrefix : List Nat :=
  [0x30, 0x59, 0x30, 0x13, 0x06, 0x07, 0x2A, 0x86, 0x48, 0xCE, 0x3D,
   0x02, 0x01, 0x06, 0x08, 0x2A, 0x86, 0x48, 0xCE, 0x3D, 0x03, 0x01,
   0x07, 0x03, 0x42, 0x00]

/-- SEC1 uncompressed parsing (`PublicKey::from_sec1_bytes`): byte 04,
then 32-byte X and Y below the field size, and the point must satisfy
the curve equation. -/
def sec1Parse (bytes : List Nat) : Option Pt :=
  match bytes with
  | 4 :: rest =>
    if rest.length = 64 then
      if os2ip (rest.take 32) < p256 ∧ os2ip (rest.drop 32) < p256 ∧
          ((os2ip (rest.drop 32) : ZMod p256) ^ 2 =
            (os2ip (rest.take 32) : ZMod p256) ^ 3 -
              3 * (os2ip (rest.take 32) : ZMod p256) + p256b) then
        some (some ((os2ip (rest.take 32) : ZMod p256),
          (os2ip (rest.drop 32) : ZMod p256)))
      else none
    else none
  | _ => none

/-- Embedding of `BleSecurity::parse_public_key` (crypto/ble_security.rs,
lines 142-165): X.509 SPKI first (uncompressed P-256 layout), then raw
SEC1 uncompressed as a fallback. -/
def parse_public_key (bytes : List Nat) : Option Pt :=
  if bytes.take 26 = spkiPrefix ∧ bytes.length = 91 then
    sec1Parse (bytes.drop 26)
  else if bytes.length = 65 ∧ bytes.getD 0 0 = 4 then sec1Parse bytes
  else none

/-- The SPKI DER encoding of a public key (`to_public_key_der`); the
identity, which `BleSecurity::new` never produces, is given an empty
encoding. -/
def pubkeyDer (P : Pt) : List Nat :=
  match P with
  | some (x, y) => spkiPrefix ++ 4 :: (i2osp32 x.val ++ i2osp32 y.val)
  | none => []

/-- The base64 public key string of `BleSecurity::get_public_key`. -/
def base64PublicKey (P : Pt) : List Char := base64Encode (pubkeyDer P)

/-- `EphemeralSecret::diffie_hellman` followed by `raw_secret_bytes`:
the 32-byte big-endian x-coordinate of the scalar multiple of the peer
point (made total: the identity, impossible for valid inputs, gives the
zero bytes). -/
def diffie_hellman (secret : Nat) (peer : Pt) : List Nat :=
  match pSMul secret peer with
  | some (x, _) => i2osp32 x.val
  | none => i2osp32 0

/-- Embedding of `BleSecurity::derive_session_key` (crypto/ble_security.rs,
lines 113-139): base64 decode, parse the peer public key, run ECDH and
use the raw shared secret as the session key. -/
def derive_session_key (secret : Nat) (peer_b64 : List Char) :
    Option (List Nat) :=
  match base64Decode peer_b64 with
  | none => none
  | some bytes =>
    match parse_public_key bytes with
    | none => none
    | some P => some (diffie_hellman secret P)

/-- Forgetting the nonsingularity proof of a typed point. -/
def fromPoint : P256.Point → Pt
  | .zero => none
  | @WeierstrassCurve.Affine.Point.some _ _ _ x y _ => some (x, y)

/-! ## Theorems -/

/-! ### Supporting lemmas: characters, digits, key order -/

theorem charOfNatAux_toNat (n : Nat) (h : n.isValidChar) :
    (Char.ofNatAux n h).toNat = n := by
  show (BitVec.ofNatLt n _).toNat = n
  simp [BitVec.toNat_ofNatLt]

theorem charOfNat_toNat (n : Nat) (h : n < 0xd800) : (Char.ofNat n).toNat = n := by
  have hv : n.isValidChar := Or.inl h
  rw [Char.ofNat, dif_pos hv]
  exact charOfNatAux_toNat n hv

theorem charFromCode_toNat (c : Char) : charFromCode c.toNat = some c := by
  have hv : c.toNat < 0xd800 ∨ (0xdfff < c.toNat ∧ c.toNat < 0x110000) := c.valid
  rw [charFromCode, dif_pos hv]
  have h1 : Char.ofNat c.toNat = c := Char.ofNat_toNat c
  rw [Char.ofNat, dif_pos (show c.toNat.isValidChar from hv)] at h1
  exact congrArg some h1

theorem char_ne_of_toNat_ne {c d : Char} (h : c.toNat ≠ d.toNat) : c ≠ d :=
  fun he => h (he ▸ rfl)

theorem hexVal_hexDigitChar : ∀ n, n < 16 → hexVal (hexDigitChar n) = some n := by
  decide

theorem natDigits_all_digits (n : Nat) : ∀ c ∈ natDigits n, isDigitChar c = true := by
  induction n using Nat.strong_induction_on with
  | _ n ih =>
    rw [natDigits]
    split
    · intro c hc
      simp only [List.mem_singleton] at hc
      subst hc
      simp only [isDigitChar]
      rw [charOfNat_toNat (48 + n) (by omega)]
      simp
      omega
    · intro c hc
      rcases List.mem_append.mp hc with h1 | h2
      · exact ih (n / 10) (Nat.div_lt_self (by omega) (by omega)) c h1
      · simp only [List.mem_singleton] at h2
        subst h2
        have hm : n % 10 < 10 := Nat.mod_lt _ (by omega)
        simp only [isDigitChar]
        rw [charOfNat_toNat (48 + n % 10) (by omega)]
        simp
        omega

theorem natDigits_ne_nil (n : Nat) : natDigits n ≠ [] := by
  rw [natDigits]
  split <;> simp

theorem natDigits_head_ne_zero (n : Nat) (h : n ≠ 0) :
    ∀ hd tl, natDigits n = hd :: tl → hd ≠ '0' := by
  induction n using Nat.strong_induction_on with
  | _ n ih =>
    rw [natDigits]
    split
    · intro hd tl he
      simp only [List.cons.injEq] at he
      obtain ⟨he1, _⟩ := he
      subst he1
      apply char_ne_of_toNat_ne
      rw [charOfNat_toNat (48 + n) (by omega)]
      show 48 + n ≠ 48
      omega
    · intro hd tl he
      obtain ⟨hd2, tl2, h2⟩ : ∃ hd2 tl2, natDigits (n / 10) = hd2 :: tl2 := by
        cases hx : natDigits (n / 10) with
        | nil => exact absurd hx (natDigits_ne_nil _)
        | cons a b => exact ⟨a, b, rfl⟩
      rw [h2] at he
      simp only [List.cons_append, List.cons.injEq] at he
      have hne : n / 10 ≠ 0 := by omega
      exact he.1 ▸ ih (n / 10) (Nat.div_lt_self (by omega) (by omega)) hne hd2 tl2 h2

theorem digitsVal_natDigits (n : Nat) : digitsVal (natDigits n) = n := by
  induction n using Nat.strong_induction_on with
  | _ n ih =>
    rw [natDigits]
    split
    · simp only [digitsVal, List.foldl]
      rw [charOfNat_toNat (48 + n) (by omega)]
      omega
    · have hdiv := ih (n / 10) (Nat.div_lt_self (by omega) (by omega))
      simp only [digitsVal, List.foldl_append, List.foldl]
      simp only [digitsVal] at hdiv
      rw [hdiv, charOfNat_toNat (48 + n % 10) (by omega)]
      omega

theorem takeDigits_append (ds rest : List Char)
    (hds : ∀ c ∈ ds, isDigitChar c = true)
    (hrest : ∀ c cs, rest = c :: cs → isDigitChar c = false) :
    takeDigits (ds ++ rest) = (ds, rest) := by
  induction ds with
  | nil =>
    cases rest with
    | nil => rfl
    | cons c cs => simp [takeDigits, hrest c cs rfl]
  | cons d ds ih =>
    have hd := hds d (by simp)
    simp [takeDigits, hd, ih (fun c hc => hds c (by simp [hc]))]

theorem digit_not_minus {c : Char} (h : isDigitChar c = true) : c ≠ '-' := by
  simp only [isDigitChar, Bool.and_eq_true, decide_eq_true_eq] at h
  apply char_ne_of_toNat_ne
  rw [show '-'.toNat = 45 from rfl]
  omega

theorem parseNumberCore_natDigits (m : Nat) (rest : List Char)
    (hrest : ∀ c cs, rest = c :: cs →
      isDigitChar c = false ∧ c ≠ '.' ∧ c ≠ 'e' ∧ c ≠ 'E') :
    parseNumberCore (natDigits m ++ rest) = some (m, rest) := by
  obtain ⟨hd, tl, hnd⟩ : ∃ hd tl, natDigits m = hd :: tl := by
    cases hx : natDigits m with
    | nil => exact absurd hx (natDigits_ne_nil _)
    | cons a b => exact ⟨a, b, rfl⟩
  have htake : takeDigits (natDigits m ++ rest) = (natDigits m, rest) :=
    takeDigits_append (natDigits m) rest (natDigits_all_digits m)
      (fun c cs hc => (hrest c cs hc).1)
  have hval : digitsVal (hd :: tl) = m := by
    rw [← hnd]; exact digitsVal_natDigits m
  have hlead : ¬(hd = '0' ∧ ¬tl = []) := by
    rintro ⟨hz, htl⟩
    rcases Nat.eq_zero_or_pos m with hm | hm
    · subst hm
      have h0 : natDigits 0 = ['0'] := by rw [natDigits]; decide
      rw [h0] at hnd
      simp only [List.cons.injEq] at hnd
      exact htl hnd.2.symm
    · exact natDigits_head_ne_zero m (by omega) hd tl hnd hz
  simp only [parseNumberCore]
  rw [htake, hnd]
  cases rest with
  | nil =>
    simp [hval, hlead]
  | cons c cs =>
    obtain ⟨hc1, hc2, hc3, hc4⟩ := hrest c cs rfl
    simp [hval, hlead, hc2, hc3, hc4]

theorem parseNumber_intDigits (n : Int) (rest : List Char)
    (hrest : ∀ c cs, rest = c :: cs →
      isDigitChar c = false ∧ c ≠ '.' ∧ c ≠ 'e' ∧ c ≠ 'E') :
    parseNumber (intDigits n ++ rest) = some (n, rest) := by
  by_cases hneg : n < 0
  · have hcore := parseNumberCore_natDigits (-n).toNat rest hrest
    have hn : intDigits n = '-' :: natDigits (-n).toNat := by
      simp [intDigits, hneg]
    rw [hn, List.cons_append]
    simp only [parseNumber, hcore]
    congr 1
    rw [Prod.ext_iff]
    constructor
    · show -(((-n).toNat : Nat) : Int) = n
      omega
    · rfl
  · have hn : intDigits n = natDigits n.toNat := by
      simp [intDigits, hneg]
    rw [hn]
    obtain ⟨hd, tl, hnd⟩ : ∃ hd tl, natDigits n.toNat = hd :: tl := by
      cases hx : natDigits n.toNat with
      | nil => exact absurd hx (natDigits_ne_nil _)
      | cons a b => exact ⟨a, b, rfl⟩
    have hdigit : isDigitChar hd = true :=
      natDigits_all_digits n.toNat hd (by rw [hnd]; simp)
    have hminus : hd ≠ '-' := digit_not_minus hdigit
    have hcore := parseNumberCore_natDigits n.toNat rest hrest
    rw [hnd, List.cons_append]
    rw [hnd, List.cons_append] at hcore
    simp only [parseNumber, hminus, hcore]
    rw [show ((n.toNat : Nat) : Int) = n by omega]
    simp [hminus]


theorem skipWs_not_ws {c : Char} (h : isJsonWs c = false) (cs : List Char) :
    skipWs (c :: cs) = c :: cs := by
  simp [skipWs, h]

theorem digit_head_class {c : Char} (h : isDigitChar c = true) :
    isJsonWs c = false ∧ c ≠ 'n' ∧ c ≠ 't' ∧ c ≠ 'f' ∧ c ≠ '"' ∧ c ≠ '[' ∧
      c ≠ '{' ∧ c ≠ ']' ∧ c ≠ '}' ∧ c ≠ ',' := by
  simp only [isDigitChar, Bool.and_eq_true, decide_eq_true_eq] at h
  refine ⟨?_, ?_, ?_, ?_, ?_, ?_, ?_, ?_, ?_, ?_⟩
  · simp only [isJsonWs, Bool.or_eq_false_iff, decide_eq_false_iff_not]
    refine ⟨⟨⟨?_, ?_⟩, ?_⟩, ?_⟩ <;>
      (apply char_ne_of_toNat_ne; intro he; rw [he] at h; revert h; decide)
  all_goals
    apply char_ne_of_toNat_ne
    intro he
    rw [he] at h
    revert h
    decide

theorem intDigits_head (n : Int) :
    ∃ c cs, intDigits n = c :: cs ∧
      (isDigitChar c = true ∨ c = '-') := by
  by_cases hneg : n < 0
  · exact ⟨'-', natDigits (-n).toNat, by simp [intDigits, hneg], Or.inr rfl⟩
  · obtain ⟨hd, tl, hnd⟩ : ∃ hd tl, natDigits n.toNat = hd :: tl := by
      cases hx : natDigits n.toNat with
      | nil => exact absurd hx (natDigits_ne_nil _)
      | cons a b => exact ⟨a, b, rfl⟩
    refine ⟨hd, tl, by simp [intDigits, hneg, hnd], Or.inl ?_⟩
    exact natDigits_all_digits n.toNat hd (by rw [hnd]; simp)

theorem printJson_head (v : Json) :
    ∃ c cs, printJson v = c :: cs ∧ isJsonWs c = false ∧ c ≠ ']' ∧ c ≠ '}' ∧
      c ≠ ',' ∧ c ≠ ':' := by
  cases v with
  | null => exact ⟨'n', _, rfl, by decide, by decide, by decide, by decide, by decide⟩
  | bool b =>
    cases b with
    | true => exact ⟨'t', _, rfl, by decide, by decide, by decide, by decide, by decide⟩
    | false => exact ⟨'f', _, rfl, by decide, by decide, by decide, by decide, by decide⟩
  | num n =>
    obtain ⟨c, cs, hc, hclass⟩ := intDigits_head n
    refine ⟨c, cs, by simp [printJson, hc], ?_⟩
    rcases hclass with hdig | hminus
    · obtain ⟨h1, _, _, _, _, _, _, hrb, hcb, hcm⟩ := digit_head_class hdig
      refine ⟨h1, hrb, hcb, hcm, ?_⟩
      simp only [isDigitChar, Bool.and_eq_true, decide_eq_true_eq] at hdig
      apply char_ne_of_toNat_ne
      intro he
      rw [he] at hdig
      revert hdig
      decide
    · subst hminus
      exact ⟨by decide, by decide, by decide, by decide, by decide⟩
  | str s => exact ⟨'"', _, rfl, by decide, by decide, by decide, by decide, by decide⟩
  | arr xs => exact ⟨'[', _, rfl, by decide, by decide, by decide, by decide, by decide⟩
  | obj kvs => exact ⟨'{', _, rfl, by decide, by decide, by decide, by decide, by decide⟩

theorem parseValue_succ_num (f : Nat) (c : Char) (cs : List Char)
    (hws : isJsonWs c = false) (hn : c ≠ 'n') (ht : c ≠ 't') (hf : c ≠ 'f')
    (hq : c ≠ '"') (hb : c ≠ '[') (hbr : c ≠ '{') :
    parseValue (f + 1) (c :: cs) =
      (match parseNumber (c :: cs) with
       | some p => some (.num p.1, p.2)
       | none => none) := by
  have hsk : skipWs (c :: cs) = c :: cs := skipWs_not_ws hws cs
  simp [parseValue, hsk, hn, ht, hf, hq, hb, hbr]

theorem keyLt_irrefl (a : List Char) : keyLt a a = false := by
  induction a with
  | nil => rfl
  | cons x xs ih => simp [keyLt, ih]

theorem keyLt_ne {a b : List Char} (h : keyLt a b = true) : a ≠ b := by
  intro he
  subst he
  rw [keyLt_irrefl] at h
  exact absurd h (by simp)

theorem parseUEscape_control (c : Char) (ht : c.toNat < 32) (tail : List Char) :
    parseUEscape ('0' :: '0' :: hexDigitChar (c.toNat / 16) ::
        hexDigitChar (c.toNat % 16) :: tail) =
      (match parseStringBody tail with
       | some p => some (c :: p.1, p.2)
       | none => none) := by
  have ha := hexVal_hexDigitChar (c.toNat / 16) (by omega)
  have hb := hexVal_hexDigitChar (c.toNat % 16) (by omega)
  have hz : hexVal '0' = some 0 := by decide
  have hn : ((0 * 16 + 0) * 16 + c.toNat / 16) * 16 + c.toNat % 16 = c.toNat := by
    omega
  simp only [parseUEscape, ha, hb, hz]
  rw [hn, if_neg (by omega), if_neg (by omega), charFromCode_toNat]

theorem parseStringBody_escape (s : List Char) (rest : List Char) :
    parseStringBody (escapeString s ++ '"' :: rest) = some (s, rest) := by
  induction s with
  | nil => simp [escapeString, parseStringBody]
  | cons c s ih =>
    have hesc : escapeString (c :: s) = escapeChar c ++ escapeString s := by
      simp [escapeString]
    rw [hesc, List.append_assoc]
    by_cases h1 : c = '"'
    · subst h1; simp [escapeChar, parseStringBody, parseEscape, simpleEscape, ih]
    · by_cases h2 : c = '\\'
      · subst h2; simp [escapeChar, parseStringBody, parseEscape, simpleEscape, ih]
      · by_cases h3 : c = Char.ofNat 8
        · subst h3; simp [escapeChar, parseStringBody, parseEscape, simpleEscape, ih]
        · by_cases h4 : c = '\t'
          · subst h4; simp [escapeChar, parseStringBody, parseEscape, simpleEscape, ih]
          · by_cases h5 : c = '\n'
            · subst h5; simp [escapeChar, parseStringBody, parseEscape, simpleEscape, ih]
            · by_cases h6 : c = Char.ofNat 12
              · subst h6; simp [escapeChar, parseStringBody, parseEscape, simpleEscape, ih]
              · by_cases h7 : c = '\r'
                · subst h7; simp [escapeChar, parseStringBody, parseEscape, simpleEscape, ih]
                · by_cases h8 : c.toNat < 32
                  · have he : escapeChar c = ['\\', 'u', '0', '0',
                        hexDigitChar (c.toNat / 16), hexDigitChar (c.toNat % 16)] := by
                      simp [escapeChar, h1, h2, h3, h4, h5, h6, h7, h8]
                    rw [he]
                    simp only [List.cons_append, List.nil_append]
                    rw [show parseStringBody ('\\' :: 'u' :: '0' :: '0' ::
                          hexDigitChar (c.toNat / 16) :: hexDigitChar (c.toNat % 16) ::
                          (escapeString s ++ '"' :: rest))
                        = parseUEscape ('0' :: '0' :: hexDigitChar (c.toNat / 16) ::
                          hexDigitChar (c.toNat % 16) :: (escapeString s ++ '"' :: rest)) by
                      simp [parseStringBody, parseEscape, simpleEscape]]
                    rw [parseUEscape_control c h8, ih]
                  · have he : escapeChar c = [c] := by
                      simp [escapeChar, h1, h2, h3, h4, h5, h6, h7, h8]
                    rw [he]
                    simp only [List.cons_append, List.nil_append]
                    simp [parseStringBody, h1, h2, h8, ih]

theorem char_toNat_inj {x y : Char} (h : x.toNat = y.toNat) : x = y :=
  Char.eq_of_val_eq (UInt32.toNat.inj h)

theorem keyLt_asymm {a : List Char} :
    ∀ {b : List Char}, keyLt a b = true → keyLt b a = true → False := by
  induction a with
  | nil =>
    intro b hab hba
    cases b with
    | nil => simp [keyLt] at hab
    | cons y ys => simp [keyLt] at hba
  | cons x xs ih =>
    intro b hab hba
    cases b with
    | nil => simp [keyLt] at hab
    | cons y ys =>
      simp only [keyLt, Bool.or_eq_true, Bool.and_eq_true, beq_iff_eq,
        decide_eq_true_eq] at hab hba
      rcases hab with h1 | ⟨he1, hr1⟩ <;> rcases hba with h2 | ⟨he2, hr2⟩
      · omega
      · subst he2; omega
      · subst he1; omega
      · exact ih hr1 hr2

theorem keyLt_trans {a : List Char} :
    ∀ {b c : List Char}, keyLt a b = true → keyLt b c = true → keyLt a c = true := by
  induction a with
  | nil =>
    intro b c hab hbc
    cases c with
    | nil =>
      cases b with
      | nil => simp [keyLt] at hab
      | cons y ys => simp [keyLt] at hbc
    | cons z zs => simp [keyLt]
  | cons x xs ih =>
    intro b c hab hbc
    cases b with
    | nil => simp [keyLt] at hab
    | cons y ys =>
      cases c with
      | nil => simp [keyLt] at hbc
      | cons z zs =>
        simp only [keyLt, Bool.or_eq_true, Bool.and_eq_true, beq_iff_eq,
          decide_eq_true_eq] at hab hbc ⊢
        rcases hab with h1 | ⟨he1, hr1⟩
        · rcases hbc with h2 | ⟨he2, hr2⟩
          · exact Or.inl (by omega)
          · subst he2; exact Or.inl h1
        · subst he1
          rcases hbc with h2 | ⟨he2, hr2⟩
          · exact Or.inl h2
          · subst he2
            exact Or.inr ⟨rfl, ih hr1 hr2⟩

theorem keyLt_total {a : List Char} :
    ∀ {b : List Char}, a ≠ b → keyLt a b = true ∨ keyLt b a = true := by
  induction a with
  | nil =>
    intro b hne
    cases b with
    | nil => exact absurd rfl hne
    | cons y ys => exact Or.inl (by simp [keyLt])
  | cons x xs ih =>
    intro b hne
    cases b with
    | nil => exact Or.inr (by simp [keyLt])
    | cons y ys =>
      by_cases hxy : x = y
      · subst hxy
        have hne2 : xs ≠ ys := by
          intro he; exact hne (by rw [he])
        rcases ih hne2 with h | h
        · exact Or.inl (by simp [keyLt, h])
        · exact Or.inr (by simp [keyLt, h])
      · have hn : x.toNat ≠ y.toNat := fun he => hxy (char_toNat_inj he)
        rcases Nat.lt_or_ge x.toNat y.toNat with h | h
        · refine Or.inl ?_
          simp only [keyLt, Bool.or_eq_true, decide_eq_true_eq]
          exact Or.inl h
        · refine Or.inr ?_
          simp only [keyLt, Bool.or_eq_true, decide_eq_true_eq]
          exact Or.inl (by omega)

theorem keysAscending_iff (kvs : List (List Char × Json)) :
    keysAscending kvs = true ↔
      List.Pairwise (fun a b : List Char × Json => keyLt a.1 b.1 = true) kvs := by
  induction kvs with
  | nil => simp [keysAscending]
  | cons a rest ih =>
    cases rest with
    | nil => simp [keysAscending]
    | cons b r =>
      rw [keysAscending, Bool.and_eq_true, ih]
      constructor
      · rintro ⟨hab, hp⟩
        rw [List.pairwise_cons] at hp
        refine List.Pairwise.cons ?_ (List.pairwise_cons.mpr hp)
        intro x hx
        rcases List.mem_cons.mp hx with hxb | hxr
        · subst hxb; exact hab
        · exact keyLt_trans hab (hp.1 x hxr)
      · intro hp
        rw [List.pairwise_cons] at hp
        exact ⟨hp.1 b (by simp), List.pairwise_cons.mpr
          (List.pairwise_cons.mp hp.2)⟩

theorem objInsert_of_all_lt (k : List Char) (v : Json) :
    ∀ acc, (∀ kv ∈ acc, keyLt kv.1 k = true) →
      objInsert k v acc = acc ++ [(k, v)] := by
  intro acc
  induction acc with
  | nil => intro _; simp [objInsert]
  | cons a r ih =>
    intro h
    have ha := h a (List.mem_cons_self a r)
    have h1 : ¬(keyLt k a.1 = true) := fun hk => keyLt_asymm ha hk
    have h2 : k ≠ a.1 := by
      intro he
      subst he
      rw [keyLt_irrefl] at ha
      exact absurd ha (by simp)
    simp [objInsert, h1, h2, ih (fun kv hkv => h kv (List.mem_cons_of_mem a hkv))]

theorem foldl_objInsert_of_sorted (kvs : List (List Char × Json)) :
    List.Pairwise (fun a b : List Char × Json => keyLt a.1 b.1 = true) kvs →
    ∀ acc, (∀ a ∈ acc, ∀ b ∈ kvs, keyLt a.1 b.1 = true) →
      kvs.foldl (fun a kv => objInsert kv.1 kv.2 a) acc = acc ++ kvs := by
  induction kvs with
  | nil => intro _ acc _; simp
  | cons kv rest ih =>
    intro hp acc hcond
    rw [List.pairwise_cons] at hp
    obtain ⟨hall, hrest⟩ := hp
    rw [List.foldl_cons]
    have hins : objInsert kv.1 kv.2 acc = acc ++ [(kv.1, kv.2)] :=
      objInsert_of_all_lt _ _ acc (fun a ha => hcond a ha kv (by simp))
    rw [hins]
    have hstep := ih hrest (acc ++ [(kv.1, kv.2)]) ?_
    · rw [hstep]
      simp
    · intro a ha b hb
      rcases List.mem_append.mp ha with h1 | h2
      · exact hcond a h1 b (by simp [hb])
      · simp only [List.mem_singleton] at h2
        subst h2
        exact hall b hb

theorem foldl_objInsert_nil (kvs : List (List Char × Json))
    (h : keysAscending kvs = true) :
    kvs.foldl (fun a kv => objInsert kv.1 kv.2 a) [] = kvs := by
  have := foldl_objInsert_of_sorted kvs ((keysAscending_iff kvs).mp h) []
    (by intro a ha; simp at ha)
  simpa using this


theorem parse_print_aux : ∀ f : Nat,
    (∀ v rest, canonical v = true → jsonFuel v ≤ f →
      (∀ c cs, rest = c :: cs → c = ',' ∨ c = ']' ∨ c = '}') →
      parseValue f (printJson v ++ rest) = some (v, rest)) ∧
    (∀ xs rest, xs ≠ [] → canonicalElems xs = true → elemsFuel xs ≤ f →
      parseElems f (printJsonElems xs ++ ']' :: rest) = some (xs, rest)) ∧
    (∀ kvs acc rest, kvs ≠ [] → canonicalEntries kvs = true → entriesFuel kvs ≤ f →
      parseEntries f (printJsonEntries kvs ++ '}' :: rest) acc =
        some (kvs.foldl (fun a kv => objInsert kv.1 kv.2 a) acc, rest)) := by
  intro f
  induction f with
  | zero =>
    refine ⟨?_, ?_, ?_⟩
    · intro v rest _ hf _
      exfalso
      cases v <;> simp [jsonFuel] at hf
    · intro xs rest hne _ hf
      cases xs with
      | nil => exact absurd rfl hne
      | cons x r => simp [elemsFuel] at hf
    · intro kvs acc rest hne _ hf
      cases kvs with
      | nil => exact absurd rfl hne
      | cons kv r => simp [entriesFuel] at hf
  | succ f ih =>
    obtain ⟨ih1, ih2, ih3⟩ := ih
    refine ⟨?_, ?_, ?_⟩
    · -- P1: values
      intro v rest hcan hfuel hrest
      cases v with
      | null => rfl
      | bool b => cases b <;> rfl
      | num n =>
        obtain ⟨c, cs, hc, hclass⟩ := intDigits_head n
        have boundary : ∀ c2 cs2, rest = c2 :: cs2 →
            isDigitChar c2 = false ∧ c2 ≠ '.' ∧ c2 ≠ 'e' ∧ c2 ≠ 'E' := by
          intro c2 cs2 h2
          rcases hrest c2 cs2 h2 with h | h | h <;> subst h <;>
            exact ⟨by decide, by decide, by decide, by decide⟩
        have hpn : printJson (.num n) ++ rest = c :: (cs ++ rest) := by
          simp [printJson, hc]
        rw [hpn]
        have hdisp : parseValue (f + 1) (c :: (cs ++ rest)) =
            (match parseNumber (c :: (cs ++ rest)) with
             | some p => some (.num p.1, p.2)
             | none => none) := by
          rcases hclass with hdig | hminus
          · obtain ⟨h1, h2, h3, h4, h5, h6, h7, _, _, _⟩ := digit_head_class hdig
            exact parseValue_succ_num f c (cs ++ rest) h1 h2 h3 h4 h5 h6 h7
          · subst hminus
            exact parseValue_succ_num f '-' (cs ++ rest) (by decide) (by decide)
              (by decide) (by decide) (by decide) (by decide) (by decide)
        rw [hdisp, show c :: (cs ++ rest) = (c :: cs) ++ rest by simp, ← hc,
          parseNumber_intDigits n rest boundary]
      | str s =>
        have hshape : printJson (.str s) ++ rest =
            '"' :: (escapeString s ++ ('"' :: rest)) := by
          simp [printJson]
        rw [hshape]
        have hdisp : parseValue (f + 1) ('"' :: (escapeString s ++ ('"' :: rest))) =
            (match parseStringBody (escapeString s ++ ('"' :: rest)) with
             | some p => some (.str p.1, p.2)
             | none => none) := rfl
        rw [hdisp, parseStringBody_escape]
      | arr xs =>
        cases xs with
        | nil =>
          have h1 : printJson (.arr []) ++ rest = '[' :: ']' :: rest := by
            simp [printJson, printJsonElems]
          rw [h1]
          rfl
        | cons x xr =>
          have hfe : elemsFuel (x :: xr) ≤ f := by
            simp only [jsonFuel] at hfuel
            omega
          have hcanE : canonicalElems (x :: xr) = true := by
            simpa [canonical] using hcan
          obtain ⟨t, hpet⟩ : ∃ t, printJsonElems (x :: xr) = printJson x ++ t := by
            cases xr with
            | nil => exact ⟨[], by simp [printJsonElems]⟩
            | cons y yr => exact ⟨',' :: printJsonElems (y :: yr), by simp [printJsonElems]⟩
          obtain ⟨c0, cs0, hc0, hnws, hnrb, hncb, hncm, hncl⟩ := printJson_head x
          have hshape : printJson (.arr (x :: xr)) ++ rest =
              '[' :: (printJsonElems (x :: xr) ++ (']' :: rest)) := by
            simp [printJson]
          rw [hshape]
          have hdisp : parseValue (f + 1)
              ('[' :: (printJsonElems (x :: xr) ++ (']' :: rest))) =
              (match skipWs (printJsonElems (x :: xr) ++ (']' :: rest)) with
               | ']' :: rest2 => some (.arr [], rest2)
               | _ =>
                 match parseElems f (printJsonElems (x :: xr) ++ (']' :: rest)) with
                 | some p => some (.arr p.1, p.2)
                 | none => none) := rfl
          rw [hdisp]
          have hhead : printJsonElems (x :: xr) ++ (']' :: rest) =
              c0 :: (cs0 ++ t ++ (']' :: rest)) := by
            rw [hpet, hc0]
            simp
          rw [hhead, skipWs_not_ws hnws]
          have helems := ih2 (x :: xr) rest (by simp) hcanE hfe
          rw [hhead] at helems
          simp only [List.append_assoc] at helems
          simp [hnrb, helems]
      | obj kvs =>
        cases kvs with
        | nil =>
          have h1 : printJson (.obj []) ++ rest = '{' :: '}' :: rest := by
            simp [printJson, printJsonEntries]
          rw [h1]
          rfl
        | cons kv r =>
          have hfe : entriesFuel (kv :: r) ≤ f := by
            simp only [jsonFuel] at hfuel
            omega
          have hcanO : keysAscending (kv :: r) = true ∧
              canonicalEntries (kv :: r) = true := by
            have := hcan
            simp only [canonical, Bool.and_eq_true] at this
            exact this
          obtain ⟨t, hpet⟩ : ∃ t, printJsonEntries (kv :: r) =
              '"' :: (escapeString kv.1 ++ t) := by
            cases r with
            | nil =>
              exact ⟨'"' :: ':' :: printJson kv.2, by
                obtain ⟨k, v⟩ := kv
                simp [printJsonEntries]⟩
            | cons e re =>
              exact ⟨'"' :: ':' :: printJson kv.2 ++ ',' :: printJsonEntries (e :: re), by
                obtain ⟨k, v⟩ := kv
                simp [printJsonEntries]⟩
          have hshape : printJson (.obj (kv :: r)) ++ rest =
              '{' :: (printJsonEntries (kv :: r) ++ ('}' :: rest)) := by
            simp [printJson]
          rw [hshape]
          have hdisp : parseValue (f + 1)
              ('{' :: (printJsonEntries (kv :: r) ++ ('}' :: rest))) =
              (match skipWs (printJsonEntries (kv :: r) ++ ('}' :: rest)) with
               | '}' :: rest2 => some (.obj [], rest2)
               | _ =>
                 match parseEntries f (printJsonEntries (kv :: r) ++ ('}' :: rest)) [] with
                 | some p => some (.obj p.1, p.2)
                 | none => none) := rfl
          rw [hdisp]
          have hhead : printJsonEntries (kv :: r) ++ ('}' :: rest) =
              '"' :: (escapeString kv.1 ++ t ++ ('}' :: rest)) := by
            rw [hpet]
            simp
          rw [hhead, skipWs_not_ws (by decide)]
          have hentries := ih3 (kv :: r) [] rest (by simp) hcanO.2 hfe
          rw [hhead] at hentries
          rw [foldl_objInsert_nil (kv :: r) hcanO.1] at hentries
          simp only [List.append_assoc] at hentries
          simp [hentries]
    · -- P2: array elements
      intro xs rest hne hcanE hf
      cases xs with
      | nil => exact absurd rfl hne
      | cons x xr =>
        have hcx : canonical x = true ∧ canonicalElems xr = true := by
          simpa [canonicalElems, Bool.and_eq_true] using hcanE
        have hdisp : ∀ CS, parseElems (f + 1) CS =
            (match parseValue f CS with
             | none => none
             | some (v, rest) =>
               match skipWs rest with
               | ',' :: rest2 =>
                 (match parseElems f rest2 with
                  | some p => some (v :: p.1, p.2)
                  | none => none)
               | ']' :: rest2 => some ([v], rest2)
               | _ => none) := fun CS => rfl
        have hfx : jsonFuel x ≤ f := by
          rw [elemsFuel] at hf
          omega
        cases xr with
        | nil =>
          have hpe : printJsonElems [x] ++ ']' :: rest = printJson x ++ (']' :: rest) := by
            simp [printJsonElems]
          rw [hpe, hdisp]
          rw [ih1 x (']' :: rest) hcx.1 hfx
            (by intro c2 cs2 h2; injection h2 with h2a h2b; exact Or.inr (Or.inl h2a.symm))]
          rfl
        | cons y yr =>
          have hfr : elemsFuel (y :: yr) ≤ f := by
            rw [elemsFuel] at hf
            omega
          have hpe : printJsonElems (x :: y :: yr) ++ ']' :: rest =
              printJson x ++ (',' :: (printJsonElems (y :: yr) ++ ']' :: rest)) := by
            simp [printJsonElems]
          rw [hpe, hdisp]
          rw [ih1 x (',' :: (printJsonElems (y :: yr) ++ ']' :: rest)) hcx.1 hfx
            (by intro c2 cs2 h2; injection h2 with h2a h2b; exact Or.inl h2a.symm)]
          have htail := ih2 (y :: yr) rest (by simp) hcx.2 hfr
          have hskM : ∀ X : List Char, skipWs (',' :: X) = ',' :: X :=
            fun X => skipWs_not_ws (by decide) X
          simp only [hskM, htail]
    · -- P3: object entries
      intro kvs acc rest hne hcanE hf
      cases kvs with
      | nil => exact absurd rfl hne
      | cons kv r =>
        obtain ⟨k, v⟩ := kv
        have hcx : canonical v = true ∧ canonicalEntries r = true := by
          simpa [canonicalEntries, Bool.and_eq_true] using hcanE
        have hfv : jsonFuel v ≤ f := by
          rw [entriesFuel] at hf
          simp only at hf
          omega
        have hdisp : ∀ CS acc2, parseEntries (f + 1) CS acc2 =
            (match skipWs CS with
             | '"' :: rest =>
               (match parseStringBody rest with
                | none => none
                | some (k, rest2) =>
                  match skipWs rest2 with
                  | ':' :: rest3 =>
                    (match parseValue f rest3 with
                     | none => none
                     | some (v, rest4) =>
                       match skipWs rest4 with
                       | ',' :: rest5 => parseEntries f rest5 (objInsert k v acc2)
                       | '}' :: rest5 => some (objInsert k v acc2, rest5)
                       | _ => none)
                  | _ => none)
             | _ => none) := fun CS acc2 => rfl
        have hskQ : ∀ X : List Char, skipWs ('"' :: X) = '"' :: X :=
          fun X => skipWs_not_ws (by decide) X
        have hskC : ∀ X : List Char, skipWs (':' :: X) = ':' :: X :=
          fun X => skipWs_not_ws (by decide) X
        have hskM : ∀ X : List Char, skipWs (',' :: X) = ',' :: X :=
          fun X => skipWs_not_ws (by decide) X
        have hskB : ∀ X : List Char, skipWs ('}' :: X) = '}' :: X :=
          fun X => skipWs_not_ws (by decide) X
        cases r with
        | nil =>
          have hval := ih1 v ('}' :: rest) hcx.1 hfv
            (by intro c2 cs2 h2; injection h2 with h2a h2b; exact Or.inr (Or.inr h2a.symm))
          have hpe : printJsonEntries [(k, v)] ++ '}' :: rest =
              '"' :: (escapeString k ++ ('"' :: (':' :: (printJson v ++ ('}' :: rest))))) := by
            simp [printJsonEntries]
          rw [hpe]
          simp only [hdisp, hskQ, parseStringBody_escape, hskC, hval, hskB]
          simp
        | cons e re =>
          have hfr : entriesFuel (e :: re) ≤ f := by
            rw [entriesFuel] at hf
            simp only at hf
            omega
          have hval := ih1 v (',' :: (printJsonEntries (e :: re) ++ '}' :: rest)) hcx.1 hfv
            (by intro c2 cs2 h2; injection h2 with h2a h2b; exact Or.inl h2a.symm)
          have htail := ih3 (e :: re) (objInsert k v acc) rest (by simp) hcx.2 hfr
          have hpe : printJsonEntries ((k, v) :: e :: re) ++ '}' :: rest =
              '"' :: (escapeString k ++ ('"' :: (':' :: (printJson v ++
                (',' :: (printJsonEntries (e :: re) ++ '}' :: rest)))))) := by
            simp [printJsonEntries]
          rw [hpe]
          simp only [hdisp, hskQ, parseStringBody_escape, hskC, hval, hskM, htail]
          simp


theorem jsonInduction (P : Json → Prop)
    (hnull : P .null) (hbool : ∀ b, P (.bool b)) (hnum : ∀ n, P (.num n))
    (hstr : ∀ s, P (.str s))
    (harr : ∀ xs, (∀ x ∈ xs, P x) → P (.arr xs))
    (hobj : ∀ kvs, (∀ kv ∈ kvs, P kv.2) → P (.obj kvs)) :
    ∀ v, P v := by
  intro v
  refine Json.rec (motive_1 := P) (motive_2 := fun xs => ∀ x ∈ xs, P x)
    (motive_3 := fun kvs => ∀ kv ∈ kvs, P kv.2) (motive_4 := fun kv => P kv.2)
    hnull hbool hnum hstr harr hobj ?_ ?_ ?_ ?_ ?_ v
  · intro x hx
    exact absurd hx (List.not_mem_nil x)
  · intro h t hh ht x hx
    rcases List.mem_cons.mp hx with h1 | h2
    · exact h1 ▸ hh
    · exact ht x h2
  · intro kv hkv
    exact absurd hkv (List.not_mem_nil kv)
  · intro h t hh ht kv hkv
    rcases List.mem_cons.mp hkv with h1 | h2
    · exact h1 ▸ hh
    · exact ht kv h2
  · intro fst snd hsnd
    exact hsnd

theorem jsonFuel_le_printLen :
    ∀ v : Json, jsonFuel v ≤ (printJson v).length + 1 := by
  intro v
  induction v using jsonInduction with
  | hnull => simp [jsonFuel, printJson]
  | hbool b => cases b <;> simp [jsonFuel, printJson]
  | hnum n => simp [jsonFuel]
  | hstr s => simp [jsonFuel]
  | harr xs ih =>
    have helems : ∀ ys : List Json,
        (∀ x ∈ ys, jsonFuel x ≤ (printJson x).length + 1) →
        elemsFuel ys ≤ (printJsonElems ys).length + 2 := by
      intro ys
      induction ys with
      | nil => intro _; simp [elemsFuel, printJsonElems]
      | cons x xr ihl =>
        intro hall
        have hx := hall x (by simp)
        cases xr with
        | nil =>
          rw [elemsFuel]
          have h1 : elemsFuel ([] : List Json) = 0 := by rw [elemsFuel]
          have h2 : printJsonElems [x] = printJson x := by simp [printJsonElems]
          rw [h1, h2]
          omega
        | cons y yr =>
          have hr := ihl (fun z hz => hall z (by simp [hz]))
          rw [elemsFuel]
          have h2 : printJsonElems (x :: y :: yr) =
              printJson x ++ ',' :: printJsonElems (y :: yr) := by
            simp [printJsonElems]
          rw [h2]
          simp only [List.length_append, List.length_cons]
          omega
    rw [jsonFuel]
    have h2 : (printJson (.arr xs)).length = 2 + (printJsonElems xs).length := by
      simp [printJson]
      omega
    rw [h2]
    have := helems xs ih
    omega
  | hobj kvs ih =>
    have hentries : ∀ es : List (List Char × Json),
        (∀ kv ∈ es, jsonFuel kv.2 ≤ (printJson kv.2).length + 1) →
        entriesFuel es ≤ (printJsonEntries es).length + 2 := by
      intro es
      induction es with
      | nil => intro _; simp [entriesFuel, printJsonEntries]
      | cons kv er ihl =>
        intro hall
        have hx := hall kv (by simp)
        obtain ⟨k, v⟩ := kv
        cases er with
        | nil =>
          rw [entriesFuel]
          have h1 : entriesFuel ([] : List (List Char × Json)) = 0 := by
            rw [entriesFuel]
          have h2 : printJsonEntries [(k, v)] =
              '"' :: escapeString k ++ '"' :: ':' :: printJson v := by
            simp [printJsonEntries]
          rw [h1, h2]
          simp only [List.length_cons, List.length_append] at hx ⊢
          omega
        | cons e re =>
          have hr := ihl (fun z hz => hall z (by simp [hz]))
          rw [entriesFuel]
          have h2 : printJsonEntries ((k, v) :: e :: re) =
              '"' :: escapeString k ++ '"' :: ':' :: printJson v ++
                ',' :: printJsonEntries (e :: re) := by
            simp [printJsonEntries]
          rw [h2]
          simp only [List.length_cons, List.length_append] at hx hr ⊢
          omega
    rw [jsonFuel]
    have h2 : (printJson (.obj kvs)).length = 2 + (printJsonEntries kvs).length := by
      simp [printJson]
      omega
    rw [h2]
    have := hentries kvs ih
    omega

theorem mem_objInsert {k : List Char} {v : Json} {x : List Char × Json} :
    ∀ {l}, x ∈ objInsert k v l → x = (k, v) ∨ x ∈ l := by
  intro l
  induction l with
  | nil =>
    intro h
    simp [objInsert] at h
    exact Or.inl h
  | cons a r ih =>
    intro h
    simp only [objInsert] at h
    split at h
    · rcases List.mem_cons.mp h with h1 | h2
      · exact Or.inl h1
      · exact Or.inr h2
    · split at h
      · rcases List.mem_cons.mp h with h1 | h2
        · exact Or.inl h1
        · exact Or.inr (List.mem_cons_of_mem a h2)
      · rcases List.mem_cons.mp h with h1 | h2
        · exact Or.inr (h1 ▸ List.mem_cons_self a r)
        · rcases ih h2 with h3 | h4
          · exact Or.inl h3
          · exact Or.inr (List.mem_cons_of_mem a h4)

theorem objInsert_pairwise {k : List Char} {v : Json} :
    ∀ {l}, List.Pairwise (fun a b : List Char × Json => keyLt a.1 b.1 = true) l →
      List.Pairwise (fun a b : List Char × Json => keyLt a.1 b.1 = true)
        (objInsert k v l) := by
  intro l
  induction l with
  | nil => intro _; simp [objInsert]
  | cons a r ih =>
    intro hp
    rw [List.pairwise_cons] at hp
    obtain ⟨hall, hrest⟩ := hp
    simp only [objInsert]
    split
    · rename_i hlt
      refine List.pairwise_cons.mpr ⟨?_, List.pairwise_cons.mpr ⟨hall, hrest⟩⟩
      intro x hx
      rcases List.mem_cons.mp hx with h1 | h2
      · subst h1; exact hlt
      · exact keyLt_trans hlt (hall x h2)
    · split
      · rename_i hnlt heq
        refine List.pairwise_cons.mpr ⟨?_, hrest⟩
        intro x hx
        show keyLt k x.1 = true
        rw [heq]
        exact hall x hx
      · rename_i hnlt hne
        refine List.pairwise_cons.mpr ⟨?_, ih hrest⟩
        intro x hx
        rcases mem_objInsert hx with h1 | h2
        · subst h1
          show keyLt a.1 k = true
          rcases keyLt_total (a := k) (b := a.1) hne with h3 | h3
          · exact absurd h3 hnlt
          · exact h3
        · exact hall x h2

theorem canonicalEntries_mem_iff (l : List (List Char × Json)) :
    canonicalEntries l = true ↔ ∀ kv ∈ l, canonical kv.2 = true := by
  induction l with
  | nil => simp [canonicalEntries]
  | cons a r ih =>
    rw [canonicalEntries, Bool.and_eq_true, ih]
    constructor
    · rintro ⟨h1, h2⟩ kv hkv
      rcases List.mem_cons.mp hkv with h3 | h4
      · exact h3 ▸ h1
      · exact h2 kv h4
    · intro hall
      exact ⟨hall a (by simp), fun kv hkv => hall kv (List.mem_cons_of_mem a hkv)⟩

theorem objInsert_canonicalEntries {k : List Char} {v : Json}
    (hv : canonical v = true) {l : List (List Char × Json)}
    (hl : canonicalEntries l = true) :
    canonicalEntries (objInsert k v l) = true := by
  rw [canonicalEntries_mem_iff] at hl ⊢
  intro kv hkv
  rcases mem_objInsert hkv with h1 | h2
  · rw [h1]
    exact hv
  · exact hl kv h2

theorem parse_canonical_aux : ∀ f : Nat,
    (∀ cs v rest, parseValue f cs = some (v, rest) → canonical v = true) ∧
    (∀ cs xs rest, parseElems f cs = some (xs, rest) → canonicalElems xs = true) ∧
    (∀ cs acc kvs rest,
      List.Pairwise (fun a b : List Char × Json => keyLt a.1 b.1 = true) acc →
      canonicalEntries acc = true →
      parseEntries f cs acc = some (kvs, rest) →
      List.Pairwise (fun a b : List Char × Json => keyLt a.1 b.1 = true) kvs ∧
        canonicalEntries kvs = true) := by
  intro f
  induction f with
  | zero =>
    refine ⟨?_, ?_, ?_⟩
    · intro cs v rest h
      exact absurd h (by simp [parseValue])
    · intro cs xs rest h
      exact absurd h (by simp [parseElems])
    · intro cs acc kvs rest _ _ h
      exact absurd h (by simp [parseEntries])
  | succ f ih =>
    obtain ⟨ih1, ih2, ih3⟩ := ih
    refine ⟨?_, ?_, ?_⟩
    · intro cs v rest h
      rw [parseValue] at h
      split at h
      · simp only [Option.some.injEq, Prod.mk.injEq] at h
        rw [← h.1]
        simp [canonical]
      · simp only [Option.some.injEq, Prod.mk.injEq] at h
        rw [← h.1]
        simp [canonical]
      · simp only [Option.some.injEq, Prod.mk.injEq] at h
        rw [← h.1]
        simp [canonical]
      · split at h
        · simp only [Option.some.injEq, Prod.mk.injEq] at h
          rw [← h.1]
          simp [canonical]
        · exact absurd h (by simp)
      · split at h
        · simp only [Option.some.injEq, Prod.mk.injEq] at h
          rw [← h.1]
          simp [canonical, canonicalElems]
        · split at h
          · rename_i p hp
            simp only [Option.some.injEq, Prod.mk.injEq] at h
            obtain ⟨h1, h2⟩ := h
            rw [← h1]
            have hc := ih2 _ _ _ hp
            simp [canonical, hc]
          · exact absurd h (by simp)
      · split at h
        · simp only [Option.some.injEq, Prod.mk.injEq] at h
          rw [← h.1]
          simp [canonical, keysAscending, canonicalEntries]
        · split at h
          · rename_i p hp
            have hc := ih3 _ [] _ _ List.Pairwise.nil (by rw [canonicalEntries]) hp
            simp only [Option.some.injEq, Prod.mk.injEq] at h
            obtain ⟨h1, h2⟩ := h
            rw [← h1]
            simp [canonical, (keysAscending_iff p.1).mpr hc.1, hc.2]
          · exact absurd h (by simp)
      · split at h
        · rename_i p hp
          simp only [Option.some.injEq, Prod.mk.injEq] at h
          obtain ⟨h1, h2⟩ := h
          rw [← h1]
          simp [canonical]
        · exact absurd h (by simp)
    · intro cs xs rest h
      rw [parseElems] at h
      split at h
      · exact absurd h (by simp)
      · rename_i vp hv
        split at h
        · split at h
          · rename_i p hp
            simp only [Option.some.injEq, Prod.mk.injEq] at h
            obtain ⟨h1, h2⟩ := h
            rw [← h1]
            have hcv := ih1 _ _ _ hv
            have hcp := ih2 _ _ _ hp
            rw [canonicalElems, Bool.and_eq_true]
            exact ⟨hcv, hcp⟩
          · exact absurd h (by simp)
        · simp only [Option.some.injEq, Prod.mk.injEq] at h
          obtain ⟨h1, h2⟩ := h
          rw [← h1]
          have hcv := ih1 _ _ _ hv
          rw [canonicalElems, Bool.and_eq_true]
          exact ⟨hcv, by rw [canonicalElems]⟩
        · exact absurd h (by simp)
    · intro cs acc kvs rest hpw hce h
      rw [parseEntries] at h
      split at h
      · split at h
        · exact absurd h (by simp)
        · rename_i sp hsb
          split at h
          · split at h
            · exact absurd h (by simp)
            · rename_i vp hv
              have hcv := ih1 _ _ _ hv
              split at h
              · exact ih3 _ _ _ _ (objInsert_pairwise hpw)
                  (objInsert_canonicalEntries hcv hce) h
              · simp only [Option.some.injEq, Prod.mk.injEq] at h
                obtain ⟨h1, h2⟩ := h
                rw [← h1]
                exact ⟨objInsert_pairwise hpw, objInsert_canonicalEntries hcv hce⟩
              · exact absurd h (by simp)
          · exact absurd h (by simp)
      · exact absurd h (by simp)

theorem jsonParse_canonical (s : List Char) (v : Json)
    (h : jsonParse s = some v) : canonical v = true := by
  rw [jsonParse] at h
  split at h
  · rename_i p hp
    split at h
    · simp only [Option.some.injEq] at h
      rw [← h]
      exact (parse_canonical_aux (s.length + 1)).1 _ _ _ (by rw [hp])
    · exact absurd h (by simp)
  · exact absurd h (by simp)

theorem jsonParse_printJson (v : Json) (hc : canonical v = true) :
    jsonParse (printJson v) = some v := by
  have hb := jsonFuel_le_printLen v
  have h1 := (parse_print_aux ((printJson v).length + 1)).1 v [] hc hb
    (by intro c cs h; exact absurd h (by simp))
  rw [List.append_nil] at h1
  rw [jsonParse, h1]
  rfl

/-- C4: the brand mapping is a total function from i16 to Brand that
reproduces the reference table exactly; in particular 32 maps to
BlackShark (overriding the Xiaomi range), 11 to Realme (overriding the
Oppo range), -86 to Hisense, -96 to Rog, and unlisted inputs such as 200
map to Unknown of the input. -/
theorem brand_mapping_matches_reference_table :
    (∀ id : Int, Brand.fromI16 id = specBrandTable id) ∧
    Brand.fromI16 32 = .BlackShark ∧
    Brand.fromI16 11 = .Realme ∧
    Brand.fromI16 (-86) = .Hisense ∧
    Brand.fromI16 (-96) = .Rog ∧
    Brand.fromI16 200 = .Unknown 200 :=
  ⟨fun _ => rfl, by decide, by decide, by decide, by decide, by decide⟩

/-- C9: a 6-byte service-data entry keyed by a UUID whose first two bytes
are zero sets the 5 GHz flag from UUID byte 2 and the brand id from UUID
byte 3; for the capability UUID 000001ff-...-34fb the decoder yields
supports_5ghz = true and brand Unknown 255. -/
theorem parse_service_metadata_capability (u d : List Nat)
    (md : List (Nat × List Nat))
    (hd : d.length = 6) (hu0 : u.getD 0 0 = 0) (hu1 : u.getD 1 0 = 0) :
    (parseServiceMetadata [(u, d)] md).supports_5ghz = (u.getD 2 0 == 1) ∧
    (parseServiceMetadata [(u, d)] md).brand_id = some ((u.getD 3 0 : Nat) : Int) ∧
    (parseServiceMetadata [(capabilityUuidFF, d)] md).supports_5ghz = true ∧
    (parseServiceMetadata [(capabilityUuidFF, d)] md).brand_id = some 255 ∧
    Brand.fromI16 255 = .Unknown 255 := by
  simp only [List.getD, List.get?_eq_getElem?] at hu0 hu1
  refine ⟨?_, ?_, ?_, ?_, by decide⟩ <;>
    simp [parseServiceMetadata, serviceMetaStep, hd, List.getD, hu0, hu1,
      capabilityUuidFF]

/-- Witness for `parse_service_metadata_capability` at the concrete
capability UUID and a six-byte payload. -/
theorem parse_service_metadata_capability_witness :
    ([(1 : Nat), 2, 3, 4, 5, 6].length = 6) ∧
    (parseServiceMetadata [(capabilityUuidFF, [1, 2, 3, 4, 5, 6])] []).supports_5ghz
      = true :=
  ⟨by decide,
    (parse_service_metadata_capability capabilityUuidFF [1, 2, 3, 4, 5, 6] []
      (by decide) (by decide) (by decide)).2.2.1⟩

/-- C5 (amended): the legacy advertisement for service UUID 0x3331 always
starts with the Flags TLV 02 01 06 and the 16-bit service list TLV
03 03 31 33, followed by a service-data TLV of type 0x16 with the ident
UUID little-endian and at most 6 ident bytes; adv and scan response stay
within 31 bytes; and for every NONEMPTY device name of at most 15 UTF-8
bytes the scan response is the Complete Local Name TLV for that name. -/
theorem catshare_compatible_layout (iu : Nat) (ident name : List Nat)
    (sid : Nat × Nat) (hname : name ≠ []) (hlen : name.length ≤ 15) :
    (LegacyAdvConfig.catshareCompatible 0x3331 iu ident name sid).adv_data.take 3
        = [2, 1, 6] ∧
    ((LegacyAdvConfig.catshareCompatible 0x3331 iu ident name sid).adv_data.drop 3).take 4
        = [3, 3, 0x31, 0x33] ∧
    (LegacyAdvConfig.catshareCompatible 0x3331 iu ident name sid).adv_data.drop 7
        = (3 + min ident.length 6) :: 0x16 :: (iu &&& 0xFF) ::
          ((iu >>> 8) % 256) :: ident.take (min ident.length 6) ∧
    min ident.length 6 ≤ 6 ∧
    (LegacyAdvConfig.catshareCompatible 0x3331 iu ident name sid).adv_data.length ≤ 31 ∧
    (LegacyAdvConfig.catshareCompatible 0x3331 iu ident name sid).scan_rsp_data.length ≤ 31 ∧
    (LegacyAdvConfig.catshareCompatible 0x3331 iu ident name sid).scan_rsp_data
        = (1 + name.length) :: 9 :: name := by
  have hmin : min ident.length 6 ≤ 6 := Nat.min_le_right _ _
  have hmod : (3 + min ident.length 6) % 256 = 3 + min ident.length 6 :=
    Nat.mod_eq_of_lt (by omega)
  have hpos : 0 < name.length := List.length_pos.mpr hname
  have hnm : min name.length 29 = name.length := Nat.min_eq_left (by omega)
  have hlow : (0x3331 : Nat) &&& 0xFF = 0x31 := by decide
  have hhigh : ((0x3331 : Nat) >>> 8) % 256 = 0x33 := by decide
  have hadv : (LegacyAdvConfig.catshareCompatible 0x3331 iu ident name sid).adv_data
      = [2, 1, 6, 3, 3, 0x31, 0x33] ++ ((3 + min ident.length 6) :: 0x16 ::
        (iu &&& 0xFF) :: ((iu >>> 8) % 256) :: ident.take (min ident.length 6)) := by
    simp [LegacyAdvConfig.catshareCompatible, hmod, hlow, hhigh]
  have hscan : (LegacyAdvConfig.catshareCompatible 0x3331 iu ident name sid).scan_rsp_data
      = (1 + name.length) :: 9 :: name := by
    simp [LegacyAdvConfig.catshareCompatible, hnm, hpos, List.take_length,
      Nat.mod_eq_of_lt (show 1 + name.length < 256 by omega)]
  refine ⟨?_, ?_, ?_, hmin, ?_, ?_, hscan⟩
  · rw [hadv]; rfl
  · rw [hadv]; rfl
  · rw [hadv]; rfl
  · rw [hadv]
    simp [List.length_append, List.length_take]
    try omega
  · rw [hscan]
    simp
    try omega

/-- Witness for `catshare_compatible_layout` at the configuration of the
repository's own unit test (ident UUID 0x011e, sender id 12 75, a short
ASCII name). -/
theorem catshare_compatible_layout_witness :
    (([116, 112] : List Nat) ≠ []) ∧
    (LegacyAdvConfig.catshareCompatible 0x3331 0x011e [0x12, 0x75]
        [116, 112] (0x12, 0x75)).adv_data.take 3 = [2, 1, 6] :=
  ⟨by decide,
    (catshare_compatible_layout 0x011e [0x12, 0x75] [116, 112] (0x12, 0x75)
      (by decide) (by decide)).1⟩

/-- C5 counterexample: for the empty device name (a name of at most 15
UTF-8 bytes) the encoder emits an empty scan response, which does not
begin with a length byte followed by the Complete Local Name type 0x09 as
the claim requires. -/
theorem catshare_compatible_empty_name :
    (LegacyAdvConfig.catshareCompatible 0x3331 0x011e [0x12, 0x75] []
        (0x12, 0x75)).scan_rsp_data = [] ∧
    (LegacyAdvConfig.catshareCompatible 0x3331 0x011e [0x12, 0x75] []
        (0x12, 0x75)).scan_rsp_data.take 2 ≠ [1, 9] := by
  constructor <;> decide

/-- Helper for C8: when every file of the list is readable, the ZIP loop
starting at index i returns exactly one Stored entry named i slash name
per file, in order. -/
theorem zipEntriesFrom_eq (fs : String → Option (List Nat))
    (files : List FileEntry) :
    ∀ i : Nat, (∀ f ∈ files, (fs f.path).isSome) →
      zipEntriesFrom fs i files = some ((List.enumFrom i files).map
        (fun p => ⟨toString p.1 ++ "/" ++ p.2.name, .stored, (fs p.2.path).getD []⟩)) := by
  induction files with
  | nil => intro i _; rfl
  | cons f rest ih =>
    intro i h
    have hf : (fs f.path).isSome := h f (List.mem_cons_self f rest)
    obtain ⟨c, hc⟩ := Option.isSome_iff_exists.mp hf
    have hrest := ih (i + 1) (fun g hg => h g (List.mem_cons_of_mem f hg))
    simp [zipEntriesFrom, hc, hrest, List.enumFrom]

/-- C8: a download request whose task id differs from the active task is
answered 404 with no file data; a matching request (with all files
readable) is answered with ZIP entries named index slash file name using
Stored compression, in file-list order. -/
theorem download_handler_behavior (fs : String → Option (List Nat))
    (task : TransferTask) (qid : String) :
    (qid ≠ task.task_id → downloadHandler fs task qid = .notFound) ∧
    (qid = task.task_id → (∀ f ∈ task.files, (fs f.path).isSome) →
      downloadHandler fs task qid = .ok (task.files.enum.map
        (fun p => ⟨toString p.1 ++ "/" ++ p.2.name, .stored, (fs p.2.path).getD []⟩))) := by
  constructor
  · intro hne
    simp [downloadHandler, Ne.symm hne]
  · intro heq hall
    subst heq
    simp [downloadHandler, createZipResponse, zipEntriesFrom_eq fs task.files 0 hall,
      List.enum]

/-- Witness for `download_handler_behavior`: one concrete task with one
readable file; a wrong task id yields 404, the right one yields the
single Stored entry 0/report.txt. -/
theorem download_handler_behavior_witness :
    downloadHandler (fun _ => some [7, 8]) ⟨"t1", [⟨"/tmp/report", "report.txt", 2, "text/plain"⟩], "ab", "sender"⟩ "zz" = .notFound ∧
    downloadHandler (fun _ => some [7, 8]) ⟨"t1", [⟨"/tmp/report", "report.txt", 2, "text/plain"⟩], "ab", "sender"⟩ "t1" = .ok [⟨"0/report.txt", .stored, [7, 8]⟩] := by
  constructor
  · exact (download_handler_behavior (fun _ => some [7, 8]) _ "zz").1 (by decide)
  · have h := (download_handler_behavior (fun _ => some [7, 8])
      ⟨"t1", [⟨"/tmp/report", "report.txt", 2, "text/plain"⟩], "ab", "sender"⟩ "t1").2 rfl
      (by intro f hf; simp at hf; subst hf; rfl)
    simpa using h

/-! ### WebSocket message round trip (C3) -/

theorem hexDigitChar_ge (n : Nat) (h : n < 16) : 32 ≤ (hexDigitChar n).toNat := by
  rw [hexDigitChar]
  split
  · rw [charOfNat_toNat (48 + n) (by omega)]; omega
  · rw [charOfNat_toNat (87 + n) (by omega)]; omega

theorem escapeChar_ge (c : Char) : ∀ d ∈ escapeChar c, 32 ≤ d.toNat := by
  intro d hd
  rw [escapeChar] at hd
  split_ifs at hd with h1 h2 h3 h4 h5 h6 h7 h8
  · simp only [List.mem_cons, List.not_mem_nil, or_false] at hd
    rcases hd with h | h <;> subst h <;> decide
  · simp only [List.mem_cons, List.not_mem_nil, or_false] at hd
    rcases hd with h | h <;> subst h <;> decide
  · simp only [List.mem_cons, List.not_mem_nil, or_false] at hd
    rcases hd with h | h <;> subst h <;> decide
  · simp only [List.mem_cons, List.not_mem_nil, or_false] at hd
    rcases hd with h | h <;> subst h <;> decide
  · simp only [List.mem_cons, List.not_mem_nil, or_false] at hd
    rcases hd with h | h <;> subst h <;> decide
  · simp only [List.mem_cons, List.not_mem_nil, or_false] at hd
    rcases hd with h | h <;> subst h <;> decide
  · simp only [List.mem_cons, List.not_mem_nil, or_false] at hd
    rcases hd with h | h <;> subst h <;> decide
  · simp only [List.mem_cons, List.not_mem_nil, or_false] at hd
    rcases hd with h | h | h | h | h | h
    · subst h; decide
    · subst h; decide
    · subst h; decide
    · subst h; decide
    · subst h; exact hexDigitChar_ge _ (by omega)
    · subst h; exact hexDigitChar_ge _ (by omega)
  · simp only [List.mem_cons, List.not_mem_nil, or_false] at hd
    subst hd; omega

theorem escapeString_ge (s : List Char) : ∀ d ∈ escapeString s, 32 ≤ d.toNat := by
  intro d hd
  rw [escapeString, List.mem_flatten] at hd
  obtain ⟨l, hl, hdl⟩ := hd
  rw [List.mem_map] at hl
  obtain ⟨c, _, hcl⟩ := hl
  rw [← hcl] at hdl
  exact escapeChar_ge c d hdl

theorem digitChar_ge {c : Char} (h : isDigitChar c = true) : 32 ≤ c.toNat := by
  simp only [isDigitChar, Bool.and_eq_true, decide_eq_true_eq] at h
  omega

theorem natDigits_ge (n : Nat) : ∀ d ∈ natDigits n, 32 ≤ d.toNat :=
  fun d hd => digitChar_ge (natDigits_all_digits n d hd)

theorem intDigits_ge (n : Int) : ∀ d ∈ intDigits n, 32 ≤ d.toNat := by
  intro d hd
  rw [intDigits] at hd
  split_ifs at hd
  · rcases List.mem_cons.mp hd with h | h
    · subst h; decide
    · exact natDigits_ge _ d h
  · exact natDigits_ge _ d hd

theorem printJson_ge : ∀ v : Json, ∀ d ∈ printJson v, 32 ≤ d.toNat := by
  intro v
  induction v using jsonInduction with
  | hnull =>
    intro d hd
    simp only [printJson, List.mem_cons, List.not_mem_nil, or_false] at hd
    rcases hd with h | h | h | h <;> subst h <;> decide
  | hbool b =>
    intro d hd
    cases b <;>
      simp only [printJson, List.mem_cons, List.not_mem_nil, or_false] at hd
    · rcases hd with h | h | h | h | h <;> subst h <;> decide
    · rcases hd with h | h | h | h <;> subst h <;> decide
  | hnum n =>
    intro d hd
    simp only [printJson] at hd
    exact intDigits_ge n d hd
  | hstr s =>
    intro d hd
    simp only [printJson] at hd
    rcases List.mem_cons.mp hd with h | h
    · subst h; decide
    · rcases List.mem_append.mp h with h2 | h2
      · exact escapeString_ge s d h2
      · simp only [List.mem_cons, List.not_mem_nil, or_false] at h2
        subst h2; decide
  | harr xs ih =>
    have helems : ∀ ys : List Json,
        (∀ x ∈ ys, ∀ d ∈ printJson x, 32 ≤ d.toNat) →
        ∀ d ∈ printJsonElems ys, 32 ≤ d.toNat := by
      intro ys
      induction ys with
      | nil => intro _ d hd; simp [printJsonElems] at hd
      | cons x xr ihl =>
        intro hall d hd
        cases xr with
        | nil =>
          rw [show printJsonElems [x] = printJson x from by
            simp [printJsonElems]] at hd
          exact hall x (by simp) d hd
        | cons y yr =>
          rw [show printJsonElems (x :: y :: yr) =
              printJson x ++ ',' :: printJsonElems (y :: yr) from by
            simp [printJsonElems]] at hd
          rcases List.mem_append.mp hd with h | h
          · exact hall x (by simp) d h
          · rcases List.mem_cons.mp h with h2 | h2
            · subst h2; decide
            · exact ihl (fun z hz => hall z (by simp [hz])) d h2
    intro d hd
    simp only [printJson] at hd
    rcases List.mem_cons.mp hd with h | h
    · subst h; decide
    · rcases List.mem_append.mp h with h2 | h2
      · exact helems xs ih d h2
      · simp only [List.mem_cons, List.not_mem_nil, or_false] at h2
        subst h2; decide
  | hobj kvs ih =>
    have hentries : ∀ es : List (List Char × Json),
        (∀ kv ∈ es, ∀ d ∈ printJson kv.2, 32 ≤ d.toNat) →
        ∀ d ∈ printJsonEntries es, 32 ≤ d.toNat := by
      intro es
      induction es with
      | nil => intro _ d hd; simp [printJsonEntries] at hd
      | cons kv er ihl =>
        obtain ⟨k, v⟩ := kv
        intro hall d hd
        cases er with
        | nil =>
          rw [show printJsonEntries [(k, v)] =
              '"' :: escapeString k ++ '"' :: ':' :: printJson v from by
            simp [printJsonEntries]] at hd
          simp only [List.mem_cons, List.mem_append] at hd
          have hd2 : d = '"' ∨ d = ':' ∨ d ∈ escapeString k ∨
              d ∈ printJson v := by tauto
          rcases hd2 with h | h | h | h
          · subst h; decide
          · subst h; decide
          · exact escapeString_ge k d h
          · exact hall (k, v) (by simp) d h
        | cons e er2 =>
          rw [show printJsonEntries ((k, v) :: e :: er2) =
              '"' :: escapeString k ++ '"' :: ':' :: printJson v ++
                ',' :: printJsonEntries (e :: er2) from by
            simp [printJsonEntries]] at hd
          simp only [List.mem_cons, List.mem_append] at hd
          have hd2 : d = '"' ∨ d = ':' ∨ d = ',' ∨ d ∈ escapeString k ∨
              d ∈ printJson v ∨ d ∈ printJsonEntries (e :: er2) := by tauto
          rcases hd2 with h | h | h | h | h | h
          · subst h; decide
          · subst h; decide
          · subst h; decide
          · exact escapeString_ge k d h
          · exact hall (k, v) (by simp) d h
          · exact ihl (fun z hz => hall z (by simp [hz])) d h
    intro d hd
    simp only [printJson] at hd
    rcases List.mem_cons.mp hd with h | h
    · subst h; decide
    · rcases List.mem_append.mp h with h2 | h2
      · exact hentries kvs ih d h2
      · simp only [List.mem_cons, List.not_mem_nil, or_false] at h2
        subst h2; decide

theorem contains_newline_false (l : List Char) (h : ∀ c ∈ l, 32 ≤ c.toNat) :
    l.contains '\n' = false := by
  induction l with
  | nil => rfl
  | cons c cs ih =>
    have hc := h c (by simp)
    have hne : ('\n' == c) = false := by
      rw [beq_eq_false_iff_ne]
      intro he
      rw [← he] at hc
      exact absurd hc (by decide)
    rw [List.contains_cons, hne, Bool.false_or]
    exact ih (fun x hx => h x (by simp [hx]))

theorem takeWord_fst_word : ∀ l : List Char, ∀ c ∈ (takeWord l).1,
    isWordChar c = true := by
  intro l
  induction l with
  | nil => intro c hc; simp [takeWord] at hc
  | cons a as ih =>
    intro c hc
    by_cases hw : isWordChar a = true
    · rw [show takeWord (a :: as) = (a :: (takeWord as).1, (takeWord as).2)
        from by simp [takeWord, hw]] at hc
      rcases List.mem_cons.mp hc with h | h
      · subst h; exact hw
      · exact ih c h
    · rw [show takeWord (a :: as) = ([], a :: as) from by
        simp [takeWord, hw]] at hc
      simp at hc

theorem takeWord_append (w rest : List Char)
    (hw : ∀ c ∈ w, isWordChar c = true)
    (hrest : ∀ c cs, rest = c :: cs → isWordChar c = false) :
    takeWord (w ++ rest) = (w, rest) := by
  induction w with
  | nil =>
    cases rest with
    | nil => rfl
    | cons c cs => simp [takeWord, hrest c cs rfl]
  | cons d ds ih =>
    have hd := hw d (by simp)
    simp [takeWord, hd, ih (fun c hc => hw c (by simp [hc]))]

theorem wsParse_inv (t : List Char) (m : WsMessage) (h : wsParse t = some m) :
    m.msg_type ≠ [] ∧ (∀ c ∈ m.msg_type, isWordChar c = true) ∧
    m.id < 2 ^ 32 ∧ m.name ≠ [] ∧ (∀ c ∈ m.name, isWordChar c = true) ∧
    (∀ p, m.payload = some p → canonical p = true) := by
  rw [wsParse] at h
  split at h
  rename_i ty rest1 heq1
  split at h
  · exact absurd h (by simp)
  rename_i hty
  split at h
  rotate_left
  · exact absurd h (by simp)
  rename_i rest2
  split at h
  rename_i ds rest3 heq2
  split at h
  · exact absurd h (by simp)
  rename_i hds
  split at h
  rotate_left
  · exact absurd h (by simp)
  rename_i rest4
  split at h
  rename_i nm rest5 heq3
  split at h
  · exact absurd h (by simp)
  rename_i hnm
  have htyw : ∀ c ∈ ty, isWordChar c = true := by
    have hx := takeWord_fst_word t
    rw [heq1] at hx
    exact hx
  have hnmw : ∀ c ∈ nm, isWordChar c = true := by
    have hx := takeWord_fst_word rest4
    rw [heq3] at hx
    exact hx
  split at h
  · split at h
    · rename_i hid
      simp only [Option.some.injEq] at h
      subst h
      exact ⟨hty, htyw, hid, hnm, hnmw, fun p hp => absurd hp (by simp)⟩
    · exact absurd h (by simp)
  · split at h
    · exact absurd h (by simp)
    · split at h
      · rename_i pt _ hid
        simp only [Option.some.injEq] at h
        subst h
        exact ⟨hty, htyw, hid, hnm, hnmw,
          fun p hp => jsonParse_canonical pt p hp⟩
      · exact absurd h (by simp)
  · exact absurd h (by simp)

theorem wsParse_wsToString (ty nm : List Char) (id : Nat) (pay : Option Json)
    (hty : ty ≠ []) (htyw : ∀ c ∈ ty, isWordChar c = true)
    (hid : id < 2 ^ 32)
    (hnm : nm ≠ []) (hnmw : ∀ c ∈ nm, isWordChar c = true)
    (hpay : ∀ p, pay = some p → canonical p = true) :
    wsParse (wsToString ⟨ty, id, nm, pay⟩) = some ⟨ty, id, nm, pay⟩ := by
  cases pay with
  | none =>
    have h1 : takeWord (ty ++ ':' :: (natDigits id ++ ':' :: nm)) =
        (ty, ':' :: (natDigits id ++ ':' :: nm)) :=
      takeWord_append ty _ htyw
        (fun c cs hc => by injection hc with hh _; rw [← hh]; decide)
    have h2 : takeDigits (natDigits id ++ ':' :: nm) =
        (natDigits id, ':' :: nm) :=
      takeDigits_append _ _ (natDigits_all_digits id)
        (fun c cs hc => by injection hc with hh _; rw [← hh]; decide)
    have h3 : takeWord nm = (nm, []) := by
      have hx := takeWord_append nm [] hnmw
        (fun c cs hc => absurd hc (by simp))
      rwa [List.append_nil] at hx
    have hstr : wsToString ⟨ty, id, nm, none⟩ =
        ty ++ ':' :: (natDigits id ++ ':' :: nm) := by
      simp [wsToString]
    rw [hstr]
    simp only [wsParse, h1, h2, h3, digitsVal_natDigits, if_neg hty,
      if_neg (natDigits_ne_nil id), if_neg hnm, if_pos hid]
  | some p =>
    have hp : canonical p = true := hpay p rfl
    have h1 : takeWord (ty ++ ':' ::
        (natDigits id ++ ':' :: (nm ++ '?' :: printJson p))) =
        (ty, ':' :: (natDigits id ++ ':' :: (nm ++ '?' :: printJson p))) :=
      takeWord_append ty _ htyw
        (fun c cs hc => by injection hc with hh _; rw [← hh]; decide)
    have h2 : takeDigits (natDigits id ++ ':' :: (nm ++ '?' :: printJson p)) =
        (natDigits id, ':' :: (nm ++ '?' :: printJson p)) :=
      takeDigits_append _ _ (natDigits_all_digits id)
        (fun c cs hc => by injection hc with hh _; rw [← hh]; decide)
    have h3 : takeWord (nm ++ '?' :: printJson p) =
        (nm, '?' :: printJson p) :=
      takeWord_append nm _ hnmw
        (fun c cs hc => by injection hc with hh _; rw [← hh]; decide)
    have hnl : (printJson p).contains '\n' = false :=
      contains_newline_false _ (printJson_ge p)
    have hjp : jsonParse (printJson p) = some p := jsonParse_printJson p hp
    have hstr : wsToString ⟨ty, id, nm, some p⟩ =
        ty ++ ':' :: (natDigits id ++ ':' :: (nm ++ '?' :: printJson p)) := by
      simp [wsToString]
    rw [hstr]
    simp only [wsParse, h1, h2, h3, hnl, hjp, digitsVal_natDigits,
      if_neg hty, if_neg (natDigits_ne_nil id), if_neg hnm, if_pos hid,
      Bool.false_eq_true, if_false]

/-- C3: the parse and format pair of WsMessage is a round trip on parsed
messages: whenever WsMessage parse of a text returns some message m,
parsing the Display rendering of m returns some m again, with the same
kind, id, name and payload. -/
theorem ws_parse_format_roundtrip (t : List Char) (m : WsMessage)
    (h : wsParse t = some m) : wsParse (wsToString m) = some m := by
  obtain ⟨h1, h2, h3, h4, h5, h6⟩ := wsParse_inv t m h
  cases m with
  | mk ty id nm pay => exact wsParse_wsToString ty nm id pay h1 h2 h3 h4 h5 h6

/-- Witness for C3 at the concrete text a:7:b. -/
theorem ws_parse_format_roundtrip_witness :
    wsParse ['a', ':', '7', ':', 'b'] =
      some ⟨['a'], 7, ['b'], none⟩ ∧
    wsParse (wsToString ⟨['a'], 7, ['b'], none⟩) =
      some ⟨['a'], 7, ['b'], none⟩ :=
  ⟨rfl, ws_parse_format_roundtrip (['a', ':', '7', ':', 'b'])
    ⟨['a'], 7, ['b'], none⟩ rfl⟩

/-! ### Receiver sendRequest handling (C7) -/

theorem status_payload (n : Nat) (T R : List Char) :
    WsMessage.status n T 3 R =
      ⟨"action".data, n, "status".data,
        some (.obj [("id".data, .str T), ("reason".data, .str R),
          ("taskId".data, .str T), ("type".data, .num 3)])⟩ := rfl

/-- C7: on a sendRequest action whose payload deserializes, a refusing
accept policy makes the receiver send exactly one message, the status
action with the incremented id, and terminate rejected without a
download; the sent text parses back as action:<next_id>:status with the
payload object carrying taskId and id both equal to the effective task
id, type 3 and reason user refuse. An accepting policy instead sends
exactly ack:<received_id>:sendRequest and proceeds to download. -/
theorem receiver_send_request_behavior
    (msg_id : Nat) (ws : WsMessage) (req : SendRequest) (p : Json)
    (accept : SendRequest → Bool)
    (hname : ws.name = "sendRequest".data)
    (hp : ws.payload = some p)
    (hreq : sendRequestFromJson p = some req)
    (hid : msg_id + 1 < 2 ^ 32) :
    (accept req = false →
      receiverHandleMessage msg_id ws accept =
        (.rejected [wsToString (WsMessage.status (msg_id + 1) req.getTaskId 3
          ("user refuse".data))], msg_id + 1) ∧
      wsParse (wsToString (WsMessage.status (msg_id + 1) req.getTaskId 3
        ("user refuse".data))) =
        some ⟨"action".data, msg_id + 1, "status".data,
          some (.obj [("id".data, .str req.getTaskId),
            ("reason".data, .str ("user refuse".data)),
            ("taskId".data, .str req.getTaskId),
            ("type".data, .num 3)])⟩) ∧
    (accept req = true →
      receiverHandleMessage msg_id ws accept =
        (.download [wsToString (WsMessage.ack ws.id ("sendRequest".data)
          none)] req.getTaskId, msg_id) ∧
      wsToString (WsMessage.ack ws.id ("sendRequest".data) none) =
        "ack:".data ++ natDigits ws.id ++ ":sendRequest".data) := by
  have hne : ¬("sendRequest".data = "versionNegotiation".data) := by decide
  constructor
  · intro hrej
    constructor
    · simp only [receiverHandleMessage, hname, hp, hreq, hrej, if_neg hne,
        if_pos rfl, Bool.false_eq_true, if_false, if_true]
    · rw [status_payload]
      apply wsParse_wsToString
      · decide
      · decide
      · exact hid
      · decide
      · decide
      · intro q hq
        simp only [Option.some.injEq] at hq
        rw [← hq]
        rfl
  · intro hacc
    constructor
    · simp only [receiverHandleMessage, hname, hp, hreq, hacc, if_neg hne,
        if_pos rfl, if_true, if_false, Bool.false_eq_true]
    · have e1 : "ack".data = ['a', 'c', 'k'] := rfl
      have e2 : "ack:".data = ['a', 'c', 'k', ':'] := rfl
      have e3 : ":sendRequest".data =
          ':' :: "sendRequest".data := rfl
      simp only [wsToString, WsMessage.ack, e1, e2, e3]
      simp

/-- Witness for C7: a concrete sendRequest with taskId t1 refused by the
policy yields the rejected outcome carrying exactly the user-refuse
status message with id 2. -/
theorem receiver_send_request_behavior_witness :
    sendRequestFromJson (Json.obj
      [("fileCount".data, .num 1), ("fileName".data, .str ("f".data)),
       ("mimeType".data, .str ("m".data)),
       ("senderName".data, .str ("s".data)),
       ("taskId".data, .str ("t1".data)), ("totalSize".data, .num 1)]) =
      some ⟨some ("t1".data), none, none, "s".data, "f".data, "m".data,
        1, 1, none, none⟩ ∧
    receiverHandleMessage 1
      ⟨"action".data, 1, "sendRequest".data, some (Json.obj
        [("fileCount".data, .num 1), ("fileName".data, .str ("f".data)),
         ("mimeType".data, .str ("m".data)),
         ("senderName".data, .str ("s".data)),
         ("taskId".data, .str ("t1".data)), ("totalSize".data, .num 1)])⟩
      (fun _ => false) =
      (.rejected [wsToString (WsMessage.status 2 ("t1".data) 3
        ("user refuse".data))], 2) :=
  ⟨rfl,
    ((receiver_send_request_behavior 1
      ⟨"action".data, 1, "sendRequest".data, some (Json.obj
        [("fileCount".data, .num 1), ("fileName".data, .str ("f".data)),
         ("mimeType".data, .str ("m".data)),
         ("senderName".data, .str ("s".data)),
         ("taskId".data, .str ("t1".data)), ("totalSize".data, .num 1)])⟩
      ⟨some ("t1".data), none, none, "s".data, "f".data, "m".data,
        1, 1, none, none⟩
      (Json.obj
        [("fileCount".data, .num 1), ("fileName".data, .str ("f".data)),
         ("mimeType".data, .str ("m".data)),
         ("senderName".data, .str ("s".data)),
         ("taskId".data, .str ("t1".data)), ("totalSize".data, .num 1)])
      (fun _ => false) rfl rfl rfl (by decide)).1 rfl).1⟩

/-! ### UTF-8 name truncation (C6) -/

theorem utf8Encode_cons (c : Char) (s : List Char) :
    utf8Encode (c :: s) = utf8EncodeChar c ++ utf8Encode s := by
  simp [utf8Encode]

theorem utf8Encode_append (a b : List Char) :
    utf8Encode (a ++ b) = utf8Encode a ++ utf8Encode b := by
  simp [utf8Encode]

theorem utf8EncodeChar_length_pos (c : Char) :
    0 < (utf8EncodeChar c).length := by
  rw [utf8EncodeChar]
  split_ifs <;> simp

theorem utf8DecodeLossy_encodeChar (c : Char) (rest : List Nat) :
    utf8DecodeLossy (utf8EncodeChar c ++ rest) = c :: utf8DecodeLossy rest := by
  have hv : c.toNat < 0xd800 ∨ (0xdfff < c.toNat ∧ c.toNat < 0x110000) :=
    c.valid
  by_cases h1 : c.toNat < 0x80
  · rw [show utf8EncodeChar c = [c.toNat] from by rw [utf8EncodeChar]; simp [h1]]
    rw [List.singleton_append]
    rw [utf8DecodeLossy.eq_def]; dsimp only
    rw [if_pos h1, Char.ofNat_toNat]
  · by_cases h2 : c.toNat < 0x800
    · rw [show utf8EncodeChar c =
          [0xC0 + c.toNat / 64, 0x80 + c.toNat % 64] from by
        rw [utf8EncodeChar]; simp [h1, h2]]
      simp only [List.cons_append, List.nil_append]
      rw [utf8DecodeLossy.eq_def]; dsimp only
      rw [if_neg (by omega), if_neg (by omega), if_pos (by omega),
        if_pos (by omega)]
      rw [show (0xC0 + c.toNat / 64 - 0xC0) * 64 +
          (0x80 + c.toNat % 64 - 0x80) = c.toNat from by omega,
        Char.ofNat_toNat]
    · by_cases h3 : c.toNat < 0x10000
      · rw [show utf8EncodeChar c =
            [0xE0 + c.toNat / 4096, 0x80 + c.toNat / 64 % 64,
             0x80 + c.toNat % 64] from by
          rw [utf8EncodeChar]; simp [h1, h2, h3]]
        simp only [List.cons_append, List.nil_append]
        rw [utf8DecodeLossy.eq_def]; dsimp only
        rw [if_neg (by omega), if_neg (by omega), if_neg (by omega),
          if_pos (by omega), if_pos (by split_ifs <;> omega),
          if_pos (by omega)]
        rw [show (0xE0 + c.toNat / 4096 - 0xE0) * 4096 +
            (0x80 + c.toNat / 64 % 64 - 0x80) * 64 +
            (0x80 + c.toNat % 64 - 0x80) = c.toNat from by omega,
          Char.ofNat_toNat]
      · rw [show utf8EncodeChar c =
            [0xF0 + c.toNat / 262144, 0x80 + c.toNat / 4096 % 64,
             0x80 + c.toNat / 64 % 64, 0x80 + c.toNat % 64] from by
          rw [utf8EncodeChar]; simp [h1, h2, h3]]
        simp only [List.cons_append, List.nil_append]
        rw [utf8DecodeLossy.eq_def]; dsimp only
        rw [if_neg (by omega), if_neg (by omega), if_neg (by omega),
          if_neg (by omega), if_pos (by omega),
          if_pos (by split_ifs <;> omega), if_pos (by omega),
          if_pos (by omega)]
        rw [show (0xF0 + c.toNat / 262144 - 0xF0) * 262144 +
            (0x80 + c.toNat / 4096 % 64 - 0x80) * 4096 +
            (0x80 + c.toNat / 64 % 64 - 0x80) * 64 +
            (0x80 + c.toNat % 64 - 0x80) = c.toNat from by omega,
          Char.ofNat_toNat]

theorem utf8DecodeLossy_encode_append (s : List Char) (t : List Nat) :
    utf8DecodeLossy (utf8Encode s ++ t) = s ++ utf8DecodeLossy t := by
  induction s with
  | nil => simp [utf8Encode]
  | cons c s ih =>
    rw [utf8Encode_cons, List.append_assoc, utf8DecodeLossy_encodeChar, ih]
    rfl

theorem utf8DecodeLossy_partial (c : Char) (j : Nat) (hj : 0 < j)
    (hjl : j < (utf8EncodeChar c).length) :
    utf8DecodeLossy ((utf8EncodeChar c).take j) = [replChar] := by
  have hv : c.toNat < 0xd800 ∨ (0xdfff < c.toNat ∧ c.toNat < 0x110000) :=
    c.valid
  by_cases h1 : c.toNat < 0x80
  · rw [show utf8EncodeChar c = [c.toNat] from by
      rw [utf8EncodeChar]; simp [h1]] at hjl
    simp at hjl
    omega
  · by_cases h2 : c.toNat < 0x800
    · rw [show utf8EncodeChar c =
          [0xC0 + c.toNat / 64, 0x80 + c.toNat % 64] from by
        rw [utf8EncodeChar]; simp [h1, h2]] at hjl ⊢
      simp only [List.length_cons, List.length_nil] at hjl
      have hj1 : j = 1 := by omega
      subst hj1
      rw [show ([0xC0 + c.toNat / 64, 0x80 + c.toNat % 64] :
          List Nat).take 1 = [0xC0 + c.toNat / 64] from by simp]
      rw [utf8DecodeLossy.eq_def]; dsimp only
      rw [if_neg (by omega), if_neg (by omega), if_pos (by omega)]
    · by_cases h3 : c.toNat < 0x10000
      · rw [show utf8EncodeChar c =
            [0xE0 + c.toNat / 4096, 0x80 + c.toNat / 64 % 64,
             0x80 + c.toNat % 64] from by
          rw [utf8EncodeChar]; simp [h1, h2, h3]] at hjl ⊢
        simp only [List.length_cons, List.length_nil] at hjl
        interval_cases j
        · rw [show ([0xE0 + c.toNat / 4096, 0x80 + c.toNat / 64 % 64,
              0x80 + c.toNat % 64] : List Nat).take 1 =
              [0xE0 + c.toNat / 4096] from by simp]
          rw [utf8DecodeLossy.eq_def]; dsimp only
          rw [if_neg (by omega), if_neg (by omega), if_neg (by omega),
            if_pos (by omega)]
        · rw [show ([0xE0 + c.toNat / 4096, 0x80 + c.toNat / 64 % 64,
              0x80 + c.toNat % 64] : List Nat).take 2 =
              [0xE0 + c.toNat / 4096, 0x80 + c.toNat / 64 % 64] from by simp]
          rw [utf8DecodeLossy.eq_def]; dsimp only
          rw [if_neg (by omega), if_neg (by omega), if_neg (by omega),
            if_pos (by omega), if_pos (by split_ifs <;> omega)]
      · rw [show utf8EncodeChar c =
            [0xF0 + c.toNat / 262144, 0x80 + c.toNat / 4096 % 64,
             0x80 + c.toNat / 64 % 64, 0x80 + c.toNat % 64] from by
          rw [utf8EncodeChar]; simp [h1, h2, h3]] at hjl ⊢
        simp only [List.length_cons, List.length_nil] at hjl
        interval_cases j
        · rw [show ([0xF0 + c.toNat / 262144, 0x80 + c.toNat / 4096 % 64,
              0x80 + c.toNat / 64 % 64, 0x80 + c.toNat % 64] :
              List Nat).take 1 = [0xF0 + c.toNat / 262144] from by simp]
          rw [utf8DecodeLossy.eq_def]; dsimp only
          rw [if_neg (by omega), if_neg (by omega), if_neg (by omega),
            if_neg (by omega), if_pos (by omega)]
        · rw [show ([0xF0 + c.toNat / 262144, 0x80 + c.toNat / 4096 % 64,
              0x80 + c.toNat / 64 % 64, 0x80 + c.toNat % 64] :
              List Nat).take 2 = [0xF0 + c.toNat / 262144,
              0x80 + c.toNat / 4096 % 64] from by simp]
          rw [utf8DecodeLossy.eq_def]; dsimp only
          rw [if_neg (by omega), if_neg (by omega), if_neg (by omega),
            if_neg (by omega), if_pos (by omega),
            if_pos (by split_ifs <;> omega)]
        · rw [show ([0xF0 + c.toNat / 262144, 0x80 + c.toNat / 4096 % 64,
              0x80 + c.toNat / 64 % 64, 0x80 + c.toNat % 64] :
              List Nat).take 3 = [0xF0 + c.toNat / 262144,
              0x80 + c.toNat / 4096 % 64, 0x80 + c.toNat / 64 % 64] from by
            simp]
          rw [utf8DecodeLossy.eq_def]; dsimp only
          rw [if_neg (by omega), if_neg (by omega), if_neg (by omega),
            if_neg (by omega), if_pos (by omega),
            if_pos (by split_ifs <;> omega), if_pos (by omega)]

theorem utf8Encode_take (s : List Char) (k : Nat)
    (hk : k < (utf8Encode s).length) :
    ∃ s₁ c s₂, s = s₁ ++ c :: s₂ ∧ (utf8Encode s₁).length ≤ k ∧
      k - (utf8Encode s₁).length < (utf8EncodeChar c).length ∧
      (utf8Encode s).take k =
        utf8Encode s₁ ++ (utf8EncodeChar c).take (k - (utf8Encode s₁).length) := by
  induction s generalizing k with
  | nil => simp [utf8Encode] at hk
  | cons c s ih =>
    by_cases hkL : k < (utf8EncodeChar c).length
    · refine ⟨[], c, s, rfl, by simp [utf8Encode], by simp [utf8Encode]; omega, ?_⟩
      rw [utf8Encode_cons]
      rw [List.take_append_eq_append_take]
      rw [show k - (utf8EncodeChar c).length = 0 from by omega]
      simp [utf8Encode]
    · push_neg at hkL
      have hlen : (utf8Encode (c :: s)).length =
          (utf8EncodeChar c).length + (utf8Encode s).length := by
        rw [utf8Encode_cons]; simp
      have hk2 : k - (utf8EncodeChar c).length < (utf8Encode s).length := by
        rw [hlen] at hk; omega
      obtain ⟨s₁, c', s₂, he, h1, h2, h3⟩ := ih (k - (utf8EncodeChar c).length) hk2
      refine ⟨c :: s₁, c', s₂, by rw [he]; simp, ?_, ?_, ?_⟩
      · rw [utf8Encode_cons]
        simp only [List.length_append]
        omega
      · rw [utf8Encode_cons]
        simp only [List.length_append]
        have : k - ((utf8EncodeChar c).length + (utf8Encode s₁).length) =
            k - (utf8EncodeChar c).length - (utf8Encode s₁).length := by omega
        rw [this]
        exact h2
      · have hidx : k - (utf8Encode (c :: s₁)).length =
            k - (utf8EncodeChar c).length - (utf8Encode s₁).length := by
          rw [utf8Encode_cons]
          simp only [List.length_append]
          omega
        rw [hidx, utf8Encode_cons, utf8Encode_cons,
          List.take_append_eq_append_take, List.take_of_length_le hkL, h3,
          List.append_assoc]

theorem popUntilPrefix_exact (name s₁ : List Char) (h : s₁ <+: name) :
    popUntilPrefix name s₁ = s₁ := by
  rw [popUntilPrefix]
  by_cases he : s₁ = []
  · simp [he]
  · rw [if_neg he, if_pos (List.isPrefixOf_iff_prefix.mpr h)]

theorem popUntilPrefix_pop (name s₁ : List Char) (r : Char)
    (hpre : s₁ <+: name) (hr : r ∉ name) :
    popUntilPrefix name (s₁ ++ [r]) = s₁ := by
  rw [popUntilPrefix]
  have hne : ¬(s₁ ++ [r] = []) := by simp
  rw [if_neg hne]
  have hnp : ¬((s₁ ++ [r]).isPrefixOf name = true) := by
    intro hcontra
    exact hr ((List.isPrefixOf_iff_prefix.mp hcontra).subset (by simp))
  rw [if_neg hnp, List.dropLast_concat]
  exact popUntilPrefix_exact name s₁ hpre

theorem utf8Encode_tab (s : List Char) :
    utf8Encode (s ++ ['\t']) = utf8Encode s ++ [9] := by
  rw [utf8Encode_append]
  rfl

theorem utf8DecodeLossy_encode (s : List Char) :
    utf8DecodeLossy (utf8Encode s) = s := by
  have hx := utf8DecodeLossy_encode_append s []
  rw [List.append_nil] at hx
  rw [hx]
  rw [show utf8DecodeLossy [] = [] from by rw [utf8DecodeLossy.eq_def]]
  simp

/-- C6 (amended): the legacy (mgmt) advertisement encoder truncates a
device name longer than 29 UTF-8 bytes RAW at 29 bytes, with no boundary
adjustment and no marker, while a nonempty name of at most 29 bytes is
encoded unmodified; the GATT server name_payload build copies a name of
at most 15 UTF-8 bytes unmodified, and for a longer name (without U+FFFD)
writes the UTF-8 bytes of a proper character prefix of the name, cut on a
codepoint boundary, followed by the tab marker, in at most 16 bytes. -/
theorem name_truncation_behavior :
    (∀ su iu : Nat, ∀ ident : List Nat, ∀ sid : Nat × Nat, ∀ nb : List Nat,
      29 < nb.length →
      (LegacyAdvConfig.catshareCompatible su iu ident nb sid).scan_rsp_data =
        30 :: 9 :: nb.take 29) ∧
    (∀ su iu : Nat, ∀ ident : List Nat, ∀ sid : Nat × Nat, ∀ nb : List Nat,
      nb ≠ [] → nb.length ≤ 29 →
      (LegacyAdvConfig.catshareCompatible su iu ident nb sid).scan_rsp_data =
        (1 + nb.length) :: 9 :: nb) ∧
    (∀ name : List Char, (utf8Encode name).length ≤ 15 →
      namePayloadBytes name = utf8Encode name) ∧
    (∀ name : List Char, 15 < (utf8Encode name).length → replChar ∉ name →
      ∃ s₁ s₂, name = s₁ ++ s₂ ∧ s₂ ≠ [] ∧ (utf8Encode s₁).length ≤ 15 ∧
        namePayloadBytes name = utf8Encode s₁ ++ [9] ∧
        (namePayloadBytes name).length ≤ 16) := by
  refine ⟨?_, ?_, ?_, ?_⟩
  · intro su iu ident sid nb h
    have hm : min nb.length 29 = 29 := Nat.min_eq_right (by omega)
    simp [LegacyAdvConfig.catshareCompatible, hm]
  · intro su iu ident sid nb hne hle
    have hpos : 0 < nb.length := List.length_pos.mpr hne
    have hm : min nb.length 29 = nb.length := Nat.min_eq_left (by omega)
    simp [LegacyAdvConfig.catshareCompatible, hm, hpos, List.take_length,
      Nat.mod_eq_of_lt (show 1 + nb.length < 256 by omega)]
  · intro name h
    have hm : min (utf8Encode name).length 16 = (utf8Encode name).length :=
      Nat.min_eq_left (by omega)
    simp [namePayloadBytes, h, hm, List.take_length]
  · intro name hlen hrepl
    obtain ⟨s₁, c, s₂, he, h1, h2, h3⟩ := utf8Encode_take name 15 hlen
    have hs1pre : s₁ <+: name := ⟨c :: s₂, he.symm⟩
    have hpop : popUntilPrefix name
        (utf8DecodeLossy ((utf8Encode name).take 15)) = s₁ := by
      rcases Nat.eq_zero_or_pos (15 - (utf8Encode s₁).length) with hj | hj
      · rw [h3, hj, List.take_zero, List.append_nil, utf8DecodeLossy_encode]
        exact popUntilPrefix_exact name s₁ hs1pre
      · rw [h3, utf8DecodeLossy_encode_append,
          utf8DecodeLossy_partial c _ hj h2]
        exact popUntilPrefix_pop name s₁ replChar hs1pre hrepl
    have hnp : namePayloadBytes name = utf8Encode s₁ ++ [9] := by
      rw [namePayloadBytes]
      rw [if_neg (by omega)]
      rw [hpop]
      dsimp only
      rw [utf8Encode_tab]
      have hl16 : (utf8Encode s₁ ++ [9]).length ≤ 16 := by
        simp only [List.length_append, List.length_cons, List.length_nil]
        omega
      rw [Nat.min_eq_left hl16, List.take_length]
    refine ⟨s₁, c :: s₂, he, by simp, h1, hnp, ?_⟩
    rw [hnp]
    simp only [List.length_append, List.length_cons, List.length_nil]
    omega

/-- Counterexample to C6 as stated: a 30-byte name ending in a two-byte
character is cut RAW at 29 bytes by the legacy advertisement encoder,
leaving a dangling UTF-8 lead byte 0xC3 and appending no tab marker
anywhere in the name field. -/
theorem name_truncation_counterexample :
    (LegacyAdvConfig.catshareCompatible 0x3331 0x011e []
        (List.replicate 28 0x61 ++ [0xC3, 0xA9]) (0, 0)).scan_rsp_data =
      30 :: 9 :: (List.replicate 28 0x61 ++ [0xC3]) ∧
    ∀ b ∈ ((LegacyAdvConfig.catshareCompatible 0x3331 0x011e []
        (List.replicate 28 0x61 ++ [0xC3, 0xA9]) (0, 0)).scan_rsp_data.drop 2),
      b ≠ 9 := by
  decide

/-- Witness for the amended C6 at a 30-byte name for the legacy encoder
and a 16-byte name for the GATT server payload. -/
theorem name_truncation_behavior_witness :
    (29 < (List.replicate 30 0x61 : List Nat).length ∧
      (LegacyAdvConfig.catshareCompatible 0x3331 0x011e []
        (List.replicate 30 0x61) (0, 0)).scan_rsp_data =
        30 :: 9 :: (List.replicate 30 0x61 : List Nat).take 29) ∧
    (15 < (utf8Encode (List.replicate 16 'a')).length ∧
      replChar ∉ List.replicate 16 'a' ∧
      ∃ s₁ s₂, List.replicate 16 'a' = s₁ ++ s₂ ∧ s₂ ≠ [] ∧
        (utf8Encode s₁).length ≤ 15 ∧
        namePayloadBytes (List.replicate 16 'a') = utf8Encode s₁ ++ [9] ∧
        (namePayloadBytes (List.replicate 16 'a')).length ≤ 16) :=
  ⟨⟨by decide, name_truncation_behavior.1 0x3331 0x011e [] (0, 0)
      (List.replicate 30 0x61) (by decide)⟩,
   ⟨by decide, by decide,
    name_truncation_behavior.2.2.2 (List.replicate 16 'a') (by decide)
      (by decide)⟩⟩

/-! ### Session cipher round trip (C1) -/

theorem xor_lt_256 {a b : Nat} (ha : a < 256) (hb : b < 256) :
    a ^^^ b < 256 := by
  have h := Nat.xor_lt_two_pow (show a < 2 ^ 8 by omega)
    (show b < 2 ^ 8 by omega)
  omega

theorem xtime_lt (b : Nat) : xtime b < 256 := Nat.mod_lt _ (by omega)

theorem gfMulAux_lt : ∀ n a b acc, a < 256 → acc < 256 →
    gfMulAux n a b acc < 256 := by
  intro n
  induction n with
  | zero => intro a b acc _ hacc; exact hacc
  | succ n ih =>
    intro a b acc ha hacc
    rw [gfMulAux]
    apply ih _ _ _ (xtime_lt a)
    split
    · exact xor_lt_256 hacc ha
    · exact hacc

theorem gfMul_lt (a b : Nat) (ha : a < 256) : gfMul a b < 256 :=
  gfMulAux_lt 8 a b 0 ha (by omega)

theorem gfPow_lt (a : Nat) (ha : a < 256) : ∀ n, gfPow a n < 256 := by
  intro n
  induction n with
  | zero => rw [gfPow]; omega
  | succ n _ => rw [gfPow]; exact gfMul_lt a _ ha

theorem gfInv_lt (b : Nat) (hb : b < 256) : gfInv b < 256 := by
  rw [gfInv]
  split
  · omega
  · exact gfPow_lt b hb 254

theorem rotl8_lt (x n : Nat) : rotl8 x n < 256 := Nat.mod_lt _ (by omega)

theorem sbox_lt (b : Nat) (hb : b < 256) : sbox b < 256 := by
  rw [sbox]
  exact xor_lt_256 (xor_lt_256 (xor_lt_256 (xor_lt_256 (xor_lt_256
    (gfInv_lt b hb) (rotl8_lt _ _)) (rotl8_lt _ _)) (rotl8_lt _ _))
    (rotl8_lt _ _)) (by omega)

theorem getD_lt (l : List Nat) (i : Nat) (h : ∀ x ∈ l, x < 256) :
    l.getD i 0 < 256 := by
  rcases Nat.lt_or_ge i l.length with hi | hi
  · rw [List.getD_eq_getElem l 0 hi]
    exact h _ (List.getElem_mem hi)
  · rw [List.getD_eq_default l 0 hi]
    omega

theorem zipWith_xor_lt : ∀ (a b : List Nat), (∀ x ∈ a, x < 256) →
    (∀ x ∈ b, x < 256) → ∀ x ∈ List.zipWith (· ^^^ ·) a b, x < 256 := by
  intro a
  induction a with
  | nil => intro b _ _ x hx; simp at hx
  | cons y a ih =>
    intro b ha hb x hx
    cases b with
    | nil => simp at hx
    | cons z b =>
      simp only [List.zipWith_cons_cons, List.mem_cons] at hx
      rcases hx with hx | hx
      · subst hx
        exact xor_lt_256 (ha y (by simp)) (hb z (by simp))
      · exact ih b (fun u hu => ha u (by simp [hu]))
          (fun u hu => hb u (by simp [hu])) x hx

theorem subWord_lt (w : List Nat) (h : ∀ x ∈ w, x < 256) :
    ∀ x ∈ subWord w, x < 256 := by
  intro x hx
  rw [subWord, List.mem_map] at hx
  obtain ⟨y, hy, hyx⟩ := hx
  exact hyx ▸ sbox_lt y (h y hy)

theorem rotWord_lt (w : List Nat) (h : ∀ x ∈ w, x < 256) :
    ∀ x ∈ rotWord w, x < 256 := by
  intro x hx
  cases w with
  | nil => simp [rotWord] at hx
  | cons a rest =>
    rw [rotWord] at hx
    rcases List.mem_append.mp hx with h2 | h2
    · exact h x (by simp [h2])
    · simp only [List.mem_cons, List.not_mem_nil, or_false] at h2
      subst h2
      exact h x (by simp)

theorem rconPow_lt : ∀ n, rconPow n < 256 := by
  intro n
  induction n with
  | zero => rw [rconPow]; omega
  | succ n _ => rw [rconPow]; exact xtime_lt _

theorem nextWord_lt (w : List (List Nat)) (i : Nat)
    (h : ∀ wd ∈ w, ∀ x ∈ wd, x < 256) : ∀ x ∈ nextWord w i, x < 256 := by
  have hprev : ∀ x ∈ w.getD (i - 1) [], x < 256 := by
    rcases Nat.lt_or_ge (i - 1) w.length with hi | hi
    · rw [List.getD_eq_getElem w [] hi]
      exact h _ (List.getElem_mem hi)
    · rw [List.getD_eq_default w [] hi]
      simp
  have hold : ∀ x ∈ w.getD (i - 8) [], x < 256 := by
    rcases Nat.lt_or_ge (i - 8) w.length with hi | hi
    · rw [List.getD_eq_getElem w [] hi]
      exact h _ (List.getElem_mem hi)
    · rw [List.getD_eq_default w [] hi]
      simp
  rw [nextWord]
  apply zipWith_xor_lt _ _ hold
  split
  · apply zipWith_xor_lt _ _ (subWord_lt _ (rotWord_lt _ hprev))
    intro x hx
    simp only [List.mem_cons, List.not_mem_nil, or_false] at hx
    rcases hx with hx | hx | hx | hx <;> subst hx
    · exact rconPow_lt _
    all_goals omega
  · split
    · exact subWord_lt _ hprev
    · exact hprev

theorem foldl_nextWord_lt (l : List Nat) (w : List (List Nat))
    (h : ∀ wd ∈ w, ∀ x ∈ wd, x < 256) :
    ∀ wd ∈ l.foldl (fun w j => w ++ [nextWord w (8 + j)]) w,
      ∀ x ∈ wd, x < 256 := by
  induction l generalizing w with
  | nil => exact h
  | cons j l ih =>
    simp only [List.foldl_cons]
    apply ih
    intro wd hwd
    rcases List.mem_append.mp hwd with h2 | h2
    · exact h wd h2
    · simp only [List.mem_cons, List.not_mem_nil, or_false] at h2
      subst h2
      exact nextWord_lt w (8 + j) h

theorem keyExpansion_lt (key : List Nat) (h : ∀ x ∈ key, x < 256) :
    ∀ wd ∈ keyExpansion key, ∀ x ∈ wd, x < 256 := by
  rw [keyExpansion]
  apply foldl_nextWord_lt
  intro wd hwd x hx
  rw [List.mem_map] at hwd
  obtain ⟨i, _, hi⟩ := hwd
  rw [← hi] at hx
  exact h x (List.mem_of_mem_drop (List.mem_of_mem_take hx))

theorem roundKey_lt (w : List (List Nat)) (r : Nat)
    (h : ∀ wd ∈ w, ∀ x ∈ wd, x < 256) : ∀ x ∈ roundKey w r, x < 256 := by
  intro x hx
  rw [roundKey, List.mem_flatten] at hx
  obtain ⟨wd, hwd, hxw⟩ := hx
  exact h wd (List.mem_of_mem_drop (List.mem_of_mem_take hwd)) x hxw

theorem subBytesL_lt (s : List Nat) (h : ∀ x ∈ s, x < 256) :
    ∀ x ∈ subBytesL s, x < 256 := by
  intro x hx
  rw [subBytesL, List.mem_map] at hx
  obtain ⟨y, hy, hyx⟩ := hx
  exact hyx ▸ sbox_lt y (h y hy)

theorem shiftRowsL_lt (s : List Nat) (h : ∀ x ∈ s, x < 256) :
    ∀ x ∈ shiftRowsL s, x < 256 := by
  intro x hx
  rw [shiftRowsL, List.mem_map] at hx
  obtain ⟨i, _, hi⟩ := hx
  exact hi ▸ getD_lt s _ h

theorem mixColumnsL_lt (s : List Nat) (h : ∀ x ∈ s, x < 256) :
    ∀ x ∈ mixColumnsL s, x < 256 := by
  intro x hx
  rw [mixColumnsL, List.mem_flatten] at hx
  obtain ⟨col, hcol, hxc⟩ := hx
  rw [List.mem_map] at hcol
  obtain ⟨c, _, hc⟩ := hcol
  rw [← hc, mixColumn] at hxc
  simp only [List.mem_cons, List.not_mem_nil, or_false] at hxc
  have g2 : ∀ y : Nat, gfMul 2 y < 256 := fun y => gfMul_lt 2 y (by omega)
  have g3 : ∀ y : Nat, gfMul 3 y < 256 := fun y => gfMul_lt 3 y (by omega)
  have gd : ∀ i : Nat, s.getD i 0 < 256 := fun i => getD_lt s i h
  rcases hxc with hx | hx | hx | hx <;> subst hx
  · exact xor_lt_256 (xor_lt_256 (xor_lt_256 (g2 _) (g3 _)) (gd _)) (gd _)
  · exact xor_lt_256 (xor_lt_256 (xor_lt_256 (gd _) (g2 _)) (g3 _)) (gd _)
  · exact xor_lt_256 (xor_lt_256 (xor_lt_256 (gd _) (gd _)) (g2 _)) (g3 _)
  · exact xor_lt_256 (xor_lt_256 (xor_lt_256 (g3 _) (gd _)) (gd _)) (g2 _)

theorem aes256EncryptBlock_lt (key block : List Nat)
    (hk : ∀ x ∈ key, x < 256) (hb : ∀ x ∈ block, x < 256) :
    ∀ x ∈ aes256EncryptBlock key block, x < 256 := by
  rw [aes256EncryptBlock]
  have hw := keyExpansion_lt key hk
  have hs0 : ∀ x ∈ addRoundKey block (roundKey (keyExpansion key) 0),
      x < 256 :=
    zipWith_xor_lt _ _ hb (roundKey_lt _ _ hw)
  have hfold : ∀ (l : List Nat) (s : List Nat), (∀ x ∈ s, x < 256) →
      ∀ x ∈ l.foldl (fun s r => aesRound (roundKey (keyExpansion key)
        (r + 1)) s) s, x < 256 := by
    intro l
    induction l with
    | nil => intro s hs; exact hs
    | cons r l ih =>
      intro s hs
      simp only [List.foldl_cons]
      apply ih
      rw [aesRound]
      exact zipWith_xor_lt _ _
        (mixColumnsL_lt _ (shiftRowsL_lt _ (subBytesL_lt _ hs)))
        (roundKey_lt _ _ hw)
  rw [aesFinalRound]
  exact zipWith_xor_lt _ _
    (shiftRowsL_lt _ (subBytesL_lt _ (hfold _ _ hs0)))
    (roundKey_lt _ _ hw)

theorem keystream_lt (key : List Nat) (n : Nat) (hk : ∀ x ∈ key, x < 256) :
    ∀ x ∈ keystream key n, x < 256 := by
  intro x hx
  rw [keystream, List.mem_map] at hx
  obtain ⟨i, _, hi⟩ := hx
  rw [← hi]
  apply getD_lt
  apply aes256EncryptBlock_lt key _ hk
  intro y hy
  rw [ctrBlock, List.mem_map] at hy
  obtain ⟨j, _, hj⟩ := hy
  rw [← hj]
  exact Nat.mod_lt _ (by omega)

theorem applyKeystream_lt (key buf : List Nat) (hk : ∀ x ∈ key, x < 256)
    (hb : ∀ x ∈ buf, x < 256) : ∀ x ∈ applyKeystream key buf, x < 256 := by
  rw [applyKeystream]
  exact zipWith_xor_lt _ _ hb (keystream_lt key _ hk)

theorem utf8EncodeChar_lt (c : Char) : ∀ x ∈ utf8EncodeChar c, x < 256 := by
  have hv : c.toNat < 0xd800 ∨ (0xdfff < c.toNat ∧ c.toNat < 0x110000) :=
    c.valid
  intro x hx
  rw [utf8EncodeChar] at hx
  split_ifs at hx <;>
    simp only [List.mem_cons, List.not_mem_nil, or_false] at hx
  · subst hx; omega
  · rcases hx with h | h <;> subst h <;> omega
  · rcases hx with h | h | h <;> subst h <;> omega
  · rcases hx with h | h | h | h <;> subst h <;> omega

theorem utf8Encode_lt (s : List Char) : ∀ x ∈ utf8Encode s, x < 256 := by
  intro x hx
  rw [utf8Encode, List.mem_flatten] at hx
  obtain ⟨l, hl, hxl⟩ := hx
  rw [List.mem_map] at hl
  obtain ⟨c, _, hc⟩ := hl
  rw [← hc] at hxl
  exact utf8EncodeChar_lt c x hxl

theorem b64Val_b64Char (n : Nat) (h : n < 64) : b64Val (b64Char n) = some n := by
  rw [b64Char]
  split_ifs with h1 h2 h3 h4
  · rw [b64Val, charOfNat_toNat (65 + n) (by omega)]
    rw [if_pos (by omega)]
    rw [show 65 + n - 65 = n from by omega]
  · rw [b64Val, charOfNat_toNat (97 + (n - 26)) (by omega)]
    rw [if_neg (by omega), if_pos (by omega)]
    rw [show 97 + (n - 26) - 97 + 26 = n from by omega]
  · rw [b64Val, charOfNat_toNat (48 + (n - 52)) (by omega)]
    rw [if_neg (by omega), if_neg (by omega), if_pos (by omega)]
    rw [show 48 + (n - 52) - 48 + 52 = n from by omega]
  · subst h4; decide
  · rw [show n = 63 from by omega]; decide

theorem b64Char_ne_pad (n : Nat) : b64Char n ≠ '=' := by
  rw [b64Char]
  split_ifs
  · exact char_ne_of_toNat_ne (by
      rw [charOfNat_toNat (65 + n) (by omega)]
      show 65 + n ≠ 61
      omega)
  · exact char_ne_of_toNat_ne (by
      rw [charOfNat_toNat (97 + (n - 26)) (by omega)]
      show 97 + (n - 26) ≠ 61
      omega)
  · exact char_ne_of_toNat_ne (by
      rw [charOfNat_toNat (48 + (n - 52)) (by omega)]
      show 48 + (n - 52) ≠ 61
      omega)
  · decide
  · decide

theorem base64_roundtrip : ∀ b : List Nat, (∀ x ∈ b, x < 256) →
    base64Decode (base64Encode b) = some b
  | [], _ => rfl
  | [a], h => by
    have ha : a < 256 := h a (by simp)
    rw [show base64Encode [a] =
      [b64Char (a / 4), b64Char (a % 4 * 16), '=', '='] from rfl]
    rw [base64Decode.eq_def]
    dsimp only
    rw [b64Val_b64Char (a / 4) (by omega), b64Val_b64Char (a % 4 * 16) (by omega)]
    dsimp only
    rw [if_pos rfl, if_pos ⟨rfl, rfl⟩, if_pos (by omega)]
    rw [show a / 4 * 4 + a % 4 * 16 / 16 = a from by omega]
  | [a, b], h => by
    have ha : a < 256 := h a (by simp)
    have hb : b < 256 := h b (by simp)
    rw [show base64Encode [a, b] = [b64Char (a / 4),
      b64Char (a % 4 * 16 + b / 16), b64Char (b % 16 * 4), '='] from rfl]
    rw [base64Decode.eq_def]
    dsimp only
    rw [b64Val_b64Char (a / 4) (by omega),
      b64Val_b64Char (a % 4 * 16 + b / 16) (by omega)]
    dsimp only
    rw [if_neg (b64Char_ne_pad _), b64Val_b64Char (b % 16 * 4) (by omega)]
    dsimp only
    rw [if_pos rfl, if_pos rfl, if_pos (by omega)]
    rw [show a / 4 * 4 + (a % 4 * 16 + b / 16) / 16 = a from by omega,
      show (a % 4 * 16 + b / 16) % 16 * 16 + b % 16 * 4 / 4 = b from by omega]
  | a :: b :: c :: d :: rest, h => by
    have ha : a < 256 := h a (by simp)
    have hb : b < 256 := h b (by simp)
    have hc : c < 256 := h c (by simp)
    have ih := base64_roundtrip (d :: rest) (fun x hx => h x (by simp [hx]))
    rw [show base64Encode (a :: b :: c :: d :: rest) = b64Char (a / 4) ::
      b64Char (a % 4 * 16 + b / 16) :: b64Char (b % 16 * 4 + c / 64) ::
      b64Char (c % 64) :: base64Encode (d :: rest) from rfl]
    rw [base64Decode.eq_def]
    dsimp only
    rw [b64Val_b64Char (a / 4) (by omega),
      b64Val_b64Char (a % 4 * 16 + b / 16) (by omega)]
    dsimp only
    rw [if_neg (b64Char_ne_pad _), b64Val_b64Char (b % 16 * 4 + c / 64) (by omega)]
    dsimp only
    rw [if_neg (b64Char_ne_pad _), b64Val_b64Char (c % 64) (by omega)]
    dsimp only
    rw [ih]
    rw [show a / 4 * 4 + (a % 4 * 16 + b / 16) / 16 = a from by omega,
      show (a % 4 * 16 + b / 16) % 16 * 16 + (b % 16 * 4 + c / 64) / 4 = b
        from by omega,
      show (b % 16 * 4 + c / 64) % 4 * 64 + c % 64 = c from by omega]
  | [a, b, c], h => by
    have ha : a < 256 := h a (by simp)
    have hb : b < 256 := h b (by simp)
    have hc : c < 256 := h c (by simp)
    rw [show base64Encode [a, b, c] = [b64Char (a / 4),
      b64Char (a % 4 * 16 + b / 16), b64Char (b % 16 * 4 + c / 64),
      b64Char (c % 64)] from rfl]
    rw [base64Decode.eq_def]
    dsimp only
    rw [b64Val_b64Char (a / 4) (by omega),
      b64Val_b64Char (a % 4 * 16 + b / 16) (by omega)]
    dsimp only
    rw [if_neg (b64Char_ne_pad _), b64Val_b64Char (b % 16 * 4 + c / 64) (by omega)]
    dsimp only
    rw [if_neg (b64Char_ne_pad _), b64Val_b64Char (c % 64) (by omega)]
    dsimp only
    rw [show base64Decode [] = some [] from rfl]
    rw [show a / 4 * 4 + (a % 4 * 16 + b / 16) / 16 = a from by omega,
      show (a % 4 * 16 + b / 16) % 16 * 16 + (b % 16 * 4 + c / 64) / 4 = b
        from by omega,
      show (b % 16 * 4 + c / 64) % 4 * 64 + c % 64 = c from by omega]

theorem utf8DecodeStrict_encodeChar (c : Char) (rest : List Nat) :
    utf8DecodeStrict (utf8EncodeChar c ++ rest) =
      (utf8DecodeStrict rest).map (c :: ·) := by
  have hv : c.toNat < 0xd800 ∨ (0xdfff < c.toNat ∧ c.toNat < 0x110000) :=
    c.valid
  by_cases h1 : c.toNat < 0x80
  · rw [show utf8EncodeChar c = [c.toNat] from by rw [utf8EncodeChar]; simp [h1]]
    rw [List.singleton_append]
    rw [utf8DecodeStrict.eq_def]; dsimp only
    rw [if_pos h1, Char.ofNat_toNat]
  · by_cases h2 : c.toNat < 0x800
    · rw [show utf8EncodeChar c =
          [0xC0 + c.toNat / 64, 0x80 + c.toNat % 64] from by
        rw [utf8EncodeChar]; simp [h1, h2]]
      simp only [List.cons_append, List.nil_append]
      rw [utf8DecodeStrict.eq_def]; dsimp only
      rw [if_neg (by omega), if_neg (by omega), if_pos (by omega),
        if_pos (by omega)]
      rw [show (0xC0 + c.toNat / 64 - 0xC0) * 64 +
          (0x80 + c.toNat % 64 - 0x80) = c.toNat from by omega,
        Char.ofNat_toNat]
    · by_cases h3 : c.toNat < 0x10000
      · rw [show utf8EncodeChar c =
            [0xE0 + c.toNat / 4096, 0x80 + c.toNat / 64 % 64,
             0x80 + c.toNat % 64] from by
          rw [utf8EncodeChar]; simp [h1, h2, h3]]
        simp only [List.cons_append, List.nil_append]
        rw [utf8DecodeStrict.eq_def]; dsimp only
        rw [if_neg (by omega), if_neg (by omega), if_neg (by omega),
          if_pos (by omega), if_pos (by split_ifs <;> omega),
          if_pos (by omega)]
        rw [show (0xE0 + c.toNat / 4096 - 0xE0) * 4096 +
            (0x80 + c.toNat / 64 % 64 - 0x80) * 64 +
            (0x80 + c.toNat % 64 - 0x80) = c.toNat from by omega,
          Char.ofNat_toNat]
      · rw [show utf8EncodeChar c =
            [0xF0 + c.toNat / 262144, 0x80 + c.toNat / 4096 % 64,
             0x80 + c.toNat / 64 % 64, 0x80 + c.toNat % 64] from by
          rw [utf8EncodeChar]; simp [h1, h2, h3]]
        simp only [List.cons_append, List.nil_append]
        rw [utf8DecodeStrict.eq_def]; dsimp only
        rw [if_neg (by omega), if_neg (by omega), if_neg (by omega),
          if_neg (by omega), if_pos (by omega),
          if_pos (by split_ifs <;> omega), if_pos (by omega),
          if_pos (by omega)]
        rw [show (0xF0 + c.toNat / 262144 - 0xF0) * 262144 +
            (0x80 + c.toNat / 4096 % 64 - 0x80) * 4096 +
            (0x80 + c.toNat / 64 % 64 - 0x80) * 64 +
            (0x80 + c.toNat % 64 - 0x80) = c.toNat from by omega,
          Char.ofNat_toNat]

theorem utf8DecodeStrict_encode (s : List Char) :
    utf8DecodeStrict (utf8Encode s) = some s := by
  induction s with
  | nil => rfl
  | cons c s ih =>
    have hx : utf8Encode (c :: s) = utf8EncodeChar c ++ utf8Encode s :=
      utf8Encode_cons c s
    rw [hx, utf8DecodeStrict_encodeChar, ih]
    rfl

theorem zip_xor_cancel : ∀ l ks : List Nat, l.length = ks.length →
    List.zipWith (· ^^^ ·) (List.zipWith (· ^^^ ·) l ks) ks = l := by
  intro l
  induction l with
  | nil => intro ks _; simp
  | cons x l ih =>
    intro ks h
    cases ks with
    | nil => simp at h
    | cons k ks =>
      simp only [List.zipWith_cons_cons]
      rw [ih ks (by simpa using h)]
      rw [Nat.xor_assoc, Nat.xor_self, Nat.xor_zero]

theorem applyKeystream_involution (key buf : List Nat) :
    applyKeystream key (applyKeystream key buf) = buf := by
  rw [applyKeystream, applyKeystream]
  have hlen : (List.zipWith (· ^^^ ·) buf
      (keystream key buf.length)).length = buf.length := by
    simp [keystream]
  rw [hlen]
  exact zip_xor_cancel buf (keystream key buf.length) (by simp [keystream])

/-- C1: for every 32-byte session key and every string, decrypting the
encryption succeeds and returns the plaintext: the base64 transport
decodes back to the ciphertext, the AES-256-CTR keystream under the
fixed IV cancels, and the strict UTF-8 check accepts the original
encoding. -/
theorem session_cipher_roundtrip (key : List Nat) (m : List Char)
    (hk : key.length = 32) (hkb : ∀ b ∈ key, b < 256) :
    sessionDecrypt key (sessionEncrypt key m) = some m := by
  rw [sessionEncrypt, sessionDecrypt]
  rw [base64_roundtrip (applyKeystream key (utf8Encode m))
    (applyKeystream_lt key _ hkb (utf8Encode_lt m))]
  dsimp only
  rw [applyKeystream_involution, utf8DecodeStrict_encode]

/-- Witness for C1 at an all-sevens key and the plaintext hi. -/
theorem session_cipher_roundtrip_witness :
    (List.replicate 32 (7 : Nat)).length = 32 ∧
    (∀ b ∈ List.replicate 32 (7 : Nat), b < 256) ∧
    sessionDecrypt (List.replicate 32 7)
      (sessionEncrypt (List.replicate 32 7) ['h', 'i']) = some ['h', 'i'] :=
  ⟨by decide, by decide,
    session_cipher_roundtrip (List.replicate 32 7) ['h', 'i']
      (by decide) (by decide)⟩

/-! ### P2P write error handling (C10) -/

/-- C10: in process_p2p_write with a sender key and a security context,
a successful derivation decrypts each of ssid, psk and mac individually,
leaving a field at its received ciphertext when its decryption fails
while still clearing the key and succeeding with an event; a failed
derivation leaves the info, key included, entirely unchanged; and the
write fails only when the payload is not UTF-8 or not a valid P2pInfo
JSON document. -/
theorem process_p2p_write_error_handling
    (data : List Nat) (sec : BleSecurityPersistent)
    (js : List Char) (info : P2pInfo) (k : List Char)
    (hutf : utf8DecodeStrict data = some js)
    (hinfo : (jsonParse js).bind p2pInfoFromJson = some info)
    (hkey : info.key = some k) :
    (∀ skey, sec.derive k = some skey →
      ∃ ev, process_p2p_write data (some sec) = some ev ∧
        ev.p2p_info.key = none ∧
        ev.sender_public_key = some k ∧
        ev.p2p_info.ssid = (sessionDecrypt skey info.ssid).getD info.ssid ∧
        ev.p2p_info.psk = (sessionDecrypt skey info.psk).getD info.psk ∧
        ev.p2p_info.mac = (sessionDecrypt skey info.mac).getD info.mac ∧
        (sessionDecrypt skey info.psk = none →
          ev.p2p_info.psk = info.psk)) ∧
    (sec.derive k = none →
      process_p2p_write data (some sec) = some ⟨info, some k⟩) ∧
    (∀ d2 : List Nat, ∀ s2 : Option BleSecurityPersistent,
      utf8DecodeStrict d2 = none → process_p2p_write d2 s2 = none) ∧
    (∀ d2 : List Nat, ∀ js2 : List Char,
      ∀ s2 : Option BleSecurityPersistent,
      utf8DecodeStrict d2 = some js2 →
      (jsonParse js2).bind p2pInfoFromJson = none →
      process_p2p_write d2 s2 = none) := by
  refine ⟨?_, ?_, ?_, ?_⟩
  · intro skey hd
    have hp : process_p2p_write data (some sec) =
        some ⟨{ info with
          ssid := (sessionDecrypt skey info.ssid).getD info.ssid,
          psk := (sessionDecrypt skey info.psk).getD info.psk,
          mac := (sessionDecrypt skey info.mac).getD info.mac,
          key := none }, info.key⟩ := by
      rw [process_p2p_write, hutf]
      dsimp only
      rw [hinfo]
      dsimp only
      rw [hkey]
      dsimp only
      rw [hd]
    refine ⟨_, hp, rfl, hkey, rfl, rfl, rfl, ?_⟩
    intro hnone
    show (sessionDecrypt skey info.psk).getD info.psk = info.psk
    rw [hnone]
    rfl
  · intro hd
    rw [process_p2p_write, hutf]
    dsimp only
    rw [hinfo]
    dsimp only
    rw [hkey]
    dsimp only
    rw [hd]
  · intro d2 s2 h2
    rw [process_p2p_write, h2]
  · intro d2 js2 s2 h2 h3
    rw [process_p2p_write, h2]
    dsimp only
    rw [h3]

/-- Witness for C10: a concrete encrypted P2pInfo whose key derivation
fails leaves everything unchanged. -/
theorem process_p2p_write_error_handling_witness :
    utf8DecodeStrict (utf8Encode
      ("\x7b\"key\":\"K\",\"mac\":\"C\",\"port\":1,\"psk\":\"B\",\"ssid\":\"A\"\x7d".data)) =
      some ("\x7b\"key\":\"K\",\"mac\":\"C\",\"port\":1,\"psk\":\"B\",\"ssid\":\"A\"\x7d".data) ∧
    (jsonParse
      ("\x7b\"key\":\"K\",\"mac\":\"C\",\"port\":1,\"psk\":\"B\",\"ssid\":\"A\"\x7d".data)).bind
      p2pInfoFromJson =
      some ⟨none, "A".data, "B".data, "C".data, 1, some ("K".data), none⟩ ∧
    process_p2p_write (utf8Encode
      ("\x7b\"key\":\"K\",\"mac\":\"C\",\"port\":1,\"psk\":\"B\",\"ssid\":\"A\"\x7d".data))
      (some ⟨fun _ => none⟩) =
      some ⟨⟨none, "A".data, "B".data, "C".data, 1, some ("K".data), none⟩,
        some ("K".data)⟩ :=
  ⟨rfl, rfl,
    (process_p2p_write_error_handling
      (utf8Encode
        ("\x7b\"key\":\"K\",\"mac\":\"C\",\"port\":1,\"psk\":\"B\",\"ssid\":\"A\"\x7d".data))
      ⟨fun _ => none⟩
      ("\x7b\"key\":\"K\",\"mac\":\"C\",\"port\":1,\"psk\":\"B\",\"ssid\":\"A\"\x7d".data)
      ⟨none, "A".data, "B".data, "C".data, 1, some ("K".data), none⟩
      ("K".data) rfl rfl rfl).2.1 rfl⟩

/-! ### Primality of the P-256 field characteristic (for C2) -/

theorem powModAux_eq : ∀ f a e n, 0 < n → e < 2 ^ f →
    powModAux f a e n = a ^ e % n := by
  intro f
  induction f with
  | zero =>
    intro a e n hn he
    have he0 : e = 0 := by simpa using he
    subst he0
    rw [powModAux]
    simp
  | succ f ih =>
    intro a e n hn he
    rw [powModAux]
    by_cases he0 : e = 0
    · subst he0; simp
    · rw [if_neg he0]
      have h2 : e / 2 < 2 ^ f := by
        have : 2 ^ (f + 1) = 2 * 2 ^ f := by ring
        omega
      rw [ih (a * a % n) (e / 2) n hn h2]
      have hgen : (a * a % n) ^ (e / 2) % n = (a * a) ^ (e / 2) % n := by
        rw [← Nat.pow_mod]
      by_cases hodd : e % 2 = 1
      · rw [if_pos hodd, hgen, Nat.mod_mul_mod]
        conv_rhs => rw [show e = 2 * (e / 2) + 1 from by omega]
        rw [pow_succ, pow_mul, pow_two]
      · rw [if_neg hodd, hgen]
        conv_rhs => rw [show e = 2 * (e / 2) from by omega]
        rw [pow_mul, pow_two]

theorem natPowMod_eq (a e n : Nat) (hn : 0 < n) (he : e < 2 ^ 300) :
    natPowMod a e n = a ^ e % n := by
  rw [natPowMod]
  exact powModAux_eq 300 a e n hn he

theorem natPowMod_lt (a e n : Nat) (hn : 0 < n) (he : e < 2 ^ 300) :
    natPowMod a e n < n := by
  rw [natPowMod_eq a e n hn he]
  exact Nat.mod_lt _ hn

theorem natPowMod_zmod (p a e : Nat) (hp : 0 < p) (he : e < 2 ^ 300) :
    ((natPowMod a e p : Nat) : ZMod p) = (a : ZMod p) ^ e := by
  rw [natPowMod_eq a e p hp he, ZMod.natCast_mod, Nat.cast_pow]

theorem pratt (p a : Nat) (factors : List Nat) (hp : 2 ≤ p)
    (hsz : p ≤ 2 ^ 300)
    (hprod : p - 1 = factors.prod)
    (hfp : ∀ q ∈ factors, Nat.Prime q)
    (hpow : natPowMod a (p - 1) p = 1 % p)
    (hd : ∀ q ∈ factors, natPowMod a ((p - 1) / q) p ≠ 1 % p) :
    Nat.Prime p := by
  have hp0 : 0 < p := by omega
  haveI : Fact (1 < p) := ⟨by omega⟩
  have he1 : p - 1 < 2 ^ 300 := by omega
  apply lucas_primality p (a : ZMod p)
  · have hz := natPowMod_zmod p a (p - 1) hp0 he1
    rw [hpow, Nat.mod_eq_of_lt (by omega), Nat.cast_one] at hz
    exact hz.symm
  · intro q hq hqd
    have hmem : q ∈ factors := by
      rw [hprod] at hqd
      obtain ⟨f, hf, hqf⟩ := (hq.prime.dvd_prod_iff).mp hqd
      rwa [(Nat.prime_dvd_prime_iff_eq hq (hfp f hf)).mp hqf]
    intro hcon
    apply hd q hmem
    have he2 : (p - 1) / q < 2 ^ 300 :=
      Nat.lt_of_le_of_lt (Nat.div_le_self _ _) he1
    have hz := natPowMod_zmod p a ((p - 1) / q) hp0 he2
    rw [hcon] at hz
    have hlt : natPowMod a ((p - 1) / q) p < p := natPowMod_lt a _ p hp0 he2
    have hval := congrArg ZMod.val hz
    rw [ZMod.val_cast_of_lt hlt, ZMod.val_one p] at hval
    rw [hval, Nat.mod_eq_of_lt (by omega)]

theorem prime_17449 : Nat.Prime 17449 := by norm_num

set_option maxRecDepth 8000 in
theorem prime_6700417 : Nat.Prime 6700417 :=
  pratt 6700417 5 [2, 2, 2, 2, 2, 2, 2, 3, 17449]
    (by norm_num) (by norm_num) (by decide)
    (by
      intro q hq
      simp only [List.mem_cons, List.not_mem_nil, or_false] at hq
      rcases hq with rfl | rfl | rfl | rfl | rfl | rfl | rfl | rfl | rfl
      all_goals first
        | exact Nat.prime_two
        | exact Nat.prime_three
        | exact prime_17449)
    (by decide) (by decide)

theorem prime_3677 : Nat.Prime 3677 := by norm_num

set_option maxRecDepth 8000 in
theorem prime_66417393611 : Nat.Prime 66417393611 :=
  pratt 66417393611 6 [2, 5, 53, 173, 197, 3677]
    (by norm_num) (by norm_num) (by decide)
    (by
      intro q hq
      simp only [List.mem_cons, List.not_mem_nil, or_false] at hq
      rcases hq with rfl | rfl | rfl | rfl | rfl | rfl
      all_goals first
        | exact Nat.prime_two
        | exact prime_3677
        | norm_num)
    (by decide) (by decide)

set_option maxRecDepth 8000 in
theorem prime_11290956913871 : Nat.Prime 11290956913871 :=
  pratt 11290956913871 13 [2, 5, 17, 66417393611]
    (by norm_num) (by norm_num) (by decide)
    (by
      intro q hq
      simp only [List.mem_cons, List.not_mem_nil, or_false] at hq
      rcases hq with rfl | rfl | rfl | rfl
      all_goals first
        | exact Nat.prime_two
        | exact prime_66417393611
        | norm_num)
    (by decide) (by decide)

set_option maxRecDepth 8000 in
theorem prime_46076956964474543 : Nat.Prime 46076956964474543 :=
  pratt 46076956964474543 5 [2, 23, 18169, 78283, 704251]
    (by norm_num) (by norm_num) (by decide)
    (by
      intro q hq
      simp only [List.mem_cons, List.not_mem_nil, or_false] at hq
      rcases hq with rfl | rfl | rfl | rfl | rfl
      all_goals first
        | exact Nat.prime_two
        | norm_num)
    (by decide) (by decide)

set_option maxRecDepth 8000 in
theorem prime_204061199 : Nat.Prime 204061199 :=
  pratt 204061199 11 [2, 11, 23, 107, 3769]
    (by norm_num) (by norm_num) (by decide)
    (by
      intro q hq
      simp only [List.mem_cons, List.not_mem_nil, or_false] at hq
      rcases hq with rfl | rfl | rfl | rfl | rfl
      all_goals first
        | exact Nat.prime_two
        | norm_num)
    (by decide) (by decide)

set_option maxRecDepth 8000 in
theorem prime_34282281433 : Nat.Prime 34282281433 :=
  pratt 34282281433 17 [2, 2, 2, 3, 7, 204061199]
    (by norm_num) (by norm_num) (by decide)
    (by
      intro q hq
      simp only [List.mem_cons, List.not_mem_nil, or_false] at hq
      rcases hq with rfl | rfl | rfl | rfl | rfl | rfl
      all_goals first
        | exact Nat.prime_two
        | exact Nat.prime_three
        | exact prime_204061199
        | norm_num)
    (by decide) (by decide)

set_option maxRecDepth 8000 in
theorem prime_q45 :
    Nat.Prime 774023187263532362759620327192479577272145303 :=
  pratt 774023187263532362759620327192479577272145303 3
    [2, 3, 3, 2411, 34282281433, 11290956913871, 46076956964474543]
    (by norm_num) (by norm_num) (by decide)
    (by
      intro q hq
      simp only [List.mem_cons, List.not_mem_nil, or_false] at hq
      rcases hq with rfl | rfl | rfl | rfl | rfl | rfl | rfl
      all_goals first
        | exact Nat.prime_two
        | exact Nat.prime_three
        | exact prime_34282281433
        | exact prime_11290956913871
        | exact prime_46076956964474543
        | norm_num)
    (by decide) (by decide)

set_option maxRecDepth 8000 in
theorem prime_p49 :
    Nat.Prime 835945042244614951780389953367877943453916927241 :=
  pratt 835945042244614951780389953367877943453916927241 11
    [2, 2, 2, 3, 3, 3, 5,
     774023187263532362759620327192479577272145303]
    (by norm_num) (by norm_num) (by decide)
    (by
      intro q hq
      simp only [List.mem_cons, List.not_mem_nil, or_false] at hq
      rcases hq with rfl | rfl | rfl | rfl | rfl | rfl | rfl | rfl
      all_goals first
        | exact Nat.prime_two
        | exact Nat.prime_three
        | exact prime_q45
        | norm_num)
    (by decide) (by decide)

set_option maxRecDepth 8000 in
theorem prime_p256 : Nat.Prime p256 :=
  pratt p256 6
    [2, 3, 5, 5, 17, 257, 641, 1531, 65537, 490463, 6700417,
     835945042244614951780389953367877943453916927241]
    (by norm_num [p256]) (by norm_num [p256]) (by decide)
    (by
      intro q hq
      simp only [List.mem_cons, List.not_mem_nil, or_false] at hq
      rcases hq with rfl | rfl | rfl | rfl | rfl | rfl | rfl | rfl | rfl |
        rfl | rfl | rfl
      all_goals first
        | exact Nat.prime_two
        | exact Nat.prime_three
        | exact prime_6700417
        | exact prime_p49
        | norm_num)
    (by decide) (by decide)

instance : Fact (Nat.Prime p256) := ⟨prime_p256⟩

instance : NeZero p256 := ⟨by decide⟩

set_option maxRecDepth 4000 in
theorem g_nonsingular :
    P256.Nonsingular (p256gx : ZMod p256) (p256gy : ZMod p256) := by
  rw [WeierstrassCurve.Affine.nonsingular_iff,
    WeierstrassCurve.Affine.equation_iff]
  decide

theorem fromPoint_some (x y : ZMod p256) (h : P256.Nonsingular x y) :
    fromPoint (.some h) = some (x, y) := rfl

theorem p256_negY (x y : ZMod p256) : P256.negY x y = -y := by
  show -y - P256.a₁ * x - P256.a₃ = -y
  rw [show P256.a₁ = 0 from rfl, show P256.a₃ = 0 from rfl]
  ring

theorem fromPoint_add (P Q : P256.Point) :
    fromPoint (P + Q) = pAdd (fromPoint P) (fromPoint Q) := by
  rcases P with _ | @⟨x₁, y₁, h₁⟩
  · rw [WeierstrassCurve.Affine.Point.zero_def, zero_add]
    rcases Q with _ | @⟨x₂, y₂, h₂⟩ <;> rfl
  · rcases Q with _ | @⟨x₂, y₂, h₂⟩
    · rw [WeierstrassCurve.Affine.Point.zero_def, add_zero]
      rfl
    · by_cases hx : x₁ = x₂
      · by_cases hy : y₁ = P256.negY x₂ y₂
        · rw [WeierstrassCurve.Affine.Point.add_of_Y_eq hx hy]
          have hmy : y₁ = -y₂ := by rw [hy, p256_negY]
          show (none : Pt) = pAdd (some (x₁, y₁)) (some (x₂, y₂))
          rw [pAdd]
          rw [if_pos hx, if_pos hmy]
        · have hy2 : y₁ ≠ -y₂ := by
            rw [← p256_negY x₂ y₂]
            exact hy
          rw [WeierstrassCurve.Affine.Point.add_of_Y_ne hy]
          have hL : P256.slope x₁ x₂ y₁ y₂ =
              (3 * x₁ ^ 2 - 3) * (2 * y₁)⁻¹ := by
            rw [WeierstrassCurve.Affine.slope_of_Y_ne hx hy, p256_negY]
            rw [show P256.a₂ = 0 from rfl,
              show P256.a₄ = (-3 : ZMod p256) from rfl,
              show P256.a₁ = 0 from rfl, div_eq_mul_inv,
              show y₁ - -y₁ = 2 * y₁ from by ring]
            ring
          rw [fromPoint_some, fromPoint_some, fromPoint_some]
          rw [pAdd.eq_def]
          dsimp only
          rw [if_pos hx, if_neg hy2]
          simp only [Option.some.injEq, Prod.mk.injEq]
          constructor
          · rw [WeierstrassCurve.Affine.addX, hL,
              show P256.a₁ = 0 from rfl, show P256.a₂ = 0 from rfl]
            ring
          · rw [WeierstrassCurve.Affine.addY, p256_negY,
              WeierstrassCurve.Affine.negAddY, WeierstrassCurve.Affine.addX,
              hL, show P256.a₁ = 0 from rfl, show P256.a₂ = 0 from rfl]
            ring
      · rw [WeierstrassCurve.Affine.Point.add_of_X_ne hx]
        have hL : P256.slope x₁ x₂ y₁ y₂ = (y₁ - y₂) * (x₁ - x₂)⁻¹ := by
          rw [WeierstrassCurve.Affine.slope_of_X_ne hx, div_eq_mul_inv]
        rw [fromPoint_some, fromPoint_some, fromPoint_some]
        rw [pAdd.eq_def]
        dsimp only
        rw [if_neg hx]
        simp only [Option.some.injEq, Prod.mk.injEq]
        constructor
        · rw [WeierstrassCurve.Affine.addX, hL,
            show P256.a₁ = 0 from rfl, show P256.a₂ = 0 from rfl]
          ring
        · rw [WeierstrassCurve.Affine.addY, p256_negY,
            WeierstrassCurve.Affine.negAddY, WeierstrassCurve.Affine.addX,
            hL, show P256.a₁ = 0 from rfl, show P256.a₂ = 0 from rfl]
          ring

theorem fromPoint_smul (n : Nat) (P : P256.Point) :
    fromPoint (n • P) = pSMul n (fromPoint P) := by
  induction n with
  | zero => rw [zero_nsmul]; rfl
  | succ n ih =>
    rw [succ_nsmul', fromPoint_add, ih]
    rfl

theorem foldl_i2ospAux : ∀ (k n acc : Nat),
    List.foldl (fun a b => a * 256 + b) acc (i2ospAux k n) =
      acc * 2 ^ (8 * k) + n % 2 ^ (8 * k) := by
  intro k
  induction k with
  | zero => intro n acc; simp [i2ospAux, Nat.mod_one]
  | succ k ih =>
    intro n acc
    rw [i2ospAux, List.foldl_cons, ih]
    have hE : 2 ^ (8 * (k + 1)) = 2 ^ (8 * k) * 256 := by
      rw [show 8 * (k + 1) = 8 * k + 8 from by ring, pow_add]
      norm_num
    have hm : n % (2 ^ (8 * k) * 256) =
        n % 2 ^ (8 * k) + 2 ^ (8 * k) * (n / 2 ^ (8 * k) % 256) :=
      Nat.mod_mul
    rw [hE, hm]
    ring

theorem os2ip_i2osp32 (n : Nat) (h : n < 2 ^ 256) : os2ip (i2osp32 n) = n := by
  show List.foldl (fun a b => a * 256 + b) 0 (i2ospAux 32 n) = n
  rw [foldl_i2ospAux]
  simp only [Nat.zero_mul, Nat.zero_add]
  exact Nat.mod_eq_of_lt (by exact h)

theorem i2ospAux_length : ∀ k n, (i2ospAux k n).length = k := by
  intro k
  induction k with
  | zero => intro n; rfl
  | succ k ih => intro n; rw [i2ospAux, List.length_cons, ih]

theorem i2osp32_length (n : Nat) : (i2osp32 n).length = 32 :=
  i2ospAux_length 32 n

theorem i2ospAux_lt : ∀ k n, ∀ x ∈ i2ospAux k n, x < 256 := by
  intro k
  induction k with
  | zero => intro n x hx; simp [i2ospAux] at hx
  | succ k ih =>
    intro n x hx
    rw [i2ospAux] at hx
    rcases List.mem_cons.mp hx with h | h
    · subst h; exact Nat.mod_lt _ (by omega)
    · exact ih n x h

theorem i2osp32_lt (n : Nat) : ∀ x ∈ i2osp32 n, x < 256 :=
  i2ospAux_lt 32 n

theorem pubkeyDer_lt (P : Pt) : ∀ x ∈ pubkeyDer P, x < 256 := by
  intro x hx
  rcases P with _ | ⟨px, py⟩
  · simp [pubkeyDer] at hx
  · rw [show pubkeyDer (some (px, py)) =
      spkiPrefix ++ 4 :: (i2osp32 px.val ++ i2osp32 py.val) from rfl] at hx
    simp only [List.mem_append, List.mem_cons] at hx
    have hx2 : x ∈ spkiPrefix ∨ x = 4 ∨ x ∈ i2osp32 px.val ∨
        x ∈ i2osp32 py.val := by tauto
    rcases hx2 with h | h | h | h
    · exact (show ∀ z ∈ spkiPrefix, z < 256 from by decide) x h
    · omega
    · exact i2osp32_lt _ x h
    · exact i2osp32_lt _ x h

theorem parse_pubkeyDer (x y : ZMod p256) (h : P256.Nonsingular x y) :
    parse_public_key (pubkeyDer (some (x, y))) = some (some (x, y)) := by
  have hxv : x.val < p256 := ZMod.val_lt x
  have hyv : y.val < p256 := ZMod.val_lt y
  have hp2 : p256 < 2 ^ 256 := by decide
  have hlx : (i2osp32 x.val).length = 32 := i2osp32_length _
  have hly : (i2osp32 y.val).length = 32 := i2osp32_length _
  have hcurve : y ^ 2 = x ^ 3 - 3 * x + p256b := by
    have hE := ((P256.nonsingular_iff x y).mp h).1
    rw [P256.equation_iff] at hE
    rw [show P256.a₁ = 0 from rfl, show P256.a₂ = 0 from rfl,
      show P256.a₃ = 0 from rfl, show P256.a₄ = (-3 : ZMod p256) from rfl,
      show P256.a₆ = p256b from rfl] at hE
    linear_combination hE
  have hD : pubkeyDer (some (x, y)) =
      spkiPrefix ++ 4 :: (i2osp32 x.val ++ i2osp32 y.val) := rfl
  have htake : (spkiPrefix ++ 4 :: (i2osp32 x.val ++ i2osp32 y.val)).take 26 =
      spkiPrefix := by
    rw [show (26 : Nat) = spkiPrefix.length from rfl]
    exact List.take_left _ _
  have hlen : (spkiPrefix ++ 4 :: (i2osp32 x.val ++ i2osp32 y.val)).length =
      91 := by
    simp only [List.length_append, List.length_cons, hlx, hly]
    rfl
  have hdrop : (spkiPrefix ++ 4 :: (i2osp32 x.val ++ i2osp32 y.val)).drop 26 =
      4 :: (i2osp32 x.val ++ i2osp32 y.val) := by
    rw [show (26 : Nat) = spkiPrefix.length from rfl]
    exact List.drop_left _ _
  have htake2 : (i2osp32 x.val ++ i2osp32 y.val).take 32 = i2osp32 x.val := by
    rw [show (32 : Nat) = (i2osp32 x.val).length from hlx.symm]
    exact List.take_left _ _
  have hdrop2 : (i2osp32 x.val ++ i2osp32 y.val).drop 32 = i2osp32 y.val := by
    rw [show (32 : Nat) = (i2osp32 x.val).length from hlx.symm]
    exact List.drop_left _ _
  have hox : os2ip (i2osp32 x.val) = x.val := os2ip_i2osp32 _ (by omega)
  have hoy : os2ip (i2osp32 y.val) = y.val := os2ip_i2osp32 _ (by omega)
  have hcx : ((x.val : Nat) : ZMod p256) = x := ZMod.natCast_rightInverse x
  have hcy : ((y.val : Nat) : ZMod p256) = y := ZMod.natCast_rightInverse y
  rw [hD, parse_public_key, if_pos ⟨htake, hlen⟩, hdrop, sec1Parse.eq_def]
  dsimp only
  rw [htake2, hdrop2, hox, hoy]
  rw [if_pos (by rw [List.length_append, hlx, hly])]
  rw [if_pos ⟨hxv, hyv, by rw [hcx, hcy]; exact hcurve⟩, hcx, hcy]

theorem diffie_hellman_length (s : Nat) (P : Pt) :
    (diffie_hellman s P).length = 32 := by
  rw [diffie_hellman]
  split
  · exact i2osp32_length _
  · exact i2osp32_length _

/-- C2: ECDH agreement commutes: for any two key pairs of secrets a and b
with nonidentity public points a G and b G (as BleSecurity::new
generates), deriving with a against the base64 SPKI encoding of b G and
deriving with b against that of a G both succeed and give the same
32-byte session key. -/
theorem ecdh_commutative (a b : Nat)
    (ha : pSMul a gPt ≠ none) (hb : pSMul b gPt ≠ none) :
    ∃ k : List Nat, k.length = 32 ∧
      derive_session_key a (base64PublicKey (pSMul b gPt)) = some k ∧
      derive_session_key b (base64PublicKey (pSMul a gPt)) = some k := by
  have hg : fromPoint (WeierstrassCurve.Affine.Point.some g_nonsingular) =
      gPt := rfl
  have hcomm : pSMul a (pSMul b gPt) = pSMul b (pSMul a gPt) := by
    rw [← hg, ← fromPoint_smul, ← fromPoint_smul, ← fromPoint_smul,
      ← fromPoint_smul, smul_smul, smul_smul, Nat.mul_comm]
  have hside : ∀ s t : Nat, pSMul t gPt ≠ none →
      derive_session_key s (base64PublicKey (pSMul t gPt)) =
        some (diffie_hellman s (pSMul t gPt)) := by
    intro s t hne
    have hPt : fromPoint
        (t • (WeierstrassCurve.Affine.Point.some g_nonsingular :
          P256.Point)) = pSMul t gPt := by
      rw [fromPoint_smul, hg]
    rcases hQ : (t • (WeierstrassCurve.Affine.Point.some g_nonsingular :
        P256.Point)) with _ | @⟨qx, qy, hq⟩
    · rw [hQ] at hPt
      exact absurd hPt.symm hne
    · rw [hQ, fromPoint_some] at hPt
      rw [← hPt]
      rw [base64PublicKey, derive_session_key,
        base64_roundtrip (pubkeyDer (some (qx, qy))) (pubkeyDer_lt _)]
      dsimp only
      rw [parse_pubkeyDer qx qy hq]
  refine ⟨diffie_hellman a (pSMul b gPt), diffie_hellman_length _ _,
    hside a b hb, ?_⟩
  rw [hside b a ha]
  have hdh : diffie_hellman b (pSMul a gPt) =
      diffie_hellman a (pSMul b gPt) := by
    rw [diffie_hellman, diffie_hellman, hcomm]
  rw [hdh]

/-- Witness for C2 at the secrets one and one. -/
theorem ecdh_commutative_witness :
    pSMul 1 gPt ≠ none ∧
    ∃ k : List Nat, k.length = 32 ∧
      derive_session_key 1 (base64PublicKey (pSMul 1 gPt)) = some k ∧
      derive_session_key 1 (base64PublicKey (pSMul 1 gPt)) = some k :=
  ⟨by decide, ecdh_commutative 1 1 (by decide) (by decide)⟩

end Cattysend
